import Mathlib

/-!
# goc coverage hub: profile codec, profile algebra and metrics

A shallow embedding of `pkg/cover/instrument.go`, `pkg/cover/metrics.go` and
`pkg/cover/server.go`.

Conventions of the embedding

* Text is a list of runes (`Str`), the UTF-8 decoding of the Go string or byte
  slice; `byteLen` gives back the length in bytes.
* Go `int` is 64 bit: values are `Int`, and `wrapInt` reduces the result of an
  addition into the signed 64-bit range.
* A Go function returning `(value, error)` returns `Except`; a panic is an
  error constructor of its own.
* `sort.Sort` is not stable and its order on equal keys is not part of its
  contract, so the block sort is a parameter `srt` constrained by `SortsByStart`;
  `insertionSortBlocks` is what the library runs on slices of up to 12 elements.
-/

namespace Goc

/-- Text as a sequence of runes. -/
abbrev Str := List Char

deriving instance DecidableEq for Except

/-- Length in bytes of the UTF-8 encoding. -/
def byteLen (s : Str) : Nat := (s.map Char.utf8Size).sum

/-! ## Data model (`instrument.go`) -/

/-- The Go struct `ProfileBlock`. -/
structure ProfileBlock where
  StartLine : Int
  StartCol : Int
  EndLine : Int
  EndCol : Int
  NumStmt : Int
  Count : Int
  deriving DecidableEq, Repr, Inhabited

/-- The Go struct `Profile`. -/
structure Profile where
  FileName : Str
  Mode : Str
  Blocks : List ProfileBlock
  deriving DecidableEq, Repr, Inhabited

/-- The largest Go `int`. -/
def maxInt : Int := 2 ^ 63 - 1

/-- Two's complement reduction of an integer into the range of a Go `int`. -/
def wrapInt (x : Int) : Int := (x + 2 ^ 63) % 2 ^ 64 - 2 ^ 63

/-! ## `bufio.Scanner` with `bufio.ScanLines` -/

/-- The constant `bufio.MaxScanTokenSize`: a line that does not fit a buffer of this
many bytes stops the scan with `bufio.ErrTooLong`. -/
def MaxScanTokenSize : Nat := 65536

/-- The lines of the input before the carriage return is dropped: the input is
cut after every newline, and a last line without newline counts when it is not
empty. -/
def rawLines : Str → List Str
  | [] => []
  | c :: cs =>
    if c = '\n' then [] :: rawLines cs
    else
      match rawLines cs with
      | [] => [[c]]
      | l :: ls => (c :: l) :: ls

/-- The helper `dropCR` of `bufio`: drops one terminal carriage return. -/
def dropCR : Str → Str
  | [] => []
  | [c] => if c = '\r' then [] else [c]
  | c :: d :: cs => c :: dropCR (d :: cs)

/-! ## The regular expression `lineRe`

`^(.+):([0-9]+).([0-9]+),([0-9]+).([0-9]+) ([0-9]+) ([0-9]+)$`

Go's `regexp` gives the leftmost-first match: among the matches at the start of
the text the one a backtracking search finds first, every `+` trying its longest
repetition first. Each piece of the expression is a function from the remaining
text to the list of its possible matches in that order of preference, and the
pieces are chained with `List.flatMap`.
-/

/-- The class `[0-9]`. -/
def isDigit (c : Char) : Bool := decide ('0' ≤ c) && decide (c ≤ '9')

/-- The piece `([0-9]+)`: every non-empty prefix of the leading run of digits with
the text after it, longest first. -/
def digitsPlus : Str → List (Str × Str)
  | [] => []
  | c :: cs =>
    if isDigit c then (digitsPlus cs).map (fun m => (c :: m.1, m.2)) ++ [([c], cs)]
    else []

/-- The piece `(.+)`: every non-empty prefix that holds no newline with the text
after it, longest first. -/
def dotPlus : Str → List (Str × Str)
  | [] => []
  | c :: cs =>
    if c = '\n' then []
    else (dotPlus cs).map (fun m => (c :: m.1, m.2)) ++ [([c], cs)]

/-- The piece `.`: one rune other than newline. -/
def anyChar : Str → List Str
  | [] => []
  | c :: cs => if c = '\n' then [] else [cs]

/-- A literal rune of the expression. -/
def lit (x : Char) : Str → List Str
  | [] => []
  | c :: cs => if c = x then [cs] else []

/-- The piece `$`: the end of the text. -/
def endOfText : Str → List Unit
  | [] => [()]
  | _ :: _ => []

/-- The seven submatches `m[1]` to `m[7]` of `lineRe`. -/
structure Submatch where
  file : Str
  startLine : Str
  startCol : Str
  endLine : Str
  endCol : Str
  numStmt : Str
  count : Str
  deriving DecidableEq, Repr

/-- All matches of `lineRe` on a line, in the order of preference of the search. -/
def lineReMatches (line : Str) : List Submatch :=
  (dotPlus line).flatMap fun m1 =>
  (lit ':' m1.2).flatMap fun r1 =>
  (digitsPlus r1).flatMap fun m2 =>
  (anyChar m2.2).flatMap fun r2 =>
  (digitsPlus r2).flatMap fun m3 =>
  (lit ',' m3.2).flatMap fun r3 =>
  (digitsPlus r3).flatMap fun m4 =>
  (anyChar m4.2).flatMap fun r4 =>
  (digitsPlus r4).flatMap fun m5 =>
  (lit ' ' m5.2).flatMap fun r5 =>
  (digitsPlus r5).flatMap fun m6 =>
  (lit ' ' m6.2).flatMap fun r6 =>
  (digitsPlus r6).flatMap fun m7 =>
  (endOfText m7.2).map fun _ =>
    { file := m1.1, startLine := m2.1, startCol := m3.1, endLine := m4.1,
      endCol := m5.1, numStmt := m6.1, count := m7.1 }

/-- The call `lineRe.FindStringSubmatch(line)`: the preferred match, `none` for a
nil result. -/
def FindStringSubmatch (line : Str) : Option Submatch := (lineReMatches line).head?

/-! ## `toInt` -/

/-- Value of a decimal digit. -/
def digitVal (c : Char) : Nat := c.toNat - 48

/-- Value of a string of decimal digits. -/
def atoiNat (s : Str) : Nat := s.foldl (fun a c => 10 * a + digitVal c) 0

/-- The function `toInt`: `strconv.Atoi` on a submatch of `[0-9]+`; `none` stands
for the panic on a value that does not fit an `int` (and on text that is not a
string of digits, which `lineRe` never hands over). -/
def toInt (s : Str) : Option Int :=
  if s ≠ [] ∧ s.all isDigit ∧ (atoiNat s : Int) ≤ maxInt then some (atoiNat s) else none

/-! ## `blocksByStart` and the sort of the blocks -/

/-- The method `blocksByStart.Less`. -/
def blockLess (a b : ProfileBlock) : Bool :=
  decide (a.StartLine < b.StartLine) ||
    (decide (a.StartLine = b.StartLine) && decide (a.StartCol < b.StartCol))

/-- The contract of `sort.Sort(blocksByStart(..))`: the result is a rearrangement
of the slice in which no block is `Less` than one before it. -/
structure SortsByStart (srt : List ProfileBlock → List ProfileBlock) : Prop where
  perm : ∀ l, List.Perm (srt l) l
  sorted : ∀ l, List.Pairwise (fun a b => blockLess b a = false) (srt l)

/-- The inner loop of `insertionSort` in Go's `sort`: the new element is swapped
to the left while it is `Less` than its left neighbour. The sorted part is given
back to front, nearest neighbour first. -/
def sink {α : Type} (less : α → α → Bool) (x : α) : List α → List α
  | [] => [x]
  | y :: ys => if less x y then y :: sink less x ys else x :: y :: ys

/-- The function `insertionSort` of Go's `sort`, which `sort.Sort` runs on a slice
of at most 12 elements. -/
def insertionSort {α : Type} (less : α → α → Bool) (l : List α) : List α :=
  (l.foldl (fun acc x => sink less x acc) []).reverse

/-- The call `sort.Sort(blocksByStart(blocks))` on a short slice. -/
def insertionSortBlocks (l : List ProfileBlock) : List ProfileBlock :=
  insertionSort blockLess l

/-- The comparison `<` of two Go strings, byte by byte; on UTF-8 text that is
rune by rune. -/
def strLess : Str → Str → Bool
  | _, [] => false
  | [], _ :: _ => true
  | a :: as, b :: bs => decide (a < b) || (decide (a = b) && strLess as bs)

/-! ## `ParseProfiles` -/

/-- The outcomes of `ParseProfiles` other than a profile list. The error text of
`inconsistentNumStmt` names the two values of the first file the map iteration
meets, which Go leaves open; only the kind of the error is kept. -/
inductive ParseError where
  | badModeLine (line : Str)
  | badFormat
  | inconsistentNumStmt
  | tooLong
  | atoiPanic
  deriving DecidableEq, Repr

/-- The text `"mode: "`. -/
def modePrefix : Str := ['m', 'o', 'd', 'e', ':', ' ']

/-- The update of the map `files` by one record: the profile of the file is
created when the map has none, and the block is appended to it. The map is kept
as the list of its values in the order of their creation. -/
def addBlock (fn mode : Str) (b : ProfileBlock) : List Profile → List Profile
  | [] => [{ FileName := fn, Mode := mode, Blocks := [b] }]
  | p :: ps =>
    if p.FileName = fn then { p with Blocks := p.Blocks ++ [b] } :: ps
    else p :: addBlock fn mode b ps

/-- The block of a record, `none` when one of the six calls of `toInt` panics. -/
def blockOf (m : Submatch) : Option ProfileBlock :=
  match toInt m.startLine, toInt m.startCol, toInt m.endLine, toInt m.endCol,
      toInt m.numStmt, toInt m.count with
  | some a, some b, some c, some d, some e, some f =>
    some { StartLine := a, StartCol := b, EndLine := c, EndCol := d, NumStmt := e, Count := f }
  | _, _, _, _, _, _ => none

/-- The loop `for s.Scan()` over the lines still to read, followed by the check
of `s.Err()`: the state is the mode and the map of the files. -/
def scanLoop (mode : Str) (files : List Profile) : List Str → Except ParseError (Str × List Profile)
  | [] => .ok (mode, files)
  | raw :: rest =>
    if MaxScanTokenSize ≤ byteLen raw then .error .tooLong
    else
      let line := dropCR raw
      if mode = [] then
        if ¬ modePrefix.isPrefixOf line ∨ line = modePrefix then .error (.badModeLine line)
        else scanLoop (line.drop modePrefix.length) files rest
      else
        match FindStringSubmatch line with
        | none => .error .badFormat
        | some m =>
          match blockOf m with
          | none => .error .atoiPanic
          | some b => scanLoop mode (addBlock m.file mode b files) rest

/-- The test of the merge loop: the same start and end position. -/
def sameSpan (a b : ProfileBlock) : Bool :=
  decide (a.StartLine = b.StartLine) && decide (a.StartCol = b.StartCol) &&
    decide (a.EndLine = b.EndLine) && decide (a.EndCol = b.EndCol)

/-- The mode `"set"`. -/
def setMode : Str := ['s', 'e', 't']

/-- The update of the count of the last kept block: `|=` in mode `set`, `+=`
otherwise. -/
def combineCount (mode : Str) (last b : Int) : Int :=
  if mode = setMode then Int.lor last b else wrapInt (last + b)

/-- The loop "Merge samples from the same location" from index 1 on: `last` is
`p.Blocks[j-1]`, the list holds `p.Blocks[i:]`, the result is `p.Blocks[j-1:]`
after the truncation. -/
def mergeLoop (mode : Str) : ProfileBlock → List ProfileBlock → Except ParseError (List ProfileBlock)
  | last, [] => .ok [last]
  | last, b :: rest =>
    if sameSpan b last then
      if b.NumStmt ≠ last.NumStmt then .error .inconsistentNumStmt
      else mergeLoop mode { last with Count := combineCount mode last.Count b.Count } rest
    else
      match mergeLoop mode b rest with
      | .error e => .error e
      | .ok out => .ok (last :: out)

/-- The merge loop on the sorted blocks of one file. Every profile of the map has
a block, so the empty case is never run. -/
def mergeSamples (mode : Str) : List ProfileBlock → Except ParseError (List ProfileBlock)
  | [] => .ok []
  | b :: rest => mergeLoop mode b rest

/-- The loop `for _, p := range files`: sort and merge of every profile. -/
def mergeAll (srt : List ProfileBlock → List ProfileBlock) (mode : Str) :
    List Profile → Except ParseError (List Profile)
  | [] => .ok []
  | p :: ps =>
    match mergeSamples mode (srt p.Blocks) with
    | .error e => .error e
    | .ok bl =>
      match mergeAll srt mode ps with
      | .error e => .error e
      | .ok out => .ok ({ p with Blocks := bl } :: out)

/-- The method `byFileName.Less`. -/
def fileNameLess (p q : Profile) : Bool := strLess p.FileName q.FileName

/-- The call `sort.Sort(byFileName(profiles))`. The file names of the profiles
are pairwise different, so every sort gives the same slice; the insertion sort
is taken. -/
def sortByFileName (l : List Profile) : List Profile := insertionSort fileNameLess l

/-- The function `ParseProfiles`. -/
def ParseProfiles (srt : List ProfileBlock → List ProfileBlock) (bs : Str) :
    Except ParseError (List Profile) :=
  match scanLoop [] [] (rawLines bs) with
  | .error e => .error e
  | .ok (mode, files) =>
    match mergeAll srt mode files with
    | .error e => .error e
    | .ok ps => .ok (sortByFileName ps)

/-! ## Writing a profile list -/

/-- The decimal digit of a number below ten. -/
def digitChar (d : Nat) : Char := Char.ofNat (48 + d)

/-- The decimal digits of a natural number, most significant first; the first
argument bounds the number of digits. -/
def natDigits : Nat → Nat → Str
  | 0, _ => []
  | fuel + 1, n =>
    if n < 10 then [digitChar n] else natDigits fuel (n / 10) ++ [digitChar (n % 10)]

/-- The verb `%d` on a natural number. -/
def formatNat (n : Nat) : Str := natDigits (n + 1) n

/-- The verb `%d` of `fmt` on an `int`. -/
def formatInt (x : Int) : Str :=
  if x < 0 then '-' :: formatNat x.natAbs else formatNat x.toNat

/-- The text of one record without its newline: the format `"%s:%d.%d,%d.%d %d %d"`. -/
def recordText (fn : Str) (b : ProfileBlock) : Str :=
  fn ++ ':' :: (formatInt b.StartLine ++ '.' :: (formatInt b.StartCol ++
    ',' :: (formatInt b.EndLine ++ '.' :: (formatInt b.EndCol ++
    ' ' :: (formatInt b.NumStmt ++ ' ' :: formatInt b.Count)))))

/-- One record, the format `"%s:%d.%d,%d.%d %d %d\n"` of the handler of
`/v1/cover/profile`. -/
def emitBlock (fn : Str) (b : ProfileBlock) : Str := recordText fn b ++ ['\n']

/-- Modelled from the spec: Emit of §4.A (`cov.DumpProfile`, which is not among the
sources): the line `mode: <mode>` once, then for every profile in order and every
block in order the record line, in the format of the handler of
`/v1/cover/profile`. Nothing is written for an empty list. -/
def emitProfiles : List Profile → Str
  | [] => []
  | p :: ps =>
    modePrefix ++ p.Mode ++ '\n' ::
      (p :: ps).flatMap (fun q => q.Blocks.flatMap (emitBlock q.FileName))

/-! ## Metrics (`metrics.go`) -/

/-- A `float64` value: not-a-number, an infinity, or a finite value. A finite
value is kept exact: the rounding to 53 bits is left out. -/
inductive F64 where
  | nan
  | inf (negative : Bool)
  | fin (q : ℚ)
  deriving DecidableEq, Inhabited

/-- The conversion `float64(n)`. -/
def F64.ofInt (n : Int) : F64 := .fin n

/-- The product of two `float64` values. -/
def F64.mul : F64 → F64 → F64
  | .nan, _ => .nan
  | _, .nan => .nan
  | .inf s, .inf t => .inf (s != t)
  | .inf s, .fin q => if q = 0 then .nan else .inf (s != decide (q < 0))
  | .fin q, .inf s => if q = 0 then .nan else .inf (s != decide (q < 0))
  | .fin p, .fin q => .fin (p * q)

/-- The quotient of two `float64` values; a zero denominator is the positive
zero that `float64(0)` gives. -/
def F64.div : F64 → F64 → F64
  | .nan, _ => .nan
  | _, .nan => .nan
  | .inf _, .inf _ => .nan
  | .inf s, .fin q => .inf (s != decide (q < 0))
  | .fin _, .inf _ => .fin 0
  | .fin p, .fin q =>
    if q = 0 then (if p = 0 then .nan else .inf (decide (p < 0))) else .fin (p / q)

/-- The function `percent`. -/
def percent (covered total : Int) : F64 :=
  let total := if total = 0 then 0 else total
  F64.div (F64.mul (.fin 100) (F64.ofInt covered)) (F64.ofInt total)

/-- The Go struct `MetricsItem`. -/
structure MetricsItem where
  Covered : Int
  Total : Int
  CoverRate : F64
  deriving DecidableEq, Inhabited

/-- The Go struct `MetricsData`; the map `PkgData` is the list of its entries in
the order of their creation. -/
structure MetricsData where
  Name : Str
  Covered : Int
  Total : Int
  CoverRate : F64
  PkgData : List (Str × MetricsItem)
  Ts : Int
  deriving DecidableEq, Inhabited

/-- The inner loop of `getMetricsData` over the blocks of a profile: the pair
`(covered_, total_)`. -/
def blockSums (blocks : List ProfileBlock) : Int × Int :=
  blocks.foldl
    (fun acc b =>
      (if b.Count > 0 then wrapInt (acc.1 + b.NumStmt) else acc.1, wrapInt (acc.2 + b.NumStmt)))
    (0, 0)

/-- The update of `pkgData[pkgName]`: a new item when the map has none, then
`v.Covered += covered_` and `v.Total += total_`. -/
def addPkg (pkg : Str) (covered total : Int) : List (Str × MetricsItem) → List (Str × MetricsItem)
  | [] => [(pkg, { Covered := wrapInt (0 + covered), Total := wrapInt (0 + total), CoverRate := .fin 0 })]
  | e :: es =>
    if e.1 = pkg then
      (pkg, { e.2 with Covered := wrapInt (e.2.Covered + covered),
                       Total := wrapInt (e.2.Total + total) }) :: es
    else e :: addPkg pkg covered total es

/-- The state of the first loop of `getMetricsData`. -/
structure MetricsAcc where
  pkgData : List (Str × MetricsItem)
  total : Int
  covered : Int

/-- One round of the first loop of `getMetricsData`; `dir` is `path.Dir`. -/
def metricsStep (dir : Str → Str) (acc : MetricsAcc) (profile : Profile) : MetricsAcc :=
  let s := blockSums profile.Blocks
  { pkgData := addPkg (dir profile.FileName) s.1 s.2 acc.pkgData,
    total := wrapInt (acc.total + s.2),
    covered := wrapInt (acc.covered + s.1) }

/-- The function `getMetricsData`; `dir` is the library function `path.Dir`. -/
def getMetricsData (dir : Str → Str) (profiles : List Profile) : MetricsData :=
  let acc := profiles.foldl (metricsStep dir) { pkgData := [], total := 0, covered := 0 }
  { Name := [],
    Covered := acc.covered,
    Total := acc.total,
    CoverRate := percent acc.covered acc.total,
    PkgData := acc.pkgData.map
      (fun e => (e.1, { e.2 with CoverRate := percent e.2.Covered e.2.Total })),
    Ts := 0 }

/-! ## Filters (`server.go`) -/

/-- The library `regexp` as far as the filters use it: which patterns compile, and
which texts a compiled pattern matches. -/
structure Regexp where
  compiles : Str → Bool
  isMatch : Str → Str → Bool

/-- The call `regexp.MatchString(pattern, s)`: `none` stands for the error of a
pattern that does not compile. -/
def MatchString (re : Regexp) (pattern s : Str) : Option Bool :=
  if re.compiles pattern then some (re.isMatch pattern s) else none

/-- The inner loop of `filterProfile` and of `skipProfile` over the patterns:
whether one of them matches, or the pattern that fails to compile. -/
def matchAny (re : Regexp) (name : Str) : List Str → Except Str Bool
  | [] => .ok false
  | pattern :: rest =>
    match MatchString re pattern name with
    | none => .error pattern
    | some true => .ok true
    | some false => matchAny re name rest

/-- The function `filterProfile`; the error holds the pattern and the file name
of its text. -/
def filterProfile (re : Regexp) (coverFile : List Str) :
    List Profile → Except (Str × Str) (List Profile)
  | [] => .ok []
  | profile :: rest =>
    match matchAny re profile.FileName coverFile with
    | .error pattern => .error (pattern, profile.FileName)
    | .ok matched =>
      match filterProfile re coverFile rest with
      | .error e => .error e
      | .ok out => .ok (if matched then profile :: out else out)

/-! ## Notions used to state the properties -/

/-- Sum of `NumStmt` over a list of blocks. -/
def stmtSum (blocks : List ProfileBlock) : Int := (blocks.map (fun b => b.NumStmt)).sum

/-- Sum of `NumStmt` over the blocks with a positive count. -/
def coveredSum (blocks : List ProfileBlock) : Int :=
  stmtSum (blocks.filter (fun b => decide (b.Count > 0)))

/-- All blocks of a list of profiles. -/
def allBlocks (profiles : List Profile) : List ProfileBlock :=
  profiles.flatMap (fun p => p.Blocks)

/-- The profiles whose file lies in the directory `d`. -/
def inDir (dir : Str → Str) (d : Str) (profiles : List Profile) : List Profile :=
  profiles.filter (fun p => decide (dir p.FileName = d))

/-- The text before the last slash of a path: what `path.Dir` gives on a clean
path with a slash in it. Used for instances only. -/
def beforeLastSlash (s : Str) : Str :=
  (s.reverse.dropWhile (fun c => c != '/')).drop 1 |>.reverse

/-- A fragment of `regexp` for instances: the patterns `^text` with a text free
of operators, which match the strings that begin with the text. -/
def prefixRegexp : Regexp where
  compiles := fun pattern =>
    match pattern with
    | '^' :: rest => rest.all (fun c => c.isAlphanum || c == '/')
    | _ => false
  isMatch := fun pattern s => (pattern.drop 1).isPrefixOf s

/-- Two profiles of the package `a` with five blocks and ten statements, six of them
in the three blocks with a positive count. -/
def fiveBlocks : List Profile :=
  [⟨"a/f.go".toList, "count".toList,
      [⟨1, 1, 1, 9, 1, 2⟩, ⟨2, 1, 2, 9, 2, 0⟩, ⟨3, 1, 3, 9, 3, 1⟩]⟩,
    ⟨"a/g.go".toList, "count".toList, [⟨1, 1, 1, 9, 2, 7⟩, ⟨2, 1, 2, 9, 2, 0⟩]⟩]

/-- The pattern `^foo/` of the scenario S4. -/
def fooPattern : Str := ['^', 'f', 'o', 'o', '/']

/-- The text `foo/`. -/
def fooPrefix : Str := ['f', 'o', 'o', '/']

/-- Whether a line is of the form `mode: <mode>` with a non-empty mode. -/
def validModeLine (line : Str) : Bool :=
  modePrefix.isPrefixOf line && decide (line ≠ modePrefix)

/-- The file name and the block that the loop of `ParseProfiles` takes from a record
line, `none` when the line is refused. -/
def parseRecord (line : Str) : Option (Str × ProfileBlock) :=
  match FindStringSubmatch line with
  | none => none
  | some m =>
    match blockOf m with
    | none => none
    | some b => some (m.file, b)

/-- The lines after the first one as the scanner hands them over. -/
def recordLines (bs : Str) : List Str := ((rawLines bs).drop 1).map dropCR

/-- The records of an input: file name and block of every line after the first. -/
def records (bs : Str) : List (Str × ProfileBlock) := (recordLines bs).filterMap parseRecord

/-- The map `files` after a list of records. -/
def buildFiles (mode : Str) (recs : List (Str × ProfileBlock)) (files : List Profile) :
    List Profile :=
  recs.foldl (fun fs r => addBlock r.1 mode r.2 fs) files

/-- The blocks of the records of one file, in the order of the records. -/
def blocksOfFile (fn : Str) (recs : List (Str × ProfileBlock)) : List ProfileBlock :=
  (recs.filter (fun r => decide (r.1 = fn))).map Prod.snd

/-- The fields of a block that the merge loop leaves as they are. -/
def blockKey (b : ProfileBlock) : Int × Int × Int × Int × Int :=
  (b.StartLine, b.StartCol, b.EndLine, b.EndCol, b.NumStmt)

/-- The order of the start positions: (StartLine, StartCol) of `a` is at most that of
`b` in the lexicographic order. -/
def startLE (a b : ProfileBlock) : Prop :=
  a.StartLine < b.StartLine ∨ (a.StartLine = b.StartLine ∧ a.StartCol ≤ b.StartCol)

/-- The six fields of a block are values that `toInt` returns: between 0 and the
largest `int`. -/
def ProfileBlock.inRange (b : ProfileBlock) : Prop :=
  (0 ≤ b.StartLine ∧ b.StartLine ≤ maxInt) ∧ (0 ≤ b.StartCol ∧ b.StartCol ≤ maxInt) ∧
  (0 ≤ b.EndLine ∧ b.EndLine ≤ maxInt) ∧ (0 ≤ b.EndCol ∧ b.EndCol ≤ maxInt) ∧
  (0 ≤ b.NumStmt ∧ b.NumStmt ≤ maxInt) ∧ (0 ≤ b.Count ∧ b.Count ≤ maxInt)

/-- Sum of `Count` over a list of blocks. -/
def countSum (blocks : List ProfileBlock) : Int := (blocks.map (fun b => b.Count)).sum

/-! ## `skipProfile`, `filterAddrs` and `getProfile` (`server.go`) -/

/-- The function `skipProfile`; the error holds the pattern and the file name of
its text. -/
def skipProfile (re : Regexp) (skipFile : List Str) :
    List Profile → Except (Str × Str) (List Profile)
  | [] => .ok []
  | profile :: rest =>
    match matchAny re profile.FileName skipFile with
    | .error pattern => .error (pattern, profile.FileName)
    | .ok shouldSkip =>
      match skipProfile re skipFile rest with
      | .error e => .error e
      | .ok out => .ok (if shouldSkip then out else profile :: out)

/-- Whether the loop over the patterns meets, for the text `name`, a pattern that
does not compile before one that matches: the patterns before it compile and do
not match. -/
def MeetsInvalid (re : Regexp) (name : Str) (patterns : List Str) : Prop :=
  ∃ before bad after, patterns = before ++ bad :: after ∧ re.compiles bad = false ∧
    ∀ q ∈ before, re.compiles q = true ∧ re.isMatch q name = false

/-- The errors of `filterAddrs`. -/
inductive AddrError where
  | ambiguous
  | serviceNotFound (name : Str)
  | addressNotFound (addr : Str)
  deriving DecidableEq, Repr

/-- The map `allInfos`, service name to addresses, as the list of its entries in the
order in which `range` meets them. -/
abbrev Registry := List (Str × List Str)

/-- The lookup `allInfos[name]` with its `ok`. -/
def lookupService (allInfos : Registry) (name : Str) : Option (List Str) :=
  (allInfos.find? (fun e => decide (e.1 = name))).map Prod.snd

/-- The slice `addressAll`: the addresses of all services, in the order of the
iteration over the map. -/
def addressAll (allInfos : Registry) : List Str := allInfos.flatMap Prod.snd

/-- The function `contains`. -/
def contains (arr : List Str) (str : Str) : Bool :=
  match arr with
  | [] => false
  | element :: rest => if str = element then true else contains rest str

/-- The loop "Add matched services to map" of `filterAddrs`. -/
def serviceLoop (force : Bool) (allInfos : Registry) (filterAddrList : List Str) :
    List Str → Except AddrError (List Str)
  | [] => .ok filterAddrList
  | name :: rest =>
    match lookupService allInfos name with
    | some addr => serviceLoop force allInfos (filterAddrList ++ addr) rest
    | none =>
      if !force then .error (.serviceNotFound name)
      else serviceLoop force allInfos filterAddrList rest

/-- The loop "Add matched addresses to map" of `filterAddrs`. -/
def addressLoop (force : Bool) (all : List Str) (filterAddrList : List Str) :
    List Str → Except AddrError (List Str)
  | [] => .ok filterAddrList
  | addr :: rest =>
    if contains all addr then addressLoop force all (filterAddrList ++ [addr]) rest
    else if !force then .error (.addressNotFound addr)
    else addressLoop force all filterAddrList rest

/-- The function `filterAddrs`. -/
def filterAddrs (serviceList addressList : List Str) (force : Bool) (allInfos : Registry) :
    Except AddrError (List Str) :=
  if serviceList.length ≠ 0 ∧ addressList.length ≠ 0 then .error .ambiguous
  else
    match serviceLoop force allInfos [] serviceList with
    | .error e => .error e
    | .ok l1 =>
      match addressLoop force (addressAll allInfos) l1 addressList with
      | .error e => .error e
      | .ok l2 =>
        if addressList.length = 0 ∧ serviceList.length = 0 then .ok (addressAll allInfos)
        else .ok l2

/-- The reference of C13, after its words: `none` when the request fails. -/
def filterAddrsReference (services addresses : List Str) (force : Bool)
    (registry : Registry) : Option (List Str) :=
  if services ≠ [] ∧ addresses ≠ [] then none
  else if force = false ∧
      ((∃ s ∈ services, s ∉ registry.map Prod.fst) ∨
        (∃ a ∈ addresses, ∀ e ∈ registry, a ∉ e.2)) then none
  else if services = [] ∧ addresses = [] then some (registry.flatMap Prod.snd)
  else
    some ((services.filterMap (fun s => lookupService registry s)).flatten ++
      addresses.filter (fun a => decide (∃ e ∈ registry, a ∈ e.2)))

/-- The collaborators of `getProfile` that are not in `server.go`: the fetch of
`NewWorker(addr).Profile(ProfileParam{})`, the parse of `convertProfile` (a temporary
file and `cover.ParseProfiles` of `golang.org/x/tools`), and
`cov.MergeMultipleProfiles`. An error is kept as its text. -/
structure Collector where
  fetch : Str → Except Str Str
  convert : Str → Except Str (List Profile)
  merge : List (List Profile) → Except Str (List Profile)

/-- The errors of `getProfile`. -/
inductive GetProfileError where
  | fetchFailed (addr : Str) (err : Str)
  | convertFailed (err : Str)
  | noProfiles
  | mergeFailed (err : Str)
  | filterFailed (err : Str × Str)
  | skipFailed (err : Str × Str)
  deriving DecidableEq

/-- The loop of `getProfile` over the addresses: the slice `mergedProfiles`. -/
def collectProfiles (c : Collector) (force : Bool) :
    List Str → Except GetProfileError (List (List Profile))
  | [] => .ok []
  | addr :: rest =>
    match c.fetch addr with
    | .error err =>
      if force then collectProfiles c force rest else .error (.fetchFailed addr err)
    | .ok pp =>
      match c.convert pp with
      | .error err => .error (.convertFailed err)
      | .ok profile =>
        match collectProfiles c force rest with
        | .error e => .error e
        | .ok more => .ok (profile :: more)

/-- The end of `getProfile`: the merge, then the two filters when their pattern
lists are not empty. -/
def mergeAndFilter (c : Collector) (re : Regexp) (coverfile skipfile : List Str)
    (mergedProfiles : List (List Profile)) : Except GetProfileError (List Profile) :=
  match c.merge mergedProfiles with
  | .error err => .error (.mergeFailed err)
  | .ok merged =>
    match (if coverfile.length > 0 then
        (match filterProfile re coverfile merged with
          | .error e => Except.error (GetProfileError.filterFailed e)
          | .ok out => .ok out)
      else .ok merged) with
    | .error e => .error e
    | .ok merged =>
      if skipfile.length > 0 then
        match skipProfile re skipfile merged with
        | .error e => .error (.skipFailed e)
        | .ok out => .ok out
      else .ok merged

/-- The function `getProfile`. -/
def getProfile (c : Collector) (re : Regexp) (addrList : List Str) (force : Bool)
    (coverfile skipfile : List Str) : Except GetProfileError (List Profile) :=
  match collectProfiles c force addrList with
  | .error e => .error e
  | .ok mergedProfiles =>
    if mergedProfiles.length = 0 then .error .noProfiles
    else mergeAndFilter c re coverfile skipfile mergedProfiles

/-- The bodies that the agents of an address list return, in the order of the
addresses: the fetches that succeed. -/
def fetched (c : Collector) (addrList : List Str) : List Str :=
  addrList.filterMap (fun addr => match c.fetch addr with
    | .ok pp => some pp
    | .error _ => none)

/-- A collector for instances: the agent at the address `up` answers with one record,
the agent at the address `bad` answers with a body that is no profile, every other
address refuses; the parse is `ParseProfiles` and the merge puts the profile sets one
after the other. -/
def exampleCollector : Collector where
  fetch := fun addr =>
    if addr = ['u', 'p'] then .ok "mode: set\nf:1.1,1.2 1 1\n".toList
    else if addr = ['b', 'a', 'd'] then .ok "<html>".toList
    else .error "refused".toList
  convert := fun body =>
    match ParseProfiles insertionSortBlocks body with
    | .ok ps => .ok ps
    | .error _ => .error "parse".toList
  merge := fun sets => .ok sets.flatten

/-! ## The counters of the agent (`instrument.go`) -/

/-- The struct `testing.CoverBlock`; the fields are `uint32` and `uint16` values. -/
structure CoverBlock where
  Line0 : Nat
  Col0 : Nat
  Line1 : Nat
  Col1 : Nat
  Stmts : Nat
  deriving DecidableEq, Repr, Inhabited

/-- The conversion `uint16(x)`. -/
def uint16 (x : Nat) : Nat := x % 2 ^ 16

/-- A Go map with string keys as the list of its entries. -/
abbrev StrMap (α : Type) := List (Str × α)

/-- The lookup `m[k]`; `none` for a key that is not in the map. -/
def mapGet {α : Type} (m : StrMap α) (k : Str) : Option α :=
  (m.find? (fun e => decide (e.1 = k))).map Prod.snd

/-- The assignment `m[k] = v`. -/
def mapSet {α : Type} (k : Str) (v : α) : StrMap α → StrMap α
  | [] => [(k, v)]
  | e :: es => if e.1 = k then (k, v) :: es else e :: mapSet k v es

/-- The block that the loop of `loadFileCover` builds for the index `i`; `none` when
one of the four reads is out of range. -/
def coverBlockAt (pos numStmts : List Nat) (i : Nat) : Option CoverBlock :=
  match pos[3 * i + 0]?, pos[3 * i + 2]?, pos[3 * i + 1]?, numStmts[i]? with
  | some l0, some w, some l1, some n =>
    some { Line0 := l0, Col0 := uint16 w, Line1 := l1, Col1 := uint16 (w >>> 16), Stmts := n }
  | _, _, _, _ => none

/-- The loop `for i := range counter` of `loadFileCover` up to the index `n`: the
slice `block[:n]`. -/
def loadBlocks (pos numStmts : List Nat) : Nat → Option (List CoverBlock)
  | 0 => some []
  | n + 1 =>
    match loadBlocks pos numStmts n, coverBlockAt pos numStmts n with
    | some blocks, some b => some (blocks ++ [b])
    | _, _ => none

/-- The panics of `loadFileCover`. -/
inductive LoadError where
  | mismatchedSizes
  | indexOutOfRange
  deriving DecidableEq, Repr

/-- The function `loadFileCover`: the two maps after the call. The counter slices come
from arrays and are never nil, so a file is registered when its name is a key. -/
def loadFileCover (coverCounters : StrMap (List Nat)) (coverBlocks : StrMap (List CoverBlock))
    (fileName : Str) (counter pos numStmts : List Nat) :
    Except LoadError (StrMap (List Nat) × StrMap (List CoverBlock)) :=
  if 3 * counter.length ≠ pos.length ∨ counter.length ≠ numStmts.length then
    .error .mismatchedSizes
  else if (mapGet coverCounters fileName).isSome then .ok (coverCounters, coverBlocks)
  else
    match loadBlocks pos numStmts counter.length with
    | none => .error .indexOutOfRange
    | some block => .ok (mapSet fileName counter coverCounters, mapSet fileName block coverBlocks)

/-! ## Boundaries and the HTML of a source file (`instrument.go`) -/

/-- The Go struct `Boundary`. -/
structure Boundary where
  Offset : Int
  Start : Bool
  Count : Int
  Norm : F64
  Index : Int
  deriving DecidableEq, Inhabited

/-- The loop "Find maximum count" of `Boundaries`. -/
def maxCount (blocks : List ProfileBlock) : Int :=
  blocks.foldl (fun max b => if b.Count > max then b.Count else max) 0

/-- The closure `boundary` of `Boundaries` for the current value of `index`; `log n`
is `math.Log(float64(n))`, and `log max` is the divisor. -/
def boundary (log : Int → F64) (max index offset : Int) (start : Bool) (count : Int) :
    Boundary :=
  let b : Boundary :=
    { Offset := offset, Start := start, Count := count, Norm := .fin 0, Index := index }
  if !start || count == 0 then b
  else if max ≤ 1 then { b with Norm := .fin (4 / 5) }
  else if count > 0 then { b with Norm := F64.div (log count) (log max) }
  else b

/-- The state of the loop of `Boundaries` between two rounds: the cursor `line`,
`col`, the offset `si`, the next `index`, and the bytes of the source from `si` on. -/
structure WalkState where
  line : Int
  col : Int
  si : Int
  index : Int
  src : List Nat

/-- The rounds of the loop of `Boundaries` for one block `b`, up to the round that
closes the block or to the end of the source: the boundaries appended and the state
after them. A byte is given as its value. -/
def scanBlock (log : Int → F64) (max : Int) (b : ProfileBlock) :
    Int → Int → Int → Int → List Nat → List Boundary × WalkState
  | line, col, si, index, [] => ([], { line := line, col := col, si := si, index := index, src := [] })
  | line, col, si, index, c :: src =>
    let started := decide (b.StartLine = line) && decide (b.StartCol = col)
    let opened := if started then [boundary log max index si true b.Count] else []
    let index1 := if started then index + 1 else index
    if (decide (b.EndLine = line) && decide (b.EndCol = col)) || decide (line > b.EndLine) then
      (opened ++ [boundary log max index1 si false 0],
        { line := line, col := col, si := si, index := index1 + 1, src := c :: src })
    else
      let next :=
        if c = 10 then scanBlock log max b (line + 1) (0 + 1) (si + 1) index1 src
        else scanBlock log max b line (col + 1) (si + 1) index1 src
      (opened ++ next.1, next.2)

/-- The loop of `Boundaries` over the blocks still to close. -/
def walkBlocks (log : Int → F64) (max : Int) : List ProfileBlock → WalkState → List Boundary
  | [], _ => []
  | b :: rest, s =>
    let r := scanBlock log max b s.line s.col s.si s.index s.src
    r.1 ++ walkBlocks log max rest r.2

/-- The method `boundariesByPos.Less`. -/
def boundaryLess (a b : Boundary) : Bool :=
  if a.Offset = b.Offset then decide (a.Index < b.Index) else decide (a.Offset < b.Offset)

/-- The method `Profile.Boundaries`. The boundaries differ in `Index`, so every sort
gives the same slice; the insertion sort is taken. -/
def Boundaries (log : Int → F64) (p : Profile) (src : List Nat) : List Boundary :=
  insertionSort boundaryLess
    (walkBlocks log (maxCount p.Blocks) p.Blocks
      { line := 1, col := 2, si := 0, index := 0, src := src })

/-- The function `math.Floor`. -/
def F64.floor : F64 → F64
  | .fin q => .fin (Int.floor q)
  | x => x

/-- The conversion `int(x)` of a `float64` without fraction. For a value that does not
fit, an infinity or not-a-number Go leaves the result to the platform; the smallest
`int`, which amd64 gives, is taken. -/
def floatToInt : F64 → Int
  | .fin q => if -2 ^ 63 ≤ Int.floor q ∧ Int.floor q ≤ maxInt then Int.floor q else -2 ^ 63
  | _ => -2 ^ 63

/-- The number `n` of the class `cov<n>` that `htmlGen` computes for a boundary. -/
def classIndex (b : Boundary) : Int :=
  if b.Count > 0 then wrapInt (floatToInt (F64.floor (F64.mul b.Norm (.fin 9))) + 1) else 0

/-- The bytes of an ASCII text. -/
def bytesOf (s : Str) : List Nat := s.map Char.toNat

/-- The text that `htmlGen` writes for a boundary. -/
def tagOf (b : Boundary) : List Nat :=
  if b.Start then
    bytesOf ("<span class=\"cov".toList ++ formatInt (classIndex b) ++ "\" title=\"".toList ++
      formatInt b.Count ++ "\">".toList)
  else bytesOf "</span>".toList

/-- The `switch` of `htmlGen` on a byte of the source. -/
def escapeByte (b : Nat) : List Nat :=
  if b = 62 then bytesOf "&gt;".toList
  else if b = 60 then bytesOf "&lt;".toList
  else if b = 38 then bytesOf "&amp;".toList
  else if b = 9 then bytesOf "        ".toList
  else [b]

/-- The loop `for i := range src` of `htmlGen` from the offset `i` on: the bytes
written. -/
def htmlGenLoop (i : Int) : List Nat → List Boundary → List Nat
  | [], _ => []
  | b :: src, boundaries =>
    (boundaries.takeWhile (fun x => decide (x.Offset = i))).flatMap tagOf ++ escapeByte b ++
      htmlGenLoop (i + 1) src (boundaries.dropWhile (fun x => decide (x.Offset = i)))

/-- The function `htmlGen`: the bytes written to `w`. -/
def htmlGen (src : List Nat) (boundaries : List Boundary) : List Nat :=
  htmlGenLoop 0 src boundaries

/-- The boundaries that `htmlGen` takes from the list at the offsets `i`, `i + 1`, ...,
one list for each of `n` offsets. -/
def consumedFrom (i : Int) : Nat → List Boundary → List (List Boundary)
  | 0, _ => []
  | n + 1, boundaries =>
    boundaries.takeWhile (fun x => decide (x.Offset = i)) ::
      consumedFrom (i + 1) n (boundaries.dropWhile (fun x => decide (x.Offset = i)))

/-- The boundaries that a pass over the offsets below `n` takes from a list, said
without the pass: the longest run at the head of the list whose offsets do not decrease,
are at least `prev` and stay below `n`. A boundary behind one that is not taken is
never reached. -/
def consumable (n : Int) (prev : Int) : List Boundary → List Boundary
  | [] => []
  | b :: bs => if prev ≤ b.Offset ∧ b.Offset < n then b :: consumable n b.Offset bs else []

/-- The tag of a boundary, after the words of the spec: a Start boundary opens
`<span class="covK" title="<count>">`, where `K` is the class number of the boundary
and the count is written in decimal, and every other boundary closes with `</span>`. -/
def tagReference (b : Boundary) : List Nat :=
  if b.Start then
    bytesOf "<span class=\"cov".toList ++ bytesOf (formatInt (classIndex b)) ++
      bytesOf "\" title=\"".toList ++ bytesOf (formatInt b.Count) ++ bytesOf "\">".toList
  else bytesOf "</span>".toList

/-- The reference of C18, after its words: for every offset of the source in order,
the tags of the boundaries consumed at the offset, then the escaped byte. The
boundaries consumed at an offset are the boundaries with this offset among those that
the pass can take. -/
def htmlReference (src : List Nat) (boundaries : List Boundary) : List Nat :=
  ((List.range src.length).zip src).flatMap
    (fun x =>
      ((consumable src.length 0 boundaries).filter
        (fun b => decide (b.Offset = Int.ofNat x.1))).flatMap tagReference ++ escapeByte x.2)

/-- What the properties of the boundaries ask of `math.Log` on the counts: the
logarithm of a positive count is a number that is not negative, it does not decrease
when the count grows, and it is positive from 2 on. -/
structure LogContract (log : Int → F64) : Prop where
  finite : ∀ n, 1 ≤ n → ∃ q, log n = .fin q ∧ 0 ≤ q
  mono : ∀ m n q r, 1 ≤ m → m ≤ n → log m = .fin q → log n = .fin r → q ≤ r
  pos : ∀ n q, 2 ≤ n → log n = .fin q → 0 < q

/-- A logarithm for instances: the number of binary digits after the first. -/
def floorLog2 (n : Int) : F64 := .fin (Nat.log 2 n.toNat)

/-! ## The metrics store (`metrics.go`)

The store keeps its data in sorted sets of the library
`github.com/wangjia184/sortedset`, which is not among the sources. The sorted set is
taken from the documentation of the library: nodes with a key, a score and a value,
one node per key, in the order of the scores and, for equal scores, of the keys. The
clock `time.Now().Unix()` of a call is an argument of the call.
-/

/-- A node of a sorted set. -/
structure Node (α : Type) where
  key : Str
  score : Int
  value : α

/-- A sorted set: its nodes in ascending order. -/
abbrev SortedSet (α : Type) := List (Node α)

/-- The order of the nodes: by score, then by key. -/
def nodeBefore {α : Type} (a b : Node α) : Bool :=
  decide (a.score < b.score) || (decide (a.score = b.score) && strLess a.key b.key)

/-- The method `GetByKey`; `none` for the nil node. -/
def SortedSet.GetByKey {α : Type} (s : SortedSet α) (key : Str) : Option (Node α) :=
  s.find? (fun n => decide (n.key = key))

/-- The method `Remove`. -/
def SortedSet.Remove {α : Type} (s : SortedSet α) (key : Str) : SortedSet α :=
  s.filter (fun n => !decide (n.key = key))

/-- The place of a new node among the nodes in ascending order. -/
def insertNode {α : Type} (x : Node α) : SortedSet α → SortedSet α
  | [] => [x]
  | n :: rest => if nodeBefore x n then x :: n :: rest else n :: insertNode x rest

/-- The method `AddOrUpdate`. -/
def SortedSet.AddOrUpdate {α : Type} (s : SortedSet α) (key : Str) (score : Int) (value : α) :
    SortedSet α :=
  insertNode { key := key, score := score, value := value } (s.Remove key)

/-- The method `GetByScoreRange` with nil options: the nodes with a score from `start`
to `end`, both included, in ascending order; when `start` is greater than `end`, the
nodes with a score from `end` to `start` in descending order. -/
def SortedSet.GetByScoreRange {α : Type} (s : SortedSet α) (start stop : Int) :
    List (Node α) :=
  if start ≤ stop then s.filter (fun n => decide (start ≤ n.score) && decide (n.score ≤ stop))
  else (s.filter (fun n => decide (stop ≤ n.score) && decide (n.score ≤ start))).reverse

/-- The field `serviceData` of the Go struct `MetricsStore`: for every service name
the sorted set of its metrics, with the time of the last save as score. -/
abbrev MetricsStore := SortedSet (SortedSet MetricsData)

/-- The method `SaveMetricsData`, called when the clock shows `now`; `none` is the nil
pointer. -/
def SaveMetricsData (m : MetricsStore) (md : Option MetricsData) (now : Int) : MetricsStore :=
  match md with
  | none => m
  | some md =>
    let md := if md.Ts = 0 then { md with Ts := now } else md
    let key := formatInt md.Ts
    let sdata : SortedSet MetricsData :=
      match m.GetByKey md.Name with
      | some snode => snode.value
      | none => []
    let sdata := sdata.AddOrUpdate key md.Ts md
    m.AddOrUpdate md.Name now sdata

/-- The method `GetMetricsData`. -/
def GetMetricsData (m : MetricsStore) (name : Str) (beg stop : Int) : List MetricsData :=
  match m.GetByKey name with
  | none => []
  | some snode => (snode.value.GetByScoreRange beg stop).map (fun node => node.value)

/-- The method `ClearOld`, called when the clock shows `now`. -/
def ClearOld (m : MetricsStore) (now : Int) : MetricsStore :=
  let minTs := now - 24 * 3600
  (m.GetByScoreRange 0 minTs).foldl (fun m node => m.Remove node.key) m

/-- A sequence of calls of `SaveMetricsData`, each with its data and its clock. -/
def applySaves (m : MetricsStore) (saves : List (MetricsData × Int)) : MetricsStore :=
  saves.foldl (fun m s => SaveMetricsData m (some s.1) s.2) m

/-- Metrics data with a name and a time and nothing else. -/
def metricsAt (name : Str) (ts : Int) : MetricsData :=
  { Name := name, Covered := 0, Total := 0, CoverRate := .fin 0, PkgData := [], Ts := ts }

/-- The clock value of the last save of the service `name` in a sequence of saves (each
save is the saved data and the value of `time.Now().Unix()` at the call), if any. -/
def lastSave (saves : List (MetricsData × Int)) (name : Str) : Option Int :=
  (saves.reverse.find? (fun s => decide (s.1.Name = name))).map (fun s => s.2)

/-! ## The timeline report (`server.go`) -/

/-- The function `math.Abs`. -/
def F64.abs : F64 → F64
  | .nan => .nan
  | .inf _ => .inf false
  | .fin q => .fin |q|

/-- The comparison `x > y` of two `float64` values; it is false when one of them is
not a number. -/
def F64.gt : F64 → F64 → Bool
  | .nan, _ => false
  | _, .nan => false
  | .inf s, .inf t => !s && t
  | .inf s, .fin _ => !s
  | .fin _, .inf t => t
  | .fin p, .fin q => decide (q < p)

/-- The loop `for i := beg; i <= end; i = i + 60` of `getReport` with the slice
`tsList` that it builds; the loop is run for at most `fuel` tests of its condition,
and `none` says that they were not enough. -/
def tsListLoop : Nat → Int → Int → Option (List Int)
  | 0, _, _ => none
  | fuel + 1, i, stop =>
    if i ≤ stop then (tsListLoop fuel (wrapInt (i + 60)) stop).map (fun l => i :: l)
    else some []

/-- The loop of `getReport` over `tsList` with the index `j` into `ms`: the slice
`coverage`, which starts as zeros. The lists are `tsList[i:]` and `ms[j:]`. -/
def coverageLoop : List Int → List MetricsData → List F64
  | [], _ => []
  | _ :: ts, [] => .fin 0 :: coverageLoop ts []
  | t :: ts, md :: ms =>
    if F64.gt (F64.abs (F64.ofInt (wrapInt (md.Ts - t)))) (.fin 30) then
      .fin 0 :: coverageLoop ts (md :: ms)
    else md.CoverRate :: coverageLoop ts ms

/-- The errors of `getReport`; `outOfFuel` is no answer of the handler but the end of
the fuel of `tsListLoop`. -/
inductive ReportError where
  | missingModule
  | endBeforeBeg
  | outOfFuel
  deriving DecidableEq

/-- The handler `getReport` from the parsed query on: `beg` and `stop` are the values
of the variables `beg` and `end` after the query is read (0 for a field that is not
given), `now` is `time.Now().Unix()`. The result is what the template is given:
`tsList` and the map `data`. The remainder `%` of Go has the sign of the dividend, so
`beg - beg % 60` lies between `beg` and 0 and does not overflow. -/
def getReport (m : MetricsStore) (fuel : Nat) (modules : List Str) (beg stop now : Int) :
    Except ReportError (List Int × StrMap (List F64)) :=
  if modules.length = 0 then .error .missingModule
  else if beg > stop then .error .endBeforeBeg
  else
    let useNow := decide (beg = 0) && decide (stop = 0)
    let beg := if useNow then wrapInt (now - 3600) else beg
    let stop := if useNow then now else stop
    let beg := beg - Int.tmod beg 60
    let stop := stop - Int.tmod stop 60
    match tsListLoop fuel beg stop with
    | none => .error .outOfFuel
    | some tsList =>
      .ok (tsList,
        modules.foldl
          (fun data module =>
            mapSet module
              (coverageLoop tsList (GetMetricsData m module beg (wrapInt (stop + 20)))) data)
          [])

/-- The entries that the store holds for a service, in the order of the inner set. -/
def storeEntries (m : MetricsStore) (name : Str) : List MetricsData :=
  match m.GetByKey name with
  | none => []
  | some snode => snode.value.map (fun node => node.value)

/-- What every store built by `SaveMetricsData` and `ClearOld` keeps: in the inner set
of a service the key of a node is the text of its score, the score is the `Ts` of the
value, and the scores increase along the set. -/
def StoreWF (m : MetricsStore) : Prop :=
  ∀ snode ∈ m,
    (∀ n ∈ snode.value, n.key = formatInt n.score ∧ n.value.Ts = n.score) ∧
    snode.value.Pairwise (fun a b => a.score < b.score)

/-- Metrics data with a name, a time and a cover rate and nothing else. -/
def metricsRate (name : Str) (ts : Int) (rate : Int) : MetricsData :=
  { Name := name, Covered := 0, Total := 0, CoverRate := .fin rate, PkgData := [], Ts := ts }

/-- The bucket times of C21, after its words: the multiples of 60 from `beg` rounded
down to `stop` rounded down, one for every minute. -/
def bucketTimes (beg stop : Int) : List Int :=
  (List.range (stop / 60 - beg / 60 + 1).toNat).map (fun k => 60 * (beg / 60) + 60 * Int.ofNat k)

/-! ## The liveness list (`server.go`) -/

/-- One round of `KeepAliveWorker`, when the ticker fires and the clock shows `now`:
the list `s.List` after the round, and the addresses that `s.Store.Remove` is called
with, in the order of the calls. -/
def keepAliveTick (list : SortedSet Unit) (now : Int) : SortedSet Unit × List Str :=
  let min := now - 5 * 60
  let nodes := list.GetByScoreRange 0 min
  (nodes.foldl (fun l node => l.Remove node.key) list, nodes.map (fun node => node.key))

/-- The last lines of `registerService`, which `keepalive` runs too, and the loop of
`Run` over the addresses of the store: the address is put on the list `s.List` with
the clock `time.Now().Unix()` as its score. -/
def markAlive (list : SortedSet Unit) (address : Str) (now : Int) : SortedSet Unit :=
  list.AddOrUpdate address now ()

/-- What happens to the list `s.List`: an address is registered or kept alive, or the
ticker of `KeepAliveWorker` fires; each with the clock of the moment. -/
inductive LivenessEvent where
  | alive (address : Str) (now : Int)
  | tick (now : Int)

/-- The clock of an event. -/
def LivenessEvent.clock : LivenessEvent → Int
  | .alive _ now => now
  | .tick now => now

/-- The list `s.List` after one event. -/
def livenessStep (list : SortedSet Unit) : LivenessEvent → SortedSet Unit
  | .alive address now => markAlive list address now
  | .tick now => (keepAliveTick list now).1

/-- The list `s.List` after a history of events, from the empty list of
`sortedset.New()` on. -/
def livenessAfter (events : List LivenessEvent) : SortedSet Unit :=
  events.foldl livenessStep []

/-! ## Arithmetic of `int` -/

theorem wrapInt_add_left (a b : Int) : wrapInt (wrapInt a + b) = wrapInt (a + b) := by
  unfold wrapInt
  omega

theorem wrapInt_add_right (a b : Int) : wrapInt (a + wrapInt b) = wrapInt (a + b) := by
  unfold wrapInt
  omega

theorem wrapInt_wrapInt (a : Int) : wrapInt (wrapInt a) = wrapInt a := by
  unfold wrapInt
  omega

theorem wrapInt_of_range (a : Int) (h1 : -2 ^ 63 ≤ a) (h2 : a ≤ maxInt) : wrapInt a = a := by
  unfold wrapInt
  unfold maxInt at h2
  omega

/-! ## Filters -/

theorem matchAny_of_compiles (re : Regexp) (name : Str) (pats : List Str)
    (h : ∀ pat ∈ pats, re.compiles pat = true) :
    matchAny re name pats = .ok (pats.any (fun pat => re.isMatch pat name)) := by
  induction pats with
  | nil => rfl
  | cons pat rest ih =>
    have hp : re.compiles pat = true := h pat (List.mem_cons_self _ _)
    have hr := ih (fun q hq => h q (List.mem_cons_of_mem _ hq))
    cases hm : re.isMatch pat name <;>
      simp [matchAny, MatchString, hp, hm, hr]

theorem filterProfile_eq_filter (re : Regexp) (coverFile : List Str) (profiles : List Profile)
    (h : ∀ pat ∈ coverFile, re.compiles pat = true) :
    filterProfile re coverFile profiles =
      .ok (profiles.filter (fun p => coverFile.any (fun pat => re.isMatch pat p.FileName))) := by
  induction profiles with
  | nil => rfl
  | cons p rest ih =>
    cases hm : coverFile.any (fun pat => re.isMatch pat p.FileName) <;>
      simp [filterProfile, matchAny_of_compiles re p.FileName coverFile h, ih, hm]

/-- C10: when every pattern compiles, `filterProfile` returns exactly the profiles
whose file name is matched by at least one pattern, each once and in the order of the
input: the result is the input list filtered by "some pattern matches the file name". -/
theorem filterProfile_keeps_matched (re : Regexp) (coverFile : List Str)
    (profiles : List Profile) (hvalid : ∀ pat ∈ coverFile, re.compiles pat = true) :
    filterProfile re coverFile profiles =
      .ok (profiles.filter (fun p => coverFile.any (fun pat => re.isMatch pat p.FileName))) :=
  filterProfile_eq_filter re coverFile profiles hvalid

/-- Instance of C10: the pattern `^foo/` keeps the two files under `foo/` of three. -/
theorem filterProfile_keeps_matched_witness :
    (∀ pat ∈ [fooPattern], prefixRegexp.compiles pat = true) ∧
    filterProfile prefixRegexp [fooPattern]
        [⟨"foo/a.go".toList, setMode, []⟩, ⟨"bar/foo/b.go".toList, setMode, []⟩,
          ⟨"foo/c.go".toList, setMode, []⟩] =
      .ok [⟨"foo/a.go".toList, setMode, []⟩, ⟨"foo/c.go".toList, setMode, []⟩] :=
  ⟨by decide,
   (filterProfile_keeps_matched prefixRegexp [fooPattern] _ (by decide)).trans (by decide)⟩

/-- The scenario S4: with a `regexp` on which `^foo/` matches the names that begin with
`foo/`, the filter `^foo/` keeps exactly the profiles whose file name begins with `foo/`. -/
theorem filterProfile_foo (re : Regexp) (profiles : List Profile)
    (hc : re.compiles fooPattern = true)
    (hm : ∀ s, re.isMatch fooPattern s = fooPrefix.isPrefixOf s) :
    filterProfile re [fooPattern] profiles =
      .ok (profiles.filter (fun p => fooPrefix.isPrefixOf p.FileName)) := by
  rw [filterProfile_eq_filter re _ profiles (by simpa using hc)]
  simp only [List.any_cons, List.any_nil, Bool.or_false, hm]

/-! ## Metrics -/

theorem stmtSum_append (xs ys : List ProfileBlock) :
    stmtSum (xs ++ ys) = stmtSum xs + stmtSum ys := by
  simp [stmtSum]

theorem coveredSum_append (xs ys : List ProfileBlock) :
    coveredSum (xs ++ ys) = coveredSum xs + coveredSum ys := by
  simp [coveredSum, stmtSum_append]

theorem blockSums_fold (blocks : List ProfileBlock) (c t : Int) :
    blocks.foldl
        (fun acc b =>
          (if b.Count > 0 then wrapInt (acc.1 + b.NumStmt) else acc.1,
            wrapInt (acc.2 + b.NumStmt)))
        (wrapInt c, wrapInt t) =
      (wrapInt (c + coveredSum blocks), wrapInt (t + stmtSum blocks)) := by
  induction blocks generalizing c t with
  | nil => simp [coveredSum, stmtSum]
  | cons b rest ih =>
    simp only [List.foldl_cons]
    by_cases hb : b.Count > 0
    · simp only [hb, if_true, wrapInt_add_left]
      rw [ih]
      simp [coveredSum, stmtSum, hb, add_assoc]
    · simp only [hb, if_false, wrapInt_add_left]
      rw [ih]
      simp [coveredSum, stmtSum, hb, add_assoc]

theorem blockSums_eq (blocks : List ProfileBlock) :
    blockSums blocks = (wrapInt (coveredSum blocks), wrapInt (stmtSum blocks)) := by
  have h := blockSums_fold blocks 0 0
  have h0 : wrapInt 0 = 0 := by decide
  rw [h0] at h
  simpa [blockSums] using h

theorem allBlocks_append (xs ys : List Profile) :
    allBlocks (xs ++ ys) = allBlocks xs ++ allBlocks ys := by
  simp [allBlocks]

theorem inDir_append (dir : Str → Str) (d : Str) (xs ys : List Profile) :
    inDir dir d (xs ++ ys) = inDir dir d xs ++ inDir dir d ys := by
  simp [inDir]

theorem addPkg_keys (pkg : Str) (c t : Int) (l : List (Str × MetricsItem)) :
    (addPkg pkg c t l).map Prod.fst =
      if pkg ∈ l.map Prod.fst then l.map Prod.fst else l.map Prod.fst ++ [pkg] := by
  induction l with
  | nil => simp [addPkg]
  | cons e es ih =>
    by_cases he : e.1 = pkg
    · simp [addPkg, he]
    · have he' : ¬ pkg = e.1 := fun h => he h.symm
      simp only [addPkg, he, if_false, List.map_cons, ih, List.mem_cons, he', false_or]
      split <;> simp

theorem addPkg_mem (pkg : Str) (c t : Int) (l : List (Str × MetricsItem))
    (hnd : (l.map Prod.fst).Nodup)
    (e : Str × MetricsItem) (he : e ∈ addPkg pkg c t l) :
    (e.1 ≠ pkg ∧ e ∈ l) ∨
    (e.1 = pkg ∧ ∃ e0 ∈ l, e0.1 = pkg ∧ e.2.Covered = wrapInt (e0.2.Covered + c) ∧
      e.2.Total = wrapInt (e0.2.Total + t)) ∨
    (e.1 = pkg ∧ pkg ∉ l.map Prod.fst ∧ e.2.Covered = wrapInt (0 + c) ∧
      e.2.Total = wrapInt (0 + t)) := by
  induction l with
  | nil =>
    simp only [addPkg, List.mem_singleton] at he
    subst he
    simp
  | cons x xs ih =>
    have hnd' : (xs.map Prod.fst).Nodup := (List.nodup_cons.mp hnd).2
    have hx1 : x.1 ∉ xs.map Prod.fst := (List.nodup_cons.mp hnd).1
    by_cases hx : x.1 = pkg
    · simp only [addPkg, hx, if_true, List.mem_cons] at he
      rcases he with he | he
      · subst he
        exact Or.inr (Or.inl ⟨rfl, x, List.mem_cons_self _ _, hx, rfl, rfl⟩)
      · have hep : e.1 ≠ pkg := by
          intro h
          apply hx1
          rw [hx, ← h]
          exact List.mem_map_of_mem _ he
        exact Or.inl ⟨hep, List.mem_cons_of_mem _ he⟩
    · simp only [addPkg, hx, if_false, List.mem_cons] at he
      rcases he with he | he
      · subst he
        exact Or.inl ⟨hx, List.mem_cons_self _ _⟩
      · rcases ih hnd' he with h | h | h
        · exact Or.inl ⟨h.1, List.mem_cons_of_mem _ h.2⟩
        · obtain ⟨h1, e0, h2, h3⟩ := h
          exact Or.inr (Or.inl ⟨h1, e0, List.mem_cons_of_mem _ h2, h3⟩)
        · obtain ⟨h1, h2, h3⟩ := h
          refine Or.inr (Or.inr ⟨h1, ?_, h3⟩)
          simp only [List.map_cons, List.mem_cons, not_or]
          exact ⟨fun h => hx h.symm, h2⟩

/-- The state of the first loop of `getMetricsData` after the profiles `ps`. -/
theorem metrics_fold_inv (dir : Str → Str) (ps : List Profile) :
    let acc := ps.foldl (metricsStep dir) { pkgData := [], total := 0, covered := 0 }
    acc.total = wrapInt (stmtSum (allBlocks ps)) ∧
    acc.covered = wrapInt (coveredSum (allBlocks ps)) ∧
    (acc.pkgData.map Prod.fst).Nodup ∧
    (∀ d, d ∈ acc.pkgData.map Prod.fst ↔ ∃ p ∈ ps, dir p.FileName = d) ∧
    (∀ e ∈ acc.pkgData,
      e.2.Total = wrapInt (stmtSum (allBlocks (inDir dir e.1 ps))) ∧
      e.2.Covered = wrapInt (coveredSum (allBlocks (inDir dir e.1 ps)))) := by
  induction ps using List.reverseRecOn with
  | nil =>
    simp only [List.foldl_nil]
    refine ⟨by decide, by decide, List.nodup_nil, ?_, ?_⟩ <;> simp
  | append_singleton ps p ih =>
    simp only [List.foldl_append, List.foldl_cons, List.foldl_nil]
    simp only at ih
    generalize ps.foldl (metricsStep dir) { pkgData := [], total := 0, covered := 0 } = acc at ih ⊢
    obtain ⟨ht, hc, hnd, hkeys, hent⟩ := ih
    have hs := blockSums_eq p.Blocks
    refine ⟨?_, ?_, ?_, ?_, ?_⟩
    · simp only [metricsStep, hs, ht, wrapInt_add_left, wrapInt_add_right, allBlocks_append,
        stmtSum_append]
      simp [allBlocks]
    · simp only [metricsStep, hs, hc, wrapInt_add_left, wrapInt_add_right, allBlocks_append,
        coveredSum_append]
      simp [allBlocks]
    · simp only [metricsStep, addPkg_keys]
      split
      · exact hnd
      · rename_i hnot
        exact List.Nodup.append hnd (List.nodup_singleton _) (by
          intro a ha hb
          simp only [List.mem_singleton] at hb
          subst hb
          exact hnot ha)
    · intro d
      simp only [metricsStep, addPkg_keys]
      split
      · rename_i hin
        rw [hkeys]
        constructor
        · rintro ⟨q, hq, hd⟩
          exact ⟨q, List.mem_append_left _ hq, hd⟩
        · rintro ⟨q, hq, hd⟩
          rcases List.mem_append.mp hq with hq | hq
          · exact ⟨q, hq, hd⟩
          · simp only [List.mem_singleton] at hq
            subst hq
            rw [← hd]
            exact (hkeys _).mp hin
      · rw [List.mem_append, hkeys]
        constructor
        · rintro (⟨q, hq, hd⟩ | hd)
          · exact ⟨q, List.mem_append_left _ hq, hd⟩
          · simp only [List.mem_singleton] at hd
            exact ⟨p, by simp, hd.symm⟩
        · rintro ⟨q, hq, hd⟩
          rcases List.mem_append.mp hq with hq | hq
          · exact Or.inl ⟨q, hq, hd⟩
          · simp only [List.mem_singleton] at hq
            subst hq
            exact Or.inr (by simp [hd])
    · intro e he
      simp only [metricsStep, hs] at he
      have hin : ∀ d, inDir dir d (ps ++ [p]) =
          inDir dir d ps ++ (if dir p.FileName = d then [p] else []) := by
        intro d
        rw [inDir_append]
        by_cases hd : dir p.FileName = d <;> simp [inDir, hd]
      rcases addPkg_mem _ _ _ _ hnd e he with h | h | h
      · have hne : ¬ dir p.FileName = e.1 := fun h' => h.1 h'.symm
        rw [hin, if_neg hne, List.append_nil]
        exact hent e h.2
      · obtain ⟨h1, e0, h2, h3, h4, h5⟩ := h
        have := hent e0 h2
        rw [h3] at this
        rw [hin, if_pos h1.symm, allBlocks_append, stmtSum_append, coveredSum_append, h1, h4, h5,
          this.1, this.2]
        simp [allBlocks, wrapInt_add_left, wrapInt_add_right]
      · obtain ⟨h1, h2, h4, h5⟩ := h
        have hempty : inDir dir e.1 ps = [] := by
          rw [h1]
          simp only [inDir, List.filter_eq_nil_iff, decide_eq_true_eq]
          intro q hq hd
          exact h2 ((hkeys _).mpr ⟨q, hq, hd⟩)
        rw [hin, if_pos h1.symm, hempty, h4, h5]
        simp [allBlocks, wrapInt_add_right, wrapInt_wrapInt]

/-- C8 (amended): `getMetricsData` returns as `Total` the sum of `NumStmt` over all
blocks of all profiles and as `Covered` the sum of `NumStmt` over the blocks with a
positive count, both reduced into the range of `int` as Go's `+=` does; `PkgData` has
exactly one entry per distinct `path.Dir(FileName)`, and its `Total` and `Covered` are
the same two reduced sums over the profiles of that directory. -/
theorem getMetricsData_sums (dir : Str → Str) (profiles : List Profile) :
    (getMetricsData dir profiles).Total = wrapInt (stmtSum (allBlocks profiles)) ∧
    (getMetricsData dir profiles).Covered = wrapInt (coveredSum (allBlocks profiles)) ∧
    ((getMetricsData dir profiles).PkgData.map Prod.fst).Nodup ∧
    (∀ d, d ∈ (getMetricsData dir profiles).PkgData.map Prod.fst ↔
      ∃ p ∈ profiles, dir p.FileName = d) ∧
    (∀ e ∈ (getMetricsData dir profiles).PkgData,
      e.2.Total = wrapInt (stmtSum (allBlocks (inDir dir e.1 profiles))) ∧
      e.2.Covered = wrapInt (coveredSum (allBlocks (inDir dir e.1 profiles)))) := by
  obtain ⟨ht, hc, hnd, hkeys, hent⟩ := metrics_fold_inv dir profiles
  have hmap : (getMetricsData dir profiles).PkgData.map Prod.fst =
      (profiles.foldl (metricsStep dir)
        { pkgData := [], total := 0, covered := 0 }).pkgData.map Prod.fst := by
    simp [getMetricsData, List.map_map, Function.comp_def]
  refine ⟨ht, hc, ?_, ?_, ?_⟩
  · rw [hmap]
    exact hnd
  · intro d
    rw [hmap]
    exact hkeys d
  · intro e he
    simp only [getMetricsData, List.mem_map] at he
    obtain ⟨e0, he0, rfl⟩ := he
    exact hent e0 he0

/-- C8 as stated fails: two blocks of 2^62 statements each give the total -2^63, not
the sum 2^63. -/
theorem getMetricsData_sums_counterexample :
    (getMetricsData beforeLastSlash
        [⟨"a/f.go".toList, "count".toList,
          [⟨1, 1, 1, 2, 4611686018427387904, 1⟩, ⟨2, 1, 2, 2, 4611686018427387904, 1⟩]⟩]).Total
      = -9223372036854775808 ∧
    stmtSum (allBlocks
        [⟨"a/f.go".toList, "count".toList,
          [⟨1, 1, 1, 2, 4611686018427387904, 1⟩, ⟨2, 1, 2, 2, 4611686018427387904, 1⟩]⟩])
      = 9223372036854775808 := by
  decide

set_option maxRecDepth 4000 in
/-- The scenario S5: five blocks with ten statements, six of them in the three blocks
with a positive count, give `Total` 10 and `Covered` 6, in one package `a`. -/
theorem getMetricsData_example :
    (getMetricsData beforeLastSlash fiveBlocks).Total = 10 ∧
    (getMetricsData beforeLastSlash fiveBlocks).Covered = 6 ∧
    (getMetricsData beforeLastSlash fiveBlocks).PkgData.map Prod.fst = [['a']] := by
  decide

/-- C9 at the failing input: `percent(0, 0)` divides zero by zero and is not-a-number,
and so is the `CoverRate` that `getMetricsData` reports for the empty profile list; with
a total of zero `percent` is never 0. -/
theorem percent_zero_total :
    percent 0 0 = F64.nan ∧
    (∀ dir, (getMetricsData dir []).CoverRate = F64.nan) ∧
    (∀ covered, percent covered 0 ≠ F64.fin 0) := by
  refine ⟨?_, ?_, ?_⟩
  · simp [percent, F64.div, F64.mul, F64.ofInt]
  · intro dir
    simp [getMetricsData, percent, F64.div, F64.mul, F64.ofInt]
  · intro covered
    simp only [percent, F64.div, F64.mul, F64.ofInt, if_true, Int.cast_zero]
    split <;> simp

/-- The value of `percent` for a total other than zero: 100 · covered / total. -/
theorem percent_nonzero_total (covered total : Int) (h : total ≠ 0) :
    percent covered total = F64.fin (100 * covered / total) := by
  simp [percent, F64.div, F64.mul, F64.ofInt, h]

/-! ## Insertion sort -/

theorem sink_perm {α : Type} (less : α → α → Bool) (x : α) (l : List α) :
    List.Perm (sink less x l) (x :: l) := by
  induction l with
  | nil => exact List.Perm.refl _
  | cons y ys ih =>
    simp only [sink]
    split
    · exact (List.Perm.cons y ih).trans (List.Perm.swap x y ys)
    · exact List.Perm.refl _

theorem foldl_sink_perm {α : Type} (less : α → α → Bool) (l : List α) :
    ∀ acc : List α, List.Perm (l.foldl (fun acc x => sink less x acc) acc) (l ++ acc) := by
  induction l with
  | nil => intro acc; exact List.Perm.refl _
  | cons x xs ih =>
    intro acc
    simp only [List.foldl_cons]
    refine (ih _).trans ?_
    refine (List.Perm.append_left xs (sink_perm less x acc)).trans ?_
    simp

theorem insertionSort_perm {α : Type} (less : α → α → Bool) (l : List α) :
    List.Perm (insertionSort less l) l := by
  unfold insertionSort
  refine (List.reverse_perm _).trans ?_
  simpa using foldl_sink_perm less l []

theorem sink_sorted {α : Type} (less : α → α → Bool)
    (hasymm : ∀ a b, less a b = true → less b a = false)
    (htrans : ∀ a b c, less a b = false → less b c = false → less a c = false)
    (x : α) (l : List α) (hl : l.Pairwise (fun u v => less u v = false)) :
    (sink less x l).Pairwise (fun u v => less u v = false) := by
  induction l with
  | nil => simp [sink]
  | cons y ys ih =>
    have hy := (List.pairwise_cons.mp hl).1
    have hys := (List.pairwise_cons.mp hl).2
    simp only [sink]
    split
    · rename_i hxy
      refine List.pairwise_cons.mpr ⟨?_, ih hys⟩
      intro z hz
      rcases List.mem_cons.mp ((sink_perm less x ys).subset hz) with hz | hz
      · subst hz; exact hasymm _ _ hxy
      · exact hy z hz
    · rename_i hxy
      have hxy' : less x y = false := by simpa using hxy
      refine List.pairwise_cons.mpr ⟨?_, hl⟩
      intro z hz
      rcases List.mem_cons.mp hz with hz | hz
      · subst hz; exact hxy'
      · exact htrans _ _ _ hxy' (hy z hz)

theorem insertionSort_sorted {α : Type} (less : α → α → Bool)
    (hasymm : ∀ a b, less a b = true → less b a = false)
    (htrans : ∀ a b c, less a b = false → less b c = false → less a c = false)
    (l : List α) : (insertionSort less l).Pairwise (fun a b => less b a = false) := by
  unfold insertionSort
  rw [List.pairwise_reverse]
  have : ∀ (l acc : List α), acc.Pairwise (fun u v => less u v = false) →
      (l.foldl (fun acc x => sink less x acc) acc).Pairwise (fun u v => less u v = false) := by
    intro l
    induction l with
    | nil => intro acc h; exact h
    | cons x xs ih =>
      intro acc h
      exact ih _ (sink_sorted less hasymm htrans x acc h)
  exact this l [] List.Pairwise.nil

theorem blockLess_asymm (a b : ProfileBlock) (h : blockLess a b = true) :
    blockLess b a = false := by
  simp only [blockLess, Bool.or_eq_true, Bool.and_eq_true, decide_eq_true_eq] at h
  simp only [blockLess, Bool.or_eq_false_iff, Bool.and_eq_false_iff, decide_eq_false_iff_not]
  omega

theorem blockLess_trans (a b c : ProfileBlock) (h1 : blockLess a b = false)
    (h2 : blockLess b c = false) : blockLess a c = false := by
  simp only [blockLess, Bool.or_eq_false_iff, Bool.and_eq_false_iff,
    decide_eq_false_iff_not] at h1 h2 ⊢
  omega

/-- The insertion sort meets the contract of `sort.Sort`. -/
theorem insertionSortBlocks_sorts : SortsByStart insertionSortBlocks where
  perm := fun l => insertionSort_perm blockLess l
  sorted := fun l => insertionSort_sorted blockLess blockLess_asymm blockLess_trans l

theorem strLess_irrefl (a : Str) : strLess a a = false := by
  induction a with
  | nil => rfl
  | cons c cs ih => simp [strLess, ih]

theorem strLess_asymm : ∀ a b : Str, strLess a b = true → strLess b a = false := by
  intro a
  induction a with
  | nil => intro b _; cases b <;> rfl
  | cons c cs ih =>
    intro b h
    cases b with
    | nil => simp [strLess] at h
    | cons d ds =>
      simp only [strLess, Bool.or_eq_true, Bool.and_eq_true, decide_eq_true_eq] at h
      simp only [strLess, Bool.or_eq_false_iff, Bool.and_eq_false_iff, decide_eq_false_iff_not]
      rcases h with h | ⟨h1, h2⟩
      · exact ⟨not_lt.mpr (le_of_lt h), Or.inl (ne_of_gt h)⟩
      · subst h1
        exact ⟨lt_irrefl _, Or.inr (ih ds h2)⟩

theorem strLess_trans : ∀ a b c : Str, strLess a b = false → strLess b c = false →
    strLess a c = false := by
  intro a
  induction a with
  | nil =>
    intro b c h1 h2
    cases b with
    | nil => exact h2
    | cons _ _ => simp [strLess] at h1
  | cons x xs ih =>
    intro b c h1 h2
    cases c with
    | nil => rfl
    | cons z zs =>
      cases b with
      | nil => simp [strLess] at h2
      | cons y ys =>
        simp only [strLess, Bool.or_eq_false_iff, Bool.and_eq_false_iff,
          decide_eq_false_iff_not] at h1 h2 ⊢
        obtain ⟨h1a, h1b⟩ := h1
        obtain ⟨h2a, h2b⟩ := h2
        have hxy : y ≤ x := not_lt.mp h1a
        have hyz : z ≤ y := not_lt.mp h2a
        refine ⟨not_lt.mpr (le_trans hyz hxy), ?_⟩
        by_cases hxz : x = z
        · right
          subst hxz
          have hxy' : x = y := le_antisymm hyz hxy
          subst hxy'
          rcases h1b with h | h
          · exact absurd rfl h
          · rcases h2b with h' | h'
            · exact absurd rfl h'
            · exact ih _ _ h h'
        · exact Or.inl hxz

theorem strLess_total : ∀ a b : Str, strLess a b = false → strLess b a = false → a = b := by
  intro a
  induction a with
  | nil =>
    intro b h _
    cases b with
    | nil => rfl
    | cons _ _ => simp [strLess] at h
  | cons x xs ih =>
    intro b h1 h2
    cases b with
    | nil => simp [strLess] at h2
    | cons y ys =>
      simp only [strLess, Bool.or_eq_false_iff, Bool.and_eq_false_iff,
        decide_eq_false_iff_not] at h1 h2
      have hxy : x = y := le_antisymm (not_lt.mp h2.1) (not_lt.mp h1.1)
      subst hxy
      rcases h1.2 with h | h
      · exact absurd rfl h
      · rcases h2.2 with h' | h'
        · exact absurd rfl h'
        · rw [ih ys h h']

/-! ## The scan loop -/

theorem rawLines_no_newline (bs : Str) : ∀ l ∈ rawLines bs, '\n' ∉ l := by
  induction bs with
  | nil => simp [rawLines]
  | cons c cs ih =>
    intro l hl
    by_cases hc : c = '\n'
    · simp only [rawLines, hc, if_true, List.mem_cons] at hl
      rcases hl with hl | hl
      · subst hl; simp
      · exact ih l hl
    · simp only [rawLines, hc, if_false] at hl
      cases hr : rawLines cs with
      | nil =>
        rw [hr] at hl
        simp only [List.mem_singleton] at hl
        subst hl
        simpa using fun h => hc h.symm
      | cons l0 ls =>
        rw [hr] at hl ih
        simp only [List.mem_cons] at hl
        rcases hl with hl | hl
        · subst hl
          have h0 := ih l0 (List.mem_cons_self _ _)
          simp only [List.mem_cons, not_or]
          exact ⟨fun h => hc h.symm, h0⟩
        · exact ih l (List.mem_cons_of_mem _ hl)

theorem scanLoop_records_ok (mode : Str) (hmode : mode ≠ []) (lines : List Str) :
    ∀ (files : List Profile) (r : Str × List Profile), scanLoop mode files lines = .ok r →
      r.1 = mode ∧ (∀ l ∈ lines, byteLen l < MaxScanTokenSize) ∧
      ∃ recs, lines.map (fun l => parseRecord (dropCR l)) = recs.map some ∧
        r.2 = buildFiles mode recs files := by
  induction lines with
  | nil =>
    intro files r h
    simp only [scanLoop, Except.ok.injEq] at h
    subst h
    exact ⟨rfl, by simp, [], rfl, rfl⟩
  | cons raw rest ih =>
    intro files r h
    simp only [scanLoop, hmode, if_false] at h
    split at h
    · cases h
    · rename_i hlen
      split at h
      · cases h
      · rename_i m hm
        split at h
        · cases h
        · rename_i b hb
          obtain ⟨h1, h2, recs, h3, h4⟩ := ih _ r h
          refine ⟨h1, ?_, (m.file, b) :: recs, ?_, ?_⟩
          · intro l hl
            rcases List.mem_cons.mp hl with hl | hl
            · subst hl; omega
            · exact h2 l hl
          · have hpr : parseRecord (dropCR raw) = some (m.file, b) := by
              simp [parseRecord, hm, hb]
            simp only [List.map_cons, hpr, h3]
          · simp [buildFiles, h4]

theorem scanLoop_records_err (mode : Str) (hmode : mode ≠ []) (lines : List Str) :
    ∀ (files : List Profile) (e : ParseError), scanLoop mode files lines = .error e →
      e = .tooLong ∨ e = .badFormat ∨ e = .atoiPanic := by
  induction lines with
  | nil =>
    intro files e h
    simp [scanLoop] at h
  | cons raw rest ih =>
    intro files e h
    simp only [scanLoop, hmode, if_false] at h
    split at h
    · cases h; simp
    · split at h
      · cases h; simp
      · split at h
        · cases h; simp
        · exact ih _ e h

theorem scanLoop_of_records (mode : Str) (hmode : mode ≠ []) (lines : List Str) :
    ∀ (files : List Profile) (recs : List (Str × ProfileBlock)),
      (∀ l ∈ lines, byteLen l < MaxScanTokenSize) →
      lines.map (fun l => parseRecord (dropCR l)) = recs.map some →
      scanLoop mode files lines = .ok (mode, buildFiles mode recs files) := by
  induction lines with
  | nil =>
    intro files recs _ h
    cases recs with
    | nil => rfl
    | cons _ _ => simp at h
  | cons raw rest ih =>
    intro files recs hlen h
    cases recs with
    | nil => simp at h
    | cons r recs =>
      simp only [List.map_cons, List.cons.injEq] at h
      have h1 := hlen raw (List.mem_cons_self _ _)
      have h2 : ¬ MaxScanTokenSize ≤ byteLen raw := by omega
      have hp := h.1
      simp only [parseRecord] at hp
      split at hp
      · cases hp
      · rename_i m hm
        split at hp
        · cases hp
        · rename_i b hb
          simp only [Option.some.injEq] at hp
          subst hp
          simp only [scanLoop, hmode, if_false, h2, hm, hb]
          exact ih _ recs (fun l hl => hlen l (List.mem_cons_of_mem _ hl)) h.2

theorem mergeLoop_err (mode : Str) (rest : List ProfileBlock) :
    ∀ (last : ProfileBlock) (e : ParseError), mergeLoop mode last rest = .error e →
      e = .inconsistentNumStmt := by
  induction rest with
  | nil => intro last e h; simp [mergeLoop] at h
  | cons b rest ih =>
    intro last e h
    simp only [mergeLoop] at h
    split at h
    · split at h
      · cases h; rfl
      · exact ih _ e h
    · split at h
      · rename_i e' he'
        cases h
        exact ih _ _ he'
      · cases h

theorem mergeAll_err (srt : List ProfileBlock → List ProfileBlock) (mode : Str)
    (files : List Profile) (e : ParseError) (h : mergeAll srt mode files = .error e) :
    e = .inconsistentNumStmt := by
  induction files with
  | nil => simp [mergeAll] at h
  | cons p ps ih =>
    simp only [mergeAll] at h
    split at h
    · rename_i e' he'
      cases h
      cases hs : srt p.Blocks with
      | nil => rw [hs] at he'; simp [mergeSamples] at he'
      | cons b bs =>
        rw [hs] at he'
        exact mergeLoop_err mode bs b _ he'
    · split at h
      · rename_i e' he'
        cases h
        exact ih he'
      · cases h

/-! ## The steps of `ParseProfiles` -/

theorem ParseProfiles_nil (srt : List ProfileBlock → List ProfileBlock) (bs : Str)
    (h : rawLines bs = []) : ParseProfiles srt bs = .ok [] := by
  simp [ParseProfiles, h, scanLoop, mergeAll, sortByFileName, insertionSort]

theorem validModeLine_eq (line : Str) (h : validModeLine line = true) :
    line = modePrefix ++ line.drop modePrefix.length ∧ line.drop modePrefix.length ≠ [] := by
  simp only [validModeLine, Bool.and_eq_true, decide_eq_true_eq] at h
  obtain ⟨h1, h2⟩ := h
  rw [List.isPrefixOf_iff_prefix] at h1
  obtain ⟨t, ht⟩ := h1
  subst ht
  simp only [List.drop_left']
  refine ⟨trivial, ?_⟩
  intro h
  subst h
  simp at h2

theorem ParseProfiles_cons (srt : List ProfileBlock → List ProfileBlock) (bs raw : Str)
    (rest : List Str) (h : rawLines bs = raw :: rest) :
    ParseProfiles srt bs =
      if MaxScanTokenSize ≤ byteLen raw then .error .tooLong
      else if validModeLine (dropCR raw) = false then .error (.badModeLine (dropCR raw))
      else
        match scanLoop ((dropCR raw).drop modePrefix.length) [] rest with
        | .error e => .error e
        | .ok (mode, files) =>
          match mergeAll srt mode files with
          | .error e => .error e
          | .ok ps => .ok (sortByFileName ps) := by
  simp only [ParseProfiles, h, scanLoop]
  by_cases h1 : MaxScanTokenSize ≤ byteLen raw
  · simp [h1]
  · simp only [h1, if_false, if_true]
    by_cases h2 : validModeLine (dropCR raw) = false
    · have : ¬ modePrefix.isPrefixOf (dropCR raw) = true ∨ dropCR raw = modePrefix := by
        simp only [validModeLine, Bool.and_eq_false_iff, decide_eq_false_iff_not, not_not] at h2
        rcases h2 with h2 | h2
        · left; simp [h2]
        · right; exact h2
      simp only [if_pos this, h2, if_true]
    · have h2' : validModeLine (dropCR raw) = true := by simpa using h2
      have : ¬ (¬ modePrefix.isPrefixOf (dropCR raw) = true ∨ dropCR raw = modePrefix) := by
        simp only [validModeLine, Bool.and_eq_true, decide_eq_true_eq] at h2'
        simp [h2'.1, h2'.2]
      simp only [if_neg this, h2', Bool.true_eq_false, if_false]

/-- What an accepted input with a first line is made of. -/
theorem ParseProfiles_ok_cons (srt : List ProfileBlock → List ProfileBlock) (bs raw : Str)
    (rest : List Str) (h : rawLines bs = raw :: rest) (ps : List Profile)
    (hok : ParseProfiles srt bs = .ok ps) :
    ∃ mode recs merged, mode ≠ [] ∧ dropCR raw = modePrefix ++ mode ∧
      byteLen raw < MaxScanTokenSize ∧ (∀ l ∈ rest, byteLen l < MaxScanTokenSize) ∧
      rest.map (fun l => parseRecord (dropCR l)) = recs.map some ∧
      mergeAll srt mode (buildFiles mode recs []) = .ok merged ∧
      ps = sortByFileName merged := by
  rw [ParseProfiles_cons srt bs raw rest h] at hok
  split at hok
  · cases hok
  · rename_i hlen
    split at hok
    · cases hok
    · rename_i hvalid
      have hv : validModeLine (dropCR raw) = true := by simpa using hvalid
      obtain ⟨hv1, hv2⟩ := validModeLine_eq _ hv
      split at hok
      · cases hok
      · rename_i mode files hscan
        obtain ⟨hm, hl, recs, hr, hf⟩ := scanLoop_records_ok _ hv2 rest [] _ hscan
        simp only at hm hf
        subst hm
        subst hf
        split at hok
        · cases hok
        · rename_i merged hmerge
          simp only [Except.ok.injEq] at hok
          exact ⟨_, recs, merged, hv2, hv1, by omega, hl, hr, hmerge, hok.symm⟩

/-- The converse: the result of `ParseProfiles` on an input made of a mode line and
record lines. -/
theorem ParseProfiles_of_records (srt : List ProfileBlock → List ProfileBlock) (bs raw : Str)
    (rest : List Str) (h : rawLines bs = raw :: rest) (mode : Str)
    (recs : List (Str × ProfileBlock)) (merged : List Profile)
    (hmode : mode ≠ []) (hraw : dropCR raw = modePrefix ++ mode)
    (hlen : byteLen raw < MaxScanTokenSize) (hlens : ∀ l ∈ rest, byteLen l < MaxScanTokenSize)
    (hrecs : rest.map (fun l => parseRecord (dropCR l)) = recs.map some)
    (hmerge : mergeAll srt mode (buildFiles mode recs []) = .ok merged) :
    ParseProfiles srt bs = .ok (sortByFileName merged) := by
  rw [ParseProfiles_cons srt bs raw rest h]
  have h1 : ¬ MaxScanTokenSize ≤ byteLen raw := by omega
  have h2 : validModeLine (dropCR raw) = true := by
    rw [hraw]
    simp only [validModeLine, Bool.and_eq_true, decide_eq_true_eq]
    refine ⟨by simp [List.isPrefixOf_iff_prefix], ?_⟩
    intro h
    exact hmode (by simpa using h)
  have h3 : (dropCR raw).drop modePrefix.length = mode := by
    rw [hraw]; simp
  simp only [h1, h2, if_false, h3, Bool.true_eq_false]
  rw [scanLoop_of_records mode hmode rest [] recs hlens hrecs]
  simp only [hmerge]

/-! ## The map of the files -/

theorem addBlock_names (fn mode : Str) (b : ProfileBlock) (files : List Profile) :
    (addBlock fn mode b files).map (fun p => p.FileName) =
      if fn ∈ files.map (fun p => p.FileName) then files.map (fun p => p.FileName)
      else files.map (fun p => p.FileName) ++ [fn] := by
  induction files with
  | nil => simp [addBlock]
  | cons p ps ih =>
    by_cases hp : p.FileName = fn
    · simp [addBlock, hp]
    · have hp' : ¬ fn = p.FileName := fun h => hp h.symm
      simp only [addBlock, hp, if_false, List.map_cons, ih, List.mem_cons, hp', false_or]
      split <;> simp

theorem addBlock_mem (fn mode : Str) (b : ProfileBlock) (files : List Profile)
    (hnd : (files.map (fun p => p.FileName)).Nodup) (q : Profile)
    (hq : q ∈ addBlock fn mode b files) :
    (q.FileName ≠ fn ∧ q ∈ files) ∨
    (q.FileName = fn ∧ ∃ p ∈ files, p.FileName = fn ∧ q.Mode = p.Mode ∧
      q.Blocks = p.Blocks ++ [b]) ∨
    (q.FileName = fn ∧ fn ∉ files.map (fun p => p.FileName) ∧ q.Mode = mode ∧
      q.Blocks = [b]) := by
  induction files with
  | nil =>
    simp only [addBlock, List.mem_singleton] at hq
    subst hq
    simp
  | cons x xs ih =>
    have hnd' : (xs.map (fun p => p.FileName)).Nodup := (List.nodup_cons.mp hnd).2
    have hx1 : x.FileName ∉ xs.map (fun p => p.FileName) := (List.nodup_cons.mp hnd).1
    by_cases hx : x.FileName = fn
    · simp only [addBlock, hx, if_true, List.mem_cons] at hq
      rcases hq with hq | hq
      · subst hq
        exact Or.inr (Or.inl ⟨rfl, x, List.mem_cons_self _ _, hx, rfl, rfl⟩)
      · have hne : q.FileName ≠ fn := by
          intro h
          apply hx1
          rw [hx, ← h]
          exact List.mem_map_of_mem (fun p => p.FileName) hq
        exact Or.inl ⟨hne, List.mem_cons_of_mem _ hq⟩
    · simp only [addBlock, hx, if_false, List.mem_cons] at hq
      rcases hq with hq | hq
      · subst hq
        exact Or.inl ⟨hx, List.mem_cons_self _ _⟩
      · rcases ih hnd' hq with h | h | h
        · exact Or.inl ⟨h.1, List.mem_cons_of_mem _ h.2⟩
        · obtain ⟨h1, p, h2, h3⟩ := h
          exact Or.inr (Or.inl ⟨h1, p, List.mem_cons_of_mem _ h2, h3⟩)
        · obtain ⟨h1, h2, h3⟩ := h
          refine Or.inr (Or.inr ⟨h1, ?_, h3⟩)
          simp only [List.map_cons, List.mem_cons, not_or]
          exact ⟨fun h => hx h.symm, h2⟩

theorem blocksOfFile_append (fn : Str) (xs ys : List (Str × ProfileBlock)) :
    blocksOfFile fn (xs ++ ys) = blocksOfFile fn xs ++ blocksOfFile fn ys := by
  simp [blocksOfFile]

theorem buildFiles_append (mode : Str) (xs ys : List (Str × ProfileBlock))
    (files : List Profile) :
    buildFiles mode (xs ++ ys) files = buildFiles mode ys (buildFiles mode xs files) := by
  simp [buildFiles]

/-- The map of the files after the records `recs`: one profile per file name, with
the mode, and with the blocks of the records of the file in their order. -/
theorem buildFiles_inv (mode : Str) (recs : List (Str × ProfileBlock)) :
    ((buildFiles mode recs []).map (fun p => p.FileName)).Nodup ∧
    (∀ fn, fn ∈ (buildFiles mode recs []).map (fun p => p.FileName) ↔
      fn ∈ recs.map Prod.fst) ∧
    (∀ p ∈ buildFiles mode recs [],
      p.Mode = mode ∧ p.Blocks = blocksOfFile p.FileName recs) := by
  induction recs using List.reverseRecOn with
  | nil => simp [buildFiles]
  | append_singleton recs r ih =>
    obtain ⟨hnd, hnames, hp⟩ := ih
    rw [buildFiles_append]
    have hstep : buildFiles mode [r] (buildFiles mode recs []) =
        addBlock r.1 mode r.2 (buildFiles mode recs []) := rfl
    rw [hstep]
    generalize buildFiles mode recs [] = F at hnd hnames hp ⊢
    refine ⟨?_, ?_, ?_⟩
    · rw [addBlock_names]
      split
      · exact hnd
      · rename_i hnot
        exact List.Nodup.append hnd (List.nodup_singleton _) (by
          intro a ha hb
          simp only [List.mem_singleton] at hb
          subst hb
          exact hnot ha)
    · intro fn
      rw [addBlock_names]
      split
      · rename_i hin
        rw [hnames, List.map_append, List.mem_append]
        constructor
        · exact Or.inl
        · rintro (h | h)
          · exact h
          · simp only [List.map_cons, List.map_nil, List.mem_singleton] at h
            subst h
            exact (hnames _).mp hin
      · rw [List.mem_append, hnames, List.map_append, List.mem_append]
        simp
    · intro q hq
      have hb : ∀ fn, blocksOfFile fn (recs ++ [r]) =
          blocksOfFile fn recs ++ (if r.1 = fn then [r.2] else []) := by
        intro fn
        rw [blocksOfFile_append]
        by_cases h : r.1 = fn <;> simp [blocksOfFile, h]
      rcases addBlock_mem _ _ _ _ hnd q hq with h | h | h
      · have hne : ¬ r.1 = q.FileName := fun h' => h.1 h'.symm
        rw [hb, if_neg hne, List.append_nil]
        exact hp q h.2
      · obtain ⟨h1, p, h2, h3, h4, h5⟩ := h
        have := hp p h2
        rw [hb, if_pos h1.symm, h4, h5, this.1, this.2, h3, h1]
        exact ⟨rfl, rfl⟩
      · obtain ⟨h1, h2, h3, h4⟩ := h
        have hempty : blocksOfFile q.FileName recs = [] := by
          rw [h1]
          simp only [blocksOfFile, List.map_eq_nil_iff, List.filter_eq_nil_iff,
            decide_eq_true_eq]
          intro x hx hd
          apply h2
          rw [hnames, ← hd]
          exact List.mem_map_of_mem _ hx
        rw [hb, if_pos h1.symm, hempty, h3, h4]
        exact ⟨rfl, rfl⟩

/-! ## The merge of the samples -/

theorem mergeAll_ok (srt : List ProfileBlock → List ProfileBlock) (mode : Str)
    (files : List Profile) :
    ∀ out, mergeAll srt mode files = .ok out →
      List.Forall₂
        (fun p q => q.FileName = p.FileName ∧ q.Mode = p.Mode ∧
          mergeSamples mode (srt p.Blocks) = .ok q.Blocks)
        files out := by
  induction files with
  | nil =>
    intro out h
    simp only [mergeAll, Except.ok.injEq] at h
    subst h
    exact List.Forall₂.nil
  | cons p ps ih =>
    intro out h
    simp only [mergeAll] at h
    split at h
    · cases h
    · rename_i bl hbl
      split at h
      · cases h
      · rename_i out' hout'
        simp only [Except.ok.injEq] at h
        subst h
        exact List.Forall₂.cons ⟨rfl, rfl, hbl⟩ (ih out' hout')

theorem mergeAll_of_forall₂ (srt : List ProfileBlock → List ProfileBlock) (mode : Str)
    (files : List Profile) :
    ∀ out, List.Forall₂
        (fun p q => q.FileName = p.FileName ∧ q.Mode = p.Mode ∧
          mergeSamples mode (srt p.Blocks) = .ok q.Blocks)
        files out →
      mergeAll srt mode files = .ok out := by
  induction files with
  | nil =>
    intro out h
    cases h
    rfl
  | cons p ps ih =>
    intro out h
    cases h with
    | cons hpq hrest =>
      rename_i q qs
      obtain ⟨h1, h2, h3⟩ := hpq
      simp only [mergeAll, h3, ih qs hrest]
      congr 2
      cases q
      simp only at h1 h2
      subst h1 h2
      rfl

theorem sortByFileName_perm (l : List Profile) : List.Perm (sortByFileName l) l :=
  insertionSort_perm fileNameLess l

theorem filterMap_of_map_some {α β γ : Type} (f : β → Option γ) (g : α → β) :
    ∀ (l : List α) (recs : List γ), l.map (fun x => f (g x)) = recs.map some →
      (l.map g).filterMap f = recs := by
  intro l
  induction l with
  | nil =>
    intro recs h
    cases recs with
    | nil => rfl
    | cons _ _ => simp at h
  | cons x xs ih =>
    intro recs h
    cases recs with
    | nil => simp at h
    | cons r rs =>
      simp only [List.map_cons, List.cons.injEq] at h
      simp only [List.map_cons, List.filterMap_cons, h.1]
      rw [ih rs h.2]

theorem forall₂_mem_right {α β : Type} (R : α → β → Prop) (xs : List α) (ys : List β)
    (h : List.Forall₂ R xs ys) : ∀ y ∈ ys, ∃ x ∈ xs, R x y := by
  induction h with
  | nil => intro y hy; simp at hy
  | cons hxy _ ih =>
    intro y hy
    rcases List.mem_cons.mp hy with hy | hy
    · subst hy
      exact ⟨_, List.mem_cons_self _ _, hxy⟩
    · obtain ⟨x, hx, hR⟩ := ih y hy
      exact ⟨x, List.mem_cons_of_mem _ hx, hR⟩

theorem forall₂_map_eq {α β γ : Type} (R : α → β → Prop) (f : α → γ) (g : β → γ)
    (hR : ∀ x y, R x y → g y = f x) (xs : List α) (ys : List β)
    (h : List.Forall₂ R xs ys) : ys.map g = xs.map f := by
  induction h with
  | nil => rfl
  | cons hxy _ ih => simp only [List.map_cons, hR _ _ hxy, ih]

/-- The profiles of an accepted input: their names, modes and blocks before the sort. -/
theorem ParseProfiles_ok_profiles (srt : List ProfileBlock → List ProfileBlock) (bs raw : Str)
    (rest : List Str) (h : rawLines bs = raw :: rest) (ps : List Profile)
    (hok : ParseProfiles srt bs = .ok ps) :
    ∃ mode, mode ≠ [] ∧ dropCR raw = modePrefix ++ mode ∧
      (ps.map (fun p => p.FileName)).Nodup ∧
      (∀ fn, fn ∈ ps.map (fun p => p.FileName) ↔ fn ∈ (records bs).map Prod.fst) ∧
      (∀ p ∈ ps, p.Mode = mode ∧
        mergeSamples mode (srt (blocksOfFile p.FileName (records bs))) = .ok p.Blocks) := by
  obtain ⟨mode, recs, merged, hmode, hraw, _, _, hrecs, hmerge, hps⟩ :=
    ParseProfiles_ok_cons srt bs raw rest h ps hok
  have hrec : records bs = recs := by
    simp only [records, recordLines, h, List.drop_succ_cons, List.drop_zero]
    exact filterMap_of_map_some parseRecord dropCR rest recs hrecs
  obtain ⟨hnd, hnames, hfiles⟩ := buildFiles_inv mode recs
  have hf2 := mergeAll_ok srt mode _ merged hmerge
  have hnm : merged.map (fun p => p.FileName) =
      (buildFiles mode recs []).map (fun p => p.FileName) :=
    forall₂_map_eq _ _ _ (fun _ _ hxy => hxy.1) _ _ hf2
  have hperm : List.Perm ps merged := hps ▸ sortByFileName_perm merged
  refine ⟨mode, hmode, hraw, ?_, ?_, ?_⟩
  · rw [(hperm.map (fun p => p.FileName)).nodup_iff, hnm]
    exact hnd
  · intro fn
    rw [(hperm.map (fun p => p.FileName)).mem_iff, hnm, hrec]
    exact hnames fn
  · intro q hq
    have hq' : q ∈ merged := hperm.subset hq
    obtain ⟨p, hp, h1, h2, h3⟩ := forall₂_mem_right _ _ _ hf2 q hq'
    have := hfiles p hp
    rw [hrec, h1, h2, this.1, ← this.2]
    exact ⟨rfl, h3⟩

/-- C7 (amended): `ParseProfiles` returns the "bad mode line" error if and only if the
input has a first line (empty or not), this line is shorter than the token limit of the
scanner, and it is not of the form `mode: <mode>` with a non-empty mode; and when the
input is accepted, the mode of its first line is the `Mode` of every returned profile. -/
theorem ParseProfiles_badModeLine_iff (srt : List ProfileBlock → List ProfileBlock)
    (bs : Str) :
    ((∃ line, ParseProfiles srt bs = .error (.badModeLine line)) ↔
      ∃ raw rest, rawLines bs = raw :: rest ∧ byteLen raw < MaxScanTokenSize ∧
        validModeLine (dropCR raw) = false) ∧
    (∀ ps, ParseProfiles srt bs = .ok ps → ∀ p ∈ ps,
      p.Mode ≠ [] ∧ (rawLines bs).head?.map dropCR = some (modePrefix ++ p.Mode)) := by
  constructor
  · constructor
    · rintro ⟨line, hline⟩
      cases hr : rawLines bs with
      | nil =>
        rw [ParseProfiles_nil srt bs hr] at hline
        cases hline
      | cons raw rest =>
        refine ⟨raw, rest, rfl, ?_⟩
        rw [ParseProfiles_cons srt bs raw rest hr] at hline
        split at hline
        · cases hline
        · rename_i hlen
          split at hline
          · rename_i hv
            exact ⟨by omega, hv⟩
          · rename_i hv
            have hv' : validModeLine (dropCR raw) = true := by simpa using hv
            have hm := (validModeLine_eq _ hv').2
            split at hline
            · rename_i e he
              rcases scanLoop_records_err _ hm rest [] e he with h | h | h <;>
                · subst h; cases hline
            · split at hline
              · rename_i e he
                have := mergeAll_err srt _ _ e he
                subst this
                cases hline
              · cases hline
    · rintro ⟨raw, rest, hr, hlen, hv⟩
      refine ⟨dropCR raw, ?_⟩
      rw [ParseProfiles_cons srt bs raw rest hr]
      have : ¬ MaxScanTokenSize ≤ byteLen raw := by omega
      simp only [this, hv, if_false, if_true]
  · intro ps hok p hp
    cases hr : rawLines bs with
    | nil =>
      rw [ParseProfiles_nil srt bs hr] at hok
      simp only [Except.ok.injEq] at hok
      subst hok
      simp at hp
    | cons raw rest =>
      obtain ⟨mode, hmode, hraw, _, _, hmodes⟩ :=
        ParseProfiles_ok_profiles srt bs raw rest hr ps hok
      rw [(hmodes p hp).1]
      exact ⟨hmode, by simp [hraw]⟩

/-- C7 as stated fails: the first line of the input is empty, its first non-empty line
`mode: set` is a valid mode line, and `ParseProfiles` returns the "bad mode line" error. -/
theorem ParseProfiles_badModeLine_counterexample :
    ParseProfiles insertionSortBlocks "\nmode: set\nf:1.1,1.2 1 1\n".toList =
      .error (.badModeLine []) ∧
    ((rawLines "\nmode: set\nf:1.1,1.2 1 1\n".toList).map dropCR).find? (fun l => l ≠ []) =
      some "mode: set".toList ∧
    validModeLine "mode: set".toList = true := by
  decide

/-- Instance of C7: an input whose first line is `mode; set` gives the "bad mode line"
error, and the only profile of an accepted input in mode `count` has this mode. -/
theorem ParseProfiles_badModeLine_iff_witness :
    (∃ line, ParseProfiles insertionSortBlocks "mode; set\n".toList =
      .error (.badModeLine line)) ∧
    (∀ p ∈ [(⟨"f".toList, "count".toList, [⟨1, 1, 1, 2, 1, 4⟩]⟩ : Profile)],
      p.Mode ≠ [] ∧
      (rawLines "mode: count\nf:1.1,1.2 1 1\nf:1.1,1.2 1 3\n".toList).head?.map dropCR =
        some (modePrefix ++ p.Mode)) :=
  ⟨(ParseProfiles_badModeLine_iff insertionSortBlocks "mode; set\n".toList).1.mpr
      ⟨"mode; set".toList, [], by decide, by decide, by decide⟩,
   (ParseProfiles_badModeLine_iff insertionSortBlocks
      "mode: count\nf:1.1,1.2 1 1\nf:1.1,1.2 1 3\n".toList).2 _ (by decide)⟩

theorem sameSpan_iff (a b : ProfileBlock) :
    sameSpan a b = true ↔
      a.StartLine = b.StartLine ∧ a.StartCol = b.StartCol ∧ a.EndLine = b.EndLine ∧
        a.EndCol = b.EndCol := by
  simp [sameSpan, and_assoc]

/-- The merge loop keeps the blocks in their order, drops some, and changes counts
only. -/
theorem mergeLoop_sublist (mode : Str) (rest : List ProfileBlock) :
    ∀ (last : ProfileBlock) (out : List ProfileBlock), mergeLoop mode last rest = .ok out →
      List.Sublist (out.map blockKey) ((last :: rest).map blockKey) := by
  induction rest with
  | nil =>
    intro last out h
    simp only [mergeLoop, Except.ok.injEq] at h
    subst h
    exact List.Sublist.refl _
  | cons b rest ih =>
    intro last out h
    simp only [mergeLoop] at h
    split at h
    · split at h
      · cases h
      · have := ih _ out h
        simp only [List.map_cons] at this ⊢
        have hk : blockKey { last with Count := combineCount mode last.Count b.Count } =
            blockKey last := rfl
        rw [hk] at this
        exact this.trans (List.Sublist.cons₂ _ (List.sublist_cons_self _ _))
    · split at h
      · cases h
      · rename_i out' hout'
        simp only [Except.ok.injEq] at h
        subst h
        have := ih _ out' hout'
        simp only [List.map_cons] at this ⊢
        exact List.Sublist.cons₂ _ this

theorem mergeSamples_sublist (mode : Str) (l out : List ProfileBlock)
    (h : mergeSamples mode l = .ok out) : List.Sublist (out.map blockKey) (l.map blockKey) := by
  cases l with
  | nil =>
    simp only [mergeSamples, Except.ok.injEq] at h
    subst h
    exact List.Sublist.refl _
  | cons b rest => exact mergeLoop_sublist mode rest b out h

theorem startLE_iff_blockLess (a b : ProfileBlock) : blockLess b a = false ↔ startLE a b := by
  simp only [blockLess, Bool.or_eq_false_iff, Bool.and_eq_false_iff, decide_eq_false_iff_not,
    startLE]
  omega

theorem mergeSamples_sorted (srt : List ProfileBlock → List ProfileBlock)
    (hsrt : SortsByStart srt) (mode : Str) (l out : List ProfileBlock)
    (h : mergeSamples mode (srt l) = .ok out) : out.Pairwise startLE := by
  have hs := hsrt.sorted l
  have hsub := mergeSamples_sublist mode _ out h
  have h1 : ((srt l).map blockKey).Pairwise
      (fun k1 k2 => k1.1 < k2.1 ∨ (k1.1 = k2.1 ∧ k1.2.1 ≤ k2.2.1)) := by
    rw [List.pairwise_map]
    exact hs.imp (fun {a b} hab => (startLE_iff_blockLess a b).mp hab)
  have h2 := h1.sublist hsub
  rw [List.pairwise_map] at h2
  exact h2

theorem sortByFileName_sorted (l : List Profile) :
    (sortByFileName l).Pairwise (fun a b => strLess b.FileName a.FileName = false) :=
  insertionSort_sorted fileNameLess (fun _ _ => strLess_asymm _ _)
    (fun _ _ _ => strLess_trans _ _ _) l

theorem ParseProfiles_ok_sorted (srt : List ProfileBlock → List ProfileBlock) (bs : Str)
    (ps : List Profile) (hok : ParseProfiles srt bs = .ok ps) :
    (ps.map (fun p => p.FileName)).Pairwise (fun a b => strLess a b = true) := by
  cases hr : rawLines bs with
  | nil =>
    rw [ParseProfiles_nil srt bs hr] at hok
    simp only [Except.ok.injEq] at hok
    subst hok
    exact List.Pairwise.nil
  | cons raw rest =>
    obtain ⟨_, _, _, hnd, _, _⟩ := ParseProfiles_ok_profiles srt bs raw rest hr ps hok
    obtain ⟨_, _, merged, _, _, _, _, _, _, hps⟩ := ParseProfiles_ok_cons srt bs raw rest hr ps hok
    have hs := sortByFileName_sorted merged
    rw [← hps] at hs
    rw [List.pairwise_map]
    have hnd' : ps.Pairwise (fun a b => a.FileName ≠ b.FileName) := by
      have := hnd
      rw [List.Nodup, List.pairwise_map] at this
      exact this
    refine (hs.and hnd').imp ?_
    rintro a b ⟨h1, h2⟩
    cases h : strLess a.FileName b.FileName with
    | true => rfl
    | false => exact absurd (strLess_total _ _ h h1) h2

/-- C4: the result of `ParseProfiles` on an accepted input is in canonical order: the
file names of the profiles are strictly increasing, they are exactly the file names of
the records of the input, every profile carries the mode of the mode line, and in every
profile the blocks are in non-decreasing lexicographic (StartLine, StartCol) order. -/
theorem ParseProfiles_canonical (srt : List ProfileBlock → List ProfileBlock)
    (hsrt : SortsByStart srt) (bs : Str) (ps : List Profile)
    (hok : ParseProfiles srt bs = .ok ps) :
    (ps.map (fun p => p.FileName)).Pairwise (fun a b => strLess a b = true) ∧
    (∀ fn, fn ∈ ps.map (fun p => p.FileName) ↔ fn ∈ (records bs).map Prod.fst) ∧
    (∀ p ∈ ps, (rawLines bs).head?.map dropCR = some (modePrefix ++ p.Mode)) ∧
    (∀ p ∈ ps, p.Blocks.Pairwise startLE) := by
  refine ⟨ParseProfiles_ok_sorted srt bs ps hok, ?_⟩
  cases hr : rawLines bs with
  | nil =>
    have hok' := hok
    rw [ParseProfiles_nil srt bs hr] at hok'
    simp only [Except.ok.injEq] at hok'
    subst hok'
    simp [records, recordLines, hr]
  | cons raw rest =>
    obtain ⟨mode, _, hraw, _, hnames, hp⟩ := ParseProfiles_ok_profiles srt bs raw rest hr ps hok
    refine ⟨hnames, ?_, ?_⟩
    · intro p hpm
      rw [(hp p hpm).1]
      simp [hraw]
    · intro p hpm
      exact mergeSamples_sorted srt hsrt mode _ _ (hp p hpm).2

/-- Instance of C4: two files given out of order, the blocks of `b.go` out of order
and one of them twice. -/
theorem ParseProfiles_canonical_witness :
    ParseProfiles insertionSortBlocks
        "mode: count\nb.go:3.1,4.2 1 1\na.go:1.1,3.3 1 1\nb.go:1.1,2.2 1 1\nb.go:1.1,2.2 1 5\n".toList =
      .ok [⟨"a.go".toList, "count".toList, [⟨1, 1, 3, 3, 1, 1⟩]⟩,
        ⟨"b.go".toList, "count".toList, [⟨1, 1, 2, 2, 1, 6⟩, ⟨3, 1, 4, 2, 1, 1⟩]⟩] ∧
    (["a.go".toList, "b.go".toList]).Pairwise (fun a b => strLess a b = true) :=
  ⟨by decide,
   (ParseProfiles_canonical insertionSortBlocks insertionSortBlocks_sorts
      "mode: count\nb.go:3.1,4.2 1 1\na.go:1.1,3.3 1 1\nb.go:1.1,2.2 1 1\nb.go:1.1,2.2 1 5\n".toList
      [⟨"a.go".toList, "count".toList, [⟨1, 1, 3, 3, 1, 1⟩]⟩,
        ⟨"b.go".toList, "count".toList, [⟨1, 1, 2, 2, 1, 6⟩, ⟨3, 1, 4, 2, 1, 1⟩]⟩]
      (by decide)).1⟩

/-! ## Records with one position -/

theorem toInt_range (s : Str) (x : Int) (h : toInt s = some x) : 0 ≤ x ∧ x ≤ maxInt := by
  simp only [toInt] at h
  split at h
  · rename_i hc
    simp only [Option.some.injEq] at h
    subst h
    exact ⟨Int.ofNat_nonneg _, hc.2.2⟩
  · cases h

theorem blockOf_inRange (m : Submatch) (b : ProfileBlock) (h : blockOf m = some b) :
    b.inRange := by
  simp only [blockOf] at h
  split at h
  · rename_i a1 a2 a3 a4 a5 a6 h1 h2 h3 h4 h5 h6
    simp only [Option.some.injEq] at h
    subst h
    exact ⟨toInt_range _ _ h1, toInt_range _ _ h2, toInt_range _ _ h3, toInt_range _ _ h4,
      toInt_range _ _ h5, toInt_range _ _ h6⟩
  · cases h

theorem parseRecord_inRange (line : Str) (r : Str × ProfileBlock)
    (h : parseRecord line = some r) : r.2.inRange := by
  simp only [parseRecord] at h
  split at h
  · cases h
  · split at h
    · cases h
    · rename_i m _ _ b hb
      simp only [Option.some.injEq] at h
      subst h
      exact blockOf_inRange m b hb

theorem records_inRange (bs : Str) : ∀ r ∈ records bs, r.2.inRange := by
  intro r hr
  simp only [records, List.mem_filterMap] at hr
  obtain ⟨line, _, hline⟩ := hr
  exact parseRecord_inRange line r hline

theorem lor_ofNat (a b : Nat) :
    Int.lor (Int.ofNat a) (Int.ofNat b) = Int.ofNat (a ||| b) := rfl

theorem foldl_lor_ofNat (ns : List Nat) :
    ∀ a : Nat, (ns.map Int.ofNat).foldl Int.lor (Int.ofNat a) =
      Int.ofNat (ns.foldl (fun x y => x ||| y) a) := by
  induction ns with
  | nil => intro a; rfl
  | cons n ns ih =>
    intro a
    simp only [List.map_cons, List.foldl_cons, lor_ofNat, ih]

theorem map_ofNat_toNat (l : List Int) (h0 : ∀ x ∈ l, 0 ≤ x) :
    (l.map Int.toNat).map Int.ofNat = l := by
  induction l with
  | nil => rfl
  | cons x xs ih =>
    simp only [List.map_cons, List.cons.injEq]
    refine ⟨?_, ih (fun y hy => h0 y (List.mem_cons_of_mem _ hy))⟩
    exact Int.toNat_of_nonneg (h0 x (List.mem_cons_self _ _))

theorem foldl_lor_perm (l1 l2 : List Int) (hp : List.Perm l1 l2) (h0 : ∀ x ∈ l1, 0 ≤ x) :
    l1.foldl Int.lor 0 = l2.foldl Int.lor 0 := by
  rw [← map_ofNat_toNat l1 h0, ← map_ofNat_toNat l2 (fun x hx => h0 x (hp.symm.subset hx))]
  have z : (0 : Int) = Int.ofNat 0 := rfl
  rw [z, foldl_lor_ofNat, foldl_lor_ofNat]
  congr 1
  apply List.Perm.foldl_eq' (hp.map Int.toNat)
  intro x _ y _ z
  show (z ||| x) ||| y = (z ||| y) ||| x
  rw [Nat.lor_assoc, Nat.lor_comm x y, ← Nat.lor_assoc]

theorem lor_zero_left (x : Int) (h : 0 ≤ x) : Int.lor 0 x = x := by
  obtain ⟨n, rfl⟩ := Int.eq_ofNat_of_zero_le h
  show Int.lor (Int.ofNat 0) (Int.ofNat n) = Int.ofNat n
  rw [lor_ofNat]
  simp

theorem foldl_wrap_sum (ks : List Int) :
    ∀ k : Int, ks.foldl (fun a x => wrapInt (a + x)) (wrapInt k) = wrapInt (k + ks.sum) := by
  induction ks with
  | nil => intro k; simp
  | cons x xs ih =>
    intro k
    simp only [List.foldl_cons, List.sum_cons, wrapInt_add_left, ih, add_assoc]

/-- The count of a run of records with one position: the fold of the counts with `|=`
or with `+=`. -/
theorem mergeLoop_same (mode : Str) (b0 : ProfileBlock) (ks : List Int) :
    ∀ k : Int,
      mergeLoop mode { b0 with Count := k } (ks.map (fun x => { b0 with Count := x })) =
        .ok [{ b0 with Count := ks.foldl (combineCount mode) k }] := by
  induction ks with
  | nil => intro k; rfl
  | cons x xs ih =>
    intro k
    have hs : sameSpan { b0 with Count := x } { b0 with Count := k } = true := by
      simp [sameSpan]
    simp only [List.map_cons, mergeLoop, hs, if_true, ne_eq, not_true_eq_false, if_false,
      List.foldl_cons]
    exact ih _

theorem mergeSamples_same (srt : List ProfileBlock → List ProfileBlock)
    (hsrt : SortsByStart srt) (mode : Str) (b0 : ProfileBlock) (c : Int) (cs : List Int)
    (out : List ProfileBlock)
    (h : mergeSamples mode (srt ((c :: cs).map (fun k => { b0 with Count := k }))) = .ok out) :
    ∃ k ks, List.Perm (k :: ks) (c :: cs) ∧
      out = [{ b0 with Count := ks.foldl (combineCount mode) k }] := by
  have hperm := hsrt.perm ((c :: cs).map (fun k => { b0 with Count := k }))
  generalize srt ((c :: cs).map (fun k => { b0 with Count := k })) = sl at h hperm
  have hform : sl = (sl.map (fun b => b.Count)).map (fun k => { b0 with Count := k }) := by
    rw [List.map_map]
    conv_lhs => rw [← List.map_id sl]
    apply List.map_congr_left
    intro x hx
    have hx' := hperm.subset hx
    simp only [List.mem_map] at hx'
    obtain ⟨k, _, rfl⟩ := hx'
    rfl
  have hcounts : List.Perm (sl.map (fun b => b.Count)) (c :: cs) := by
    have := hperm.map (fun b => b.Count)
    simpa [List.map_map, Function.comp_def] using this
  cases hk : sl.map (fun b => b.Count) with
  | nil =>
    rw [hk] at hcounts
    exact absurd hcounts.symm (List.cons_ne_nil _ _ ∘ List.Perm.eq_nil)
  | cons k ks =>
    rw [hk] at hcounts hform
    refine ⟨k, ks, hcounts, ?_⟩
    rw [hform] at h
    simp only [List.map_cons, mergeSamples, mergeLoop_same, Except.ok.injEq] at h
    exact h.symm

theorem combineCount_fold (mode : Str) (k : Int) (ks : List Int) (c : Int) (cs : List Int)
    (hperm : List.Perm (k :: ks) (c :: cs)) (h0 : ∀ x ∈ c :: cs, 0 ≤ x ∧ x ≤ maxInt) :
    ks.foldl (combineCount mode) k =
      if mode = setMode then cs.foldl Int.lor c else wrapInt (c :: cs).sum := by
  have hk : 0 ≤ k ∧ k ≤ maxInt := h0 k (hperm.subset (List.mem_cons_self _ _))
  have hc : 0 ≤ c ∧ c ≤ maxInt := h0 c (List.mem_cons_self _ _)
  by_cases hm : mode = setMode
  · have hf : combineCount mode = Int.lor := by
      funext a b
      simp [combineCount, hm]
    rw [hf, if_pos hm]
    have e1 : ks.foldl Int.lor k = (k :: ks).foldl Int.lor 0 := by
      simp only [List.foldl_cons, lor_zero_left k hk.1]
    have e2 : cs.foldl Int.lor c = (c :: cs).foldl Int.lor 0 := by
      simp only [List.foldl_cons, lor_zero_left c hc.1]
    rw [e1, e2]
    exact foldl_lor_perm _ _ hperm (fun x hx => (h0 x (hperm.subset hx)).1)
  · have hf : combineCount mode = fun a x => wrapInt (a + x) := by
      funext a b
      simp [combineCount, hm]
    rw [hf, if_neg hm]
    have hw : wrapInt k = k :=
      wrapInt_of_range k (le_trans (by decide) hk.1) hk.2
    have := foldl_wrap_sum ks k
    rw [hw] at this
    rw [this, ← List.sum_cons, hperm.sum_eq]

/-- C3 (amended): in an accepted input in which all records of a file carry the same
4-tuple and the same NumStmt, the file has exactly one profile, with exactly one
block, with that 4-tuple and NumStmt; its Count is the bitwise OR of the counts of the
records when the mode is `set`, and otherwise their sum reduced into the range of
`int` as Go's `+=` does. -/
theorem ParseProfiles_single_position (srt : List ProfileBlock → List ProfileBlock)
    (hsrt : SortsByStart srt) (bs : Str) (ps : List Profile)
    (hok : ParseProfiles srt bs = .ok ps) (fn : Str) (b0 : ProfileBlock) (c : Int)
    (cs : List Int)
    (hrec : blocksOfFile fn (records bs) = (c :: cs).map (fun k => { b0 with Count := k })) :
    ∃ p ∈ ps, p.FileName = fn ∧ (∀ q ∈ ps, q.FileName = fn → q = p) ∧
      p.Blocks = [{ b0 with
        Count := if p.Mode = setMode then cs.foldl Int.lor c else wrapInt (c :: cs).sum }] := by
  cases hr : rawLines bs with
  | nil =>
    simp [records, recordLines, hr, blocksOfFile] at hrec
  | cons raw rest =>
    obtain ⟨mode, _, _, hnd, hnames, hp⟩ := ParseProfiles_ok_profiles srt bs raw rest hr ps hok
    have hmem : fn ∈ (records bs).map Prod.fst := by
      have : { b0 with Count := c } ∈ blocksOfFile fn (records bs) := by
        rw [hrec]; simp
      simp only [blocksOfFile, List.mem_map, List.mem_filter, decide_eq_true_eq] at this
      obtain ⟨r, ⟨hr1, hr2⟩, _⟩ := this
      exact List.mem_map.mpr ⟨r, hr1, hr2⟩
    obtain ⟨p, hpm, hpn⟩ := List.mem_map.mp ((hnames fn).mpr hmem)
    refine ⟨p, hpm, hpn, ?_, ?_⟩
    · intro q hq hqn
      exact List.inj_on_of_nodup_map hnd hq hpm (hqn.trans hpn.symm)
    · have hms := (hp p hpm).2
      rw [hpn, hrec] at hms
      obtain ⟨k, ks, hperm, hout⟩ := mergeSamples_same srt hsrt mode b0 c cs _ hms
      rw [hout, (hp p hpm).1]
      congr 2
      apply combineCount_fold mode k ks c cs hperm
      intro x hx
      have hb : { b0 with Count := x } ∈ blocksOfFile fn (records bs) := by
        rw [hrec]
        exact List.mem_map.mpr ⟨x, hx, rfl⟩
      simp only [blocksOfFile, List.mem_map, List.mem_filter] at hb
      obtain ⟨r, ⟨hr1, _⟩, hr3⟩ := hb
      have := (records_inRange bs r hr1).2.2.2.2.2
      rw [hr3] at this
      exact this

/-- C3 as stated fails: in mode `count` the records with the counts 2^63 - 1 and 1
are merged into a block with the count -2^63, which is not their sum. -/
theorem ParseProfiles_single_position_counterexample :
    ParseProfiles insertionSortBlocks
        "mode: count\nf:1.1,1.2 1 9223372036854775807\nf:1.1,1.2 1 1\n".toList =
      .ok [⟨"f".toList, "count".toList, [⟨1, 1, 1, 2, 1, -9223372036854775808⟩]⟩] ∧
    blocksOfFile "f".toList
        (records "mode: count\nf:1.1,1.2 1 9223372036854775807\nf:1.1,1.2 1 1\n".toList) =
      [⟨1, 1, 1, 2, 1, 9223372036854775807⟩, ⟨1, 1, 1, 2, 1, 1⟩] ∧
    (9223372036854775807 : Int) + 1 ≠ -9223372036854775808 := by
  decide

/-- Instance of C3: the counts 1 and 3 in mode `count` give one block with count 4. -/
theorem ParseProfiles_single_position_witness :
    ∃ p ∈ [(⟨"f".toList, "count".toList, [⟨1, 1, 1, 2, 1, 4⟩]⟩ : Profile)],
      p.FileName = "f".toList ∧
      (∀ q ∈ [(⟨"f".toList, "count".toList, [⟨1, 1, 1, 2, 1, 4⟩]⟩ : Profile)],
        q.FileName = "f".toList → q = p) ∧
      p.Blocks = [{ (⟨1, 1, 1, 2, 1, 0⟩ : ProfileBlock) with
        Count := if p.Mode = setMode then [3].foldl Int.lor 1 else wrapInt [1, 3].sum }] :=
  ParseProfiles_single_position insertionSortBlocks insertionSortBlocks_sorts
    "mode: count\nf:1.1,1.2 1 1\nf:1.1,1.2 1 3\n".toList _ (by decide) "f".toList
    ⟨1, 1, 1, 2, 1, 0⟩ 1 [3] (by decide)

/-! ## Decimal numbers -/

theorem digitChar_spec : ∀ d : Nat, d < 10 →
    isDigit (digitChar d) = true ∧ digitVal (digitChar d) = d := by
  decide

theorem natDigits_isDigit : ∀ (fuel n : Nat), ∀ c ∈ natDigits fuel n, isDigit c = true := by
  intro fuel
  induction fuel with
  | zero => intro n c hc; simp [natDigits] at hc
  | succ fuel ih =>
    intro n c hc
    simp only [natDigits] at hc
    split at hc
    · rename_i hn
      simp only [List.mem_singleton] at hc
      subst hc
      exact (digitChar_spec n hn).1
    · rcases List.mem_append.mp hc with hc | hc
      · exact ih _ c hc
      · simp only [List.mem_singleton] at hc
        subst hc
        exact (digitChar_spec _ (Nat.mod_lt _ (by decide))).1

theorem natDigits_ne_nil (fuel n : Nat) : natDigits (fuel + 1) n ≠ [] := by
  simp only [natDigits]
  split <;> simp

theorem atoiNat_append (xs : Str) (c : Char) :
    atoiNat (xs ++ [c]) = 10 * atoiNat xs + digitVal c := by
  simp [atoiNat, List.foldl_append]

theorem atoiNat_natDigits : ∀ (fuel n : Nat), n < fuel → atoiNat (natDigits fuel n) = n := by
  intro fuel
  induction fuel with
  | zero => intro n h; omega
  | succ fuel ih =>
    intro n h
    simp only [natDigits]
    split
    · rename_i hn
      simp [atoiNat, (digitChar_spec n hn).2]
    · rename_i hn
      rw [atoiNat_append, ih (n / 10) (by omega),
        (digitChar_spec _ (Nat.mod_lt _ (by decide))).2]
      omega

theorem formatInt_of_nonneg (x : Int) (h : 0 ≤ x) : formatInt x = formatNat x.toNat := by
  simp [formatInt, not_lt.mpr h]

theorem formatInt_isDigit (x : Int) (h : 0 ≤ x) : ∀ c ∈ formatInt x, isDigit c = true := by
  rw [formatInt_of_nonneg x h]
  exact natDigits_isDigit _ _

theorem formatInt_ne_nil (x : Int) (h : 0 ≤ x) : formatInt x ≠ [] := by
  rw [formatInt_of_nonneg x h]
  exact natDigits_ne_nil _ _

/-- Reading back a written number: `toInt` of the `%d` form of a value that fits an
`int` and is not negative. -/
theorem toInt_formatInt (x : Int) (h0 : 0 ≤ x) (h1 : x ≤ maxInt) :
    toInt (formatInt x) = some x := by
  have hval : atoiNat (formatInt x) = x.toNat := by
    rw [formatInt_of_nonneg x h0]
    exact atoiNat_natDigits _ _ (Nat.lt_succ_self _)
  have hall : (formatInt x).all isDigit = true := by
    rw [List.all_eq_true]
    exact formatInt_isDigit x h0
  have hx : ((x.toNat : Nat) : Int) = x := Int.toNat_of_nonneg h0
  simp only [toInt, ne_eq, formatInt_ne_nil x h0, not_false_eq_true, hall, hval, hx, h1,
    and_self, if_true]

/-! ## `lineRe` on a written record -/

theorem head?_append_some {β : Type} (l l' : List β) (y : β) (h : l.head? = some y) :
    (l ++ l').head? = some y := by
  cases l with
  | nil => cases h
  | cons x xs => simpa using h

theorem head?_flatMap_cons {α β : Type} (k : α → List β) (x : α) (tl : List α) (y : β)
    (h : (k x).head? = some y) : ((x :: tl).flatMap k).head? = some y := by
  rw [List.flatMap_cons]
  exact head?_append_some _ _ y h

theorem isDigit_of_mem {ds : Str} (h : ∀ c ∈ ds, isDigit c = true) {c : Char} (hc : c ∈ ds) :
    isDigit c = true := h c hc

/-- The first match of `([0-9]+)` on a run of digits that a rune other than a digit,
or the end of the text, follows. -/
theorem digitsPlus_first (ds r : Str) (hne : ds ≠ []) (hd : ∀ c ∈ ds, isDigit c = true)
    (hr : ∀ c r', r = c :: r' → isDigit c = false) :
    ∃ tl, digitsPlus (ds ++ r) = (ds, r) :: tl := by
  induction ds with
  | nil => exact absurd rfl hne
  | cons c cs ih =>
    have hc : isDigit c = true := hd c (List.mem_cons_self _ _)
    cases cs with
    | nil =>
      have hr0 : digitsPlus r = [] := by
        cases r with
        | nil => rfl
        | cons x xs => simp [digitsPlus, hr x xs rfl]
      exact ⟨[], by simp [digitsPlus, hc, hr0]⟩
    | cons c' cs' =>
      obtain ⟨tl, htl⟩ := ih (List.cons_ne_nil _ _)
        (fun x hx => hd x (List.mem_cons_of_mem _ hx))
      refine ⟨tl.map (fun m => (c :: m.1, m.2)) ++ [([c], c' :: cs' ++ r)], ?_⟩
      show digitsPlus (c :: (c' :: cs' ++ r)) = _
      simp only [digitsPlus, hc, if_true] at htl ⊢
      rw [htl]
      rfl

theorem dotPlus_mem (s : Str) : ∀ m ∈ dotPlus s, m.1 ≠ [] ∧ '\n' ∉ m.1 ∧ s = m.1 ++ m.2 := by
  induction s with
  | nil => intro m hm; simp [dotPlus] at hm
  | cons c cs ih =>
    intro m hm
    simp only [dotPlus] at hm
    split at hm
    · simp at hm
    · rename_i hc
      rcases List.mem_append.mp hm with hm | hm
      · simp only [List.mem_map] at hm
        obtain ⟨m0, hm0, rfl⟩ := hm
        obtain ⟨_, h2, h3⟩ := ih m0 hm0
        refine ⟨List.cons_ne_nil _ _, ?_, by simp [← h3]⟩
        simp only [List.mem_cons, not_or]
        exact ⟨fun h => hc h.symm, h2⟩
      · simp only [List.mem_singleton] at hm
        subst hm
        refine ⟨List.cons_ne_nil _ _, ?_, rfl⟩
        simp only [List.mem_singleton]
        exact fun h => hc h.symm

/-- The first match of `(.+)` that the rest of the expression accepts, when no longer
one is accepted. -/
theorem head?_dotPlus_flatMap {β : Type} (a : Str) :
    ∀ (k : Str × Str → List β) (b : Str) (y : β), a ≠ [] → '\n' ∉ a →
      (k (a, b)).head? = some y → (∀ m ∈ dotPlus b, k (a ++ m.1, m.2) = []) →
      ((dotPlus (a ++ b)).flatMap k).head? = some y := by
  induction a with
  | nil => intro k b y ha; exact absurd rfl ha
  | cons c cs ih =>
    intro k b y _ hnl hy hlong
    have hc : ¬ c = '\n' := fun h => hnl (by simp [h])
    have hcs : '\n' ∉ cs := fun h => hnl (List.mem_cons_of_mem _ h)
    show ((dotPlus (c :: (cs ++ b))).flatMap k).head? = some y
    simp only [dotPlus, hc, if_false, List.flatMap_append, List.flatMap_map]
    cases cs with
    | nil =>
      have h0 : (dotPlus ([] ++ b)).flatMap (fun m => k (c :: m.1, m.2)) = [] := by
        rw [List.flatMap_eq_nil_iff]
        intro m hm
        exact hlong m hm
      rw [h0]
      simpa using hy
    | cons c' cs' =>
      have := ih (fun m => k (c :: m.1, m.2)) b y (List.cons_ne_nil _ _) hcs hy
        (fun m hm => hlong m hm)
      exact head?_append_some _ _ y this

theorem lit_eq_nil (x : Char) (s : Str) (h : x ∉ s) : lit x s = [] := by
  cases s with
  | nil => rfl
  | cons c cs =>
    have : ¬ c = x := fun hc => h (by simp [hc])
    simp [lit, this]

/-- The match of `lineRe` on a file name without newline followed by six numbers in
the format of a record. -/
theorem FindStringSubmatch_record (fn d1 d2 d3 d4 d5 d6 : Str) (hfn : fn ≠ [])
    (hnl : '\n' ∉ fn)
    (h1 : d1 ≠ [] ∧ ∀ c ∈ d1, isDigit c = true) (h2 : d2 ≠ [] ∧ ∀ c ∈ d2, isDigit c = true)
    (h3 : d3 ≠ [] ∧ ∀ c ∈ d3, isDigit c = true) (h4 : d4 ≠ [] ∧ ∀ c ∈ d4, isDigit c = true)
    (h5 : d5 ≠ [] ∧ ∀ c ∈ d5, isDigit c = true) (h6 : d6 ≠ [] ∧ ∀ c ∈ d6, isDigit c = true) :
    FindStringSubmatch
        (fn ++ ':' :: (d1 ++ '.' :: (d2 ++ ',' :: (d3 ++ '.' :: (d4 ++
          ' ' :: (d5 ++ ' ' :: d6)))))) =
      some { file := fn, startLine := d1, startCol := d2, endLine := d3, endCol := d4,
             numStmt := d5, count := d6 } := by
  unfold FindStringSubmatch lineReMatches
  have hdot : isDigit '.' = false := by decide
  have hcomma : isDigit ',' = false := by decide
  have hspace : isDigit ' ' = false := by decide
  have hcolon : isDigit ':' = false := by decide
  apply head?_dotPlus_flatMap fn _ _ _ hfn hnl
  · obtain ⟨t1, e1⟩ := digitsPlus_first d1 ('.' :: (d2 ++ ',' :: (d3 ++ '.' :: (d4 ++
      ' ' :: (d5 ++ ' ' :: d6))))) h1.1 h1.2 (by intro c r' h; cases h; exact hdot)
    obtain ⟨t2, e2⟩ := digitsPlus_first d2 (',' :: (d3 ++ '.' :: (d4 ++
      ' ' :: (d5 ++ ' ' :: d6)))) h2.1 h2.2 (by intro c r' h; cases h; exact hcomma)
    obtain ⟨t3, e3⟩ := digitsPlus_first d3 ('.' :: (d4 ++
      ' ' :: (d5 ++ ' ' :: d6))) h3.1 h3.2 (by intro c r' h; cases h; exact hdot)
    obtain ⟨t4, e4⟩ := digitsPlus_first d4 (' ' :: (d5 ++ ' ' :: d6)) h4.1 h4.2
      (by intro c r' h; cases h; exact hspace)
    obtain ⟨t5, e5⟩ := digitsPlus_first d5 (' ' :: d6) h5.1 h5.2
      (by intro c r' h; cases h; exact hspace)
    obtain ⟨t6, e6⟩ := digitsPlus_first d6 [] h6.1 h6.2 (by intro c r' h; cases h)
    rw [List.append_nil] at e6
    simp only [lit, if_true, List.flatMap_cons, List.flatMap_nil, List.append_nil]
    rw [e1]
    apply head?_flatMap_cons
    have hany : ∀ r : Str, anyChar ('.' :: r) = [r] := by
      intro r; simp [anyChar]
    simp only [hany, List.flatMap_cons, List.flatMap_nil, List.append_nil]
    rw [e2]
    apply head?_flatMap_cons
    simp only [lit, if_true, List.flatMap_cons, List.flatMap_nil, List.append_nil]
    rw [e3]
    apply head?_flatMap_cons
    simp only [hany, List.flatMap_cons, List.flatMap_nil, List.append_nil]
    rw [e4]
    apply head?_flatMap_cons
    simp only [lit, if_true, List.flatMap_cons, List.flatMap_nil, List.append_nil]
    rw [e5]
    apply head?_flatMap_cons
    simp only [lit, if_true, List.flatMap_cons, List.flatMap_nil, List.append_nil]
    rw [e6]
    apply head?_flatMap_cons
    rfl
  · intro m hm
    obtain ⟨hm1, _, hm3⟩ := dotPlus_mem _ m hm
    have hnc : ':' ∉ m.2 := by
      cases hp : m.1 with
      | nil => exact absurd hp hm1
      | cons x xs =>
        rw [hp] at hm3
        simp only [List.cons_append, List.cons.injEq] at hm3
        intro hmem
        have hin : ':' ∈ xs ++ m.2 := List.mem_append_right _ hmem
        rw [← hm3.2] at hin
        have hno : ∀ c, c ∈ d1 ++ '.' :: (d2 ++ ',' :: (d3 ++ '.' :: (d4 ++
            ' ' :: (d5 ++ ' ' :: d6)))) → c ≠ ':' := by
          intro c hc
          simp only [List.mem_append, List.mem_cons] at hc
          rcases hc with hc | rfl | hc | rfl | hc | rfl | hc | rfl | hc | rfl | hc
          · intro h; subst h; exact absurd (h1.2 _ hc) (by simp [hcolon])
          · decide
          · intro h; subst h; exact absurd (h2.2 _ hc) (by simp [hcolon])
          · decide
          · intro h; subst h; exact absurd (h3.2 _ hc) (by simp [hcolon])
          · decide
          · intro h; subst h; exact absurd (h4.2 _ hc) (by simp [hcolon])
          · decide
          · intro h; subst h; exact absurd (h5.2 _ hc) (by simp [hcolon])
          · decide
          · intro h; subst h; exact absurd (h6.2 _ hc) (by simp [hcolon])
        exact hno _ hin rfl
    simp only [lit_eq_nil ':' m.2 hnc, List.flatMap_nil]

/-! ## Reading back the written text -/

theorem parseRecord_recordText (fn : Str) (b : ProfileBlock) (hfn : fn ≠ [])
    (hnl : '\n' ∉ fn) (hb : b.inRange) : parseRecord (recordText fn b) = some (fn, b) := by
  obtain ⟨h1, h2, h3, h4, h5, h6⟩ := hb
  have hm := FindStringSubmatch_record fn (formatInt b.StartLine) (formatInt b.StartCol)
    (formatInt b.EndLine) (formatInt b.EndCol) (formatInt b.NumStmt) (formatInt b.Count)
    hfn hnl
    ⟨formatInt_ne_nil _ h1.1, formatInt_isDigit _ h1.1⟩
    ⟨formatInt_ne_nil _ h2.1, formatInt_isDigit _ h2.1⟩
    ⟨formatInt_ne_nil _ h3.1, formatInt_isDigit _ h3.1⟩
    ⟨formatInt_ne_nil _ h4.1, formatInt_isDigit _ h4.1⟩
    ⟨formatInt_ne_nil _ h5.1, formatInt_isDigit _ h5.1⟩
    ⟨formatInt_ne_nil _ h6.1, formatInt_isDigit _ h6.1⟩
  simp only [parseRecord, recordText, hm, blockOf, toInt_formatInt _ h1.1 h1.2,
    toInt_formatInt _ h2.1 h2.2, toInt_formatInt _ h3.1 h3.2, toInt_formatInt _ h4.1 h4.2,
    toInt_formatInt _ h5.1 h5.2, toInt_formatInt _ h6.1 h6.2]

theorem dropCR_append_singleton (xs : Str) (c : Char) (hc : c ≠ '\r') :
    dropCR (xs ++ [c]) = xs ++ [c] := by
  induction xs with
  | nil => simp [dropCR, hc]
  | cons x xs ih =>
    cases xs with
    | nil => simp [dropCR, hc]
    | cons y ys =>
      show dropCR (x :: y :: (ys ++ [c])) = _
      simp only [dropCR]
      rw [show y :: (ys ++ [c]) = (y :: ys) ++ [c] from rfl, ih]
      rfl

theorem dropCR_of_getLast (l : Str) (h : l.getLast? ≠ some '\r') : dropCR l = l := by
  rcases List.eq_nil_or_concat l with rfl | ⟨xs, c, rfl⟩
  · rfl
  · rw [List.concat_eq_append] at h ⊢
    apply dropCR_append_singleton
    intro hc
    apply h
    simp [hc]

theorem isDigit_ne_cr (c : Char) (h : isDigit c = true) : c ≠ '\r' := by
  intro hc
  subst hc
  exact absurd h (by decide)

theorem isDigit_ne_nl (c : Char) (h : isDigit c = true) : c ≠ '\n' := by
  intro hc
  subst hc
  exact absurd h (by decide)

theorem getLast?_append_cons {α : Type} (xs : List α) (y : α) (ys : List α) :
    (xs ++ y :: ys).getLast? = (y :: ys).getLast? := by
  induction xs with
  | nil => rfl
  | cons x xs ih =>
    cases hx : xs ++ y :: ys with
    | nil => simp at hx
    | cons z zs =>
      rw [List.cons_append, hx, List.getLast?_cons_cons, ← hx, ih]

theorem recordText_getLast (fn : Str) (b : ProfileBlock) (hb : b.inRange) :
    (recordText fn b).getLast? ≠ some '\r' := by
  have hne := formatInt_ne_nil b.Count hb.2.2.2.2.2.1
  have hd := formatInt_isDigit b.Count hb.2.2.2.2.2.1
  rcases List.eq_nil_or_concat (formatInt b.Count) with h | ⟨xs, c, h⟩
  · exact absurd h hne
  · have hc : isDigit c = true := hd c (by rw [h]; simp)
    have hform : recordText fn b =
        (fn ++ ':' :: (formatInt b.StartLine ++ '.' :: (formatInt b.StartCol ++
          ',' :: (formatInt b.EndLine ++ '.' :: (formatInt b.EndCol ++
          ' ' :: (formatInt b.NumStmt ++ ' ' :: xs)))))) ++ [c] := by
      simp [recordText, h]
    rw [hform, getLast?_append_cons]
    intro hcc
    simp only [List.getLast?_singleton, Option.some.injEq] at hcc
    exact isDigit_ne_cr c hc hcc

theorem recordText_no_newline (fn : Str) (b : ProfileBlock) (hnl : '\n' ∉ fn)
    (hb : b.inRange) : '\n' ∉ recordText fn b := by
  obtain ⟨h1, h2, h3, h4, h5, h6⟩ := hb
  intro hmem
  simp only [recordText, List.mem_append, List.mem_cons] at hmem
  have hd : ∀ x : Int, 0 ≤ x → '\n' ∉ formatInt x := by
    intro x hx hin
    exact isDigit_ne_nl _ (formatInt_isDigit x hx _ hin) rfl
  rcases hmem with h | h | h | h | h | h | h | h | h | h | h | h | h
  · exact hnl h
  · exact absurd h (by decide)
  · exact hd _ h1.1 h
  · exact absurd h (by decide)
  · exact hd _ h2.1 h
  · exact absurd h (by decide)
  · exact hd _ h3.1 h
  · exact absurd h (by decide)
  · exact hd _ h4.1 h
  · exact absurd h (by decide)
  · exact hd _ h5.1 h
  · exact absurd h (by decide)
  · exact hd _ h6.1 h

theorem rawLines_append_newline (l rest : Str) (hl : '\n' ∉ l) :
    rawLines (l ++ '\n' :: rest) = l :: rawLines rest := by
  induction l with
  | nil => simp [rawLines]
  | cons c cs ih =>
    have hc : ¬ c = '\n' := fun h => hl (by simp [h])
    have hcs : '\n' ∉ cs := fun h => hl (List.mem_cons_of_mem _ h)
    show rawLines (c :: (cs ++ '\n' :: rest)) = _
    simp only [rawLines, hc, if_false, ih hcs]

theorem rawLines_lines (lines : List Str) (h : ∀ l ∈ lines, '\n' ∉ l) :
    rawLines (lines.flatMap (fun l => l ++ ['\n'])) = lines := by
  induction lines with
  | nil => rfl
  | cons l ls ih =>
    simp only [List.flatMap_cons, List.append_assoc, List.singleton_append]
    rw [rawLines_append_newline l _ (h l (List.mem_cons_self _ _)),
      ih (fun x hx => h x (List.mem_cons_of_mem _ hx))]

/-- The record lines that `emitProfiles` writes. -/
theorem emitProfiles_lines (p : Profile) (ps : List Profile) :
    emitProfiles (p :: ps) =
      (modePrefix ++ p.Mode) ++ '\n' ::
        ((p :: ps).flatMap (fun q => q.Blocks.map (recordText q.FileName))).flatMap
          (fun l => l ++ ['\n']) := by
  simp only [emitProfiles, List.flatMap_assoc, List.flatMap_map, emitBlock]
  rfl

/-! ## The profiles of an accepted input -/

theorem FindStringSubmatch_file (line : Str) (m : Submatch)
    (h : FindStringSubmatch line = some m) : m.file ≠ [] ∧ '\n' ∉ m.file := by
  have hm : m ∈ lineReMatches line := List.mem_of_mem_head? h
  simp only [lineReMatches, List.mem_flatMap, List.mem_map] at hm
  obtain ⟨m1, hm1, _, _, _, _, _, _, _, _, _, _, _, _, _, _, _, _, _, _, _, _, _, _, _, _,
    _, _, rfl⟩ := hm
  obtain ⟨h1, h2, _⟩ := dotPlus_mem line m1 hm1
  exact ⟨h1, h2⟩

theorem records_file (bs : Str) : ∀ r ∈ records bs, r.1 ≠ [] ∧ '\n' ∉ r.1 := by
  intro r hr
  simp only [records, List.mem_filterMap] at hr
  obtain ⟨line, _, hline⟩ := hr
  simp only [parseRecord] at hline
  split at hline
  · cases hline
  · rename_i m hm
    split at hline
    · cases hline
    · simp only [Option.some.injEq] at hline
      subst hline
      exact FindStringSubmatch_file line m hm

theorem mergeLoop_ne_nil (mode : Str) (rest : List ProfileBlock) :
    ∀ (last : ProfileBlock) (out : List ProfileBlock), mergeLoop mode last rest = .ok out →
      out ≠ [] := by
  induction rest with
  | nil =>
    intro last out h
    simp only [mergeLoop, Except.ok.injEq] at h
    subst h
    exact List.cons_ne_nil _ _
  | cons b rest ih =>
    intro last out h
    simp only [mergeLoop] at h
    split at h
    · split at h
      · cases h
      · exact ih _ out h
    · split at h
      · cases h
      · simp only [Except.ok.injEq] at h
        subst h
        exact List.cons_ne_nil _ _

theorem lor_range (a b : Int) (ha : 0 ≤ a ∧ a ≤ maxInt) (hb : 0 ≤ b ∧ b ≤ maxInt) :
    0 ≤ Int.lor a b ∧ Int.lor a b ≤ maxInt := by
  obtain ⟨m, rfl⟩ := Int.eq_ofNat_of_zero_le ha.1
  obtain ⟨n, rfl⟩ := Int.eq_ofNat_of_zero_le hb.1
  have hm : m < 2 ^ 63 := by
    have := ha.2
    simp only [maxInt] at this
    omega
  have hn : n < 2 ^ 63 := by
    have := hb.2
    simp only [maxInt] at this
    omega
  have hlt : m ||| n < 2 ^ 63 := Nat.or_lt_two_pow hm hn
  show 0 ≤ Int.lor (Int.ofNat m) (Int.ofNat n) ∧ Int.lor (Int.ofNat m) (Int.ofNat n) ≤ maxInt
  rw [lor_ofNat]
  refine ⟨Int.ofNat_nonneg _, ?_⟩
  simp only [maxInt, Int.ofNat_eq_coe]
  omega

theorem wrapInt_le (x : Int) : wrapInt x ≤ maxInt := by
  unfold wrapInt maxInt
  omega

/-- No count of the merge loop exceeds the largest `int`. -/
theorem mergeLoop_count_le (mode : Str) (rest : List ProfileBlock) :
    ∀ (last : ProfileBlock) (out : List ProfileBlock), mergeLoop mode last rest = .ok out →
      (∀ b ∈ rest, 0 ≤ b.Count ∧ b.Count ≤ maxInt) → last.Count ≤ maxInt →
      (mode = setMode → 0 ≤ last.Count) → ∀ q ∈ out, q.Count ≤ maxInt := by
  induction rest with
  | nil =>
    intro last out h _ hl _ q hq
    simp only [mergeLoop, Except.ok.injEq] at h
    subst h
    simp only [List.mem_singleton] at hq
    subst hq
    exact hl
  | cons b rest ih =>
    intro last out h hrest hl hset q hq
    have hb := hrest b (List.mem_cons_self _ _)
    have hrest' : ∀ x ∈ rest, 0 ≤ x.Count ∧ x.Count ≤ maxInt :=
      fun x hx => hrest x (List.mem_cons_of_mem _ hx)
    simp only [mergeLoop] at h
    split at h
    · split at h
      · cases h
      · refine ih _ out h hrest' ?_ ?_ q hq
        · show combineCount mode last.Count b.Count ≤ maxInt
          by_cases hm : mode = setMode
          · simp only [combineCount, hm, if_true]
            exact (lor_range _ _ ⟨hset hm, hl⟩ hb).2
          · simp only [combineCount, hm, if_false]
            exact wrapInt_le _
        · intro hm
          show 0 ≤ combineCount mode last.Count b.Count
          simp only [combineCount, hm, if_true]
          exact (lor_range _ _ ⟨hset hm, hl⟩ hb).1
    · split at h
      · cases h
      · rename_i out' hout'
        simp only [Except.ok.injEq] at h
        subst h
        rcases List.mem_cons.mp hq with hq | hq
        · subst hq; exact hl
        · exact ih _ out' hout' hrest' hb.2 (fun _ => hb.1) q hq

theorem mem_of_mem_dropCR (l : Str) : ∀ c ∈ dropCR l, c ∈ l := by
  induction l with
  | nil => intro c hc; simp [dropCR] at hc
  | cons x xs ih =>
    intro c hc
    cases xs with
    | nil =>
      simp only [dropCR] at hc
      split at hc
      · simp at hc
      · exact hc
    | cons y ys =>
      simp only [dropCR, List.mem_cons] at hc
      rcases hc with hc | hc
      · simp [hc]
      · exact List.mem_cons_of_mem _ (ih c hc)

/-- The shape of the profiles of an accepted input with at least one profile. -/
theorem ParseProfiles_ok_shape (srt : List ProfileBlock → List ProfileBlock)
    (hsrt : SortsByStart srt) (bs : Str) (ps : List Profile)
    (hok : ParseProfiles srt bs = .ok ps) (hne : ps ≠ []) :
    ∃ mode, mode ≠ [] ∧ '\n' ∉ mode ∧
      ∀ p ∈ ps, p.Mode = mode ∧ p.FileName ≠ [] ∧ '\n' ∉ p.FileName ∧ p.Blocks ≠ [] ∧
        ∀ b ∈ p.Blocks,
          (0 ≤ b.StartLine ∧ b.StartLine ≤ maxInt) ∧ (0 ≤ b.StartCol ∧ b.StartCol ≤ maxInt) ∧
          (0 ≤ b.EndLine ∧ b.EndLine ≤ maxInt) ∧ (0 ≤ b.EndCol ∧ b.EndCol ≤ maxInt) ∧
          (0 ≤ b.NumStmt ∧ b.NumStmt ≤ maxInt) ∧ b.Count ≤ maxInt := by
  cases hr : rawLines bs with
  | nil =>
    rw [ParseProfiles_nil srt bs hr] at hok
    simp only [Except.ok.injEq] at hok
    exact absurd hok.symm hne
  | cons raw rest =>
    obtain ⟨mode, hmode, hraw, _, hnames, hp⟩ :=
      ParseProfiles_ok_profiles srt bs raw rest hr ps hok
    refine ⟨mode, hmode, ?_, ?_⟩
    · intro hin
      have h1 : '\n' ∈ dropCR raw := by
        rw [hraw]
        exact List.mem_append_right _ hin
      exact rawLines_no_newline bs raw (by rw [hr]; exact List.mem_cons_self _ _)
        (mem_of_mem_dropCR raw _ h1)
    · intro p hpm
      have hfn : p.FileName ∈ (records bs).map Prod.fst :=
        (hnames _).mp (List.mem_map_of_mem _ hpm)
      obtain ⟨r, hr1, hr2⟩ := List.mem_map.mp hfn
      have hfile := records_file bs r hr1
      rw [hr2] at hfile
      have hms := (hp p hpm).2
      have hin : ∀ b ∈ srt (blocksOfFile p.FileName (records bs)), b.inRange := by
        intro b hb
        have hb' := (hsrt.perm _).subset hb
        simp only [blocksOfFile, List.mem_map, List.mem_filter] at hb'
        obtain ⟨r', ⟨hr', _⟩, rfl⟩ := hb'
        exact records_inRange bs r' hr'
      have hne' : srt (blocksOfFile p.FileName (records bs)) ≠ [] := by
        intro h0
        have hmem : r.2 ∈ blocksOfFile p.FileName (records bs) := by
          simp only [blocksOfFile, List.mem_map, List.mem_filter, decide_eq_true_eq]
          exact ⟨r, ⟨hr1, hr2⟩, rfl⟩
        have := (hsrt.perm _).symm.subset hmem
        rw [h0] at this
        simp at this
      have hsub := mergeSamples_sublist mode _ _ hms
      cases hs : srt (blocksOfFile p.FileName (records bs)) with
      | nil => exact absurd hs hne'
      | cons b0 bl =>
        rw [hs] at hms hin hsub
        simp only [mergeSamples] at hms
        refine ⟨(hp p hpm).1, hfile.1, hfile.2, mergeLoop_ne_nil mode bl b0 _ hms, ?_⟩
        intro b hb
        have hk : blockKey b ∈ (b0 :: bl).map blockKey :=
          hsub.subset (List.mem_map_of_mem _ hb)
        obtain ⟨b', hb', hkey⟩ := List.mem_map.mp hk
        have hr' := hin b' hb'
        simp only [blockKey, Prod.mk.injEq] at hkey
        obtain ⟨e1, e2, e3, e4, e5⟩ := hkey
        obtain ⟨r1, r2, r3, r4, r5, _⟩ := hr'
        rw [e1] at r1
        rw [e2] at r2
        rw [e3] at r3
        rw [e4] at r4
        rw [e5] at r5
        refine ⟨r1, r2, r3, r4, r5, ?_⟩
        exact mergeLoop_count_le mode bl b0 _ hms
          (fun x hx => (hin x (List.mem_cons_of_mem _ hx)).2.2.2.2.2)
          (hin b0 (List.mem_cons_self _ _)).2.2.2.2.2.2
          (fun _ => (hin b0 (List.mem_cons_self _ _)).2.2.2.2.2.1) b hb

/-! ## The round trip -/

theorem addBlock_new (fn mode : Str) (b : ProfileBlock) (files : List Profile)
    (h : fn ∉ files.map (fun p => p.FileName)) :
    addBlock fn mode b files = files ++ [{ FileName := fn, Mode := mode, Blocks := [b] }] := by
  induction files with
  | nil => rfl
  | cons p ps ih =>
    simp only [List.map_cons, List.mem_cons, not_or] at h
    have hp : ¬ p.FileName = fn := fun e => h.1 e.symm
    simp only [addBlock, hp, if_false, ih h.2, List.cons_append]

theorem addBlock_last (fn mode m : Str) (b : ProfileBlock) (acc : List ProfileBlock)
    (files : List Profile) (h : fn ∉ files.map (fun p => p.FileName)) :
    addBlock fn mode b (files ++ [{ FileName := fn, Mode := m, Blocks := acc }]) =
      files ++ [{ FileName := fn, Mode := m, Blocks := acc ++ [b] }] := by
  induction files with
  | nil => simp [addBlock]
  | cons p ps ih =>
    simp only [List.map_cons, List.mem_cons, not_or] at h
    have hp : ¬ p.FileName = fn := fun e => h.1 e.symm
    show addBlock fn mode b (p :: (ps ++ [{ FileName := fn, Mode := m, Blocks := acc }])) = _
    simp only [addBlock, hp, if_false, ih h.2, List.cons_append]

theorem buildFiles_group (fn mode m : Str) (files : List Profile)
    (h : fn ∉ files.map (fun p => p.FileName)) (bl : List ProfileBlock) :
    ∀ acc : List ProfileBlock,
      buildFiles mode (bl.map (fun b => (fn, b)))
          (files ++ [{ FileName := fn, Mode := m, Blocks := acc }]) =
        files ++ [{ FileName := fn, Mode := m, Blocks := acc ++ bl }] := by
  induction bl with
  | nil => intro acc; simp [buildFiles]
  | cons b bl ih =>
    intro acc
    simp only [List.map_cons, buildFiles, List.foldl_cons]
    rw [addBlock_last fn mode m b acc files h]
    have := ih (acc ++ [b])
    simp only [buildFiles] at this
    rw [this]
    simp

theorem buildFiles_profiles (mode : Str) (ps : List Profile) :
    ∀ files : List Profile, ((files ++ ps).map (fun p => p.FileName)).Nodup →
      (∀ p ∈ ps, p.Mode = mode ∧ p.Blocks ≠ []) →
      buildFiles mode (ps.flatMap (fun q => q.Blocks.map (fun b => (q.FileName, b)))) files =
        files ++ ps := by
  induction ps with
  | nil => intro files _ _; simp [buildFiles]
  | cons p ps ih =>
    intro files hnd hps
    obtain ⟨hm, hb⟩ := hps p (List.mem_cons_self _ _)
    rw [List.flatMap_cons, buildFiles_append]
    have hfn : p.FileName ∉ files.map (fun p => p.FileName) := by
      intro hin
      rw [List.map_append, List.nodup_append] at hnd
      exact hnd.2.2 hin (by simp)
    have hgroup : buildFiles mode (p.Blocks.map (fun b => (p.FileName, b))) files =
        files ++ [p] := by
      cases hbl : p.Blocks with
      | nil => exact absurd hbl hb
      | cons b bl =>
        simp only [List.map_cons, buildFiles, List.foldl_cons]
        rw [addBlock_new _ _ _ _ hfn]
        have := buildFiles_group p.FileName mode mode files hfn bl [b]
        simp only [buildFiles] at this
        rw [this]
        congr 2
        cases p
        simp only at hm hbl
        subst hm hbl
        rfl
    rw [hgroup]
    have hnd' : (((files ++ [p]) ++ ps).map (fun p => p.FileName)).Nodup := by
      simpa using hnd
    rw [ih (files ++ [p]) hnd' (fun q hq => hps q (List.mem_cons_of_mem _ hq))]
    simp

theorem mergeLoop_id (mode : Str) (rest : List ProfileBlock) :
    ∀ last : ProfileBlock, (last :: rest).Pairwise (fun a b => sameSpan b a = false) →
      mergeLoop mode last rest = .ok (last :: rest) := by
  induction rest with
  | nil => intro last _; rfl
  | cons b rest ih =>
    intro last h
    have h1 := (List.pairwise_cons.mp h).1 b (List.mem_cons_self _ _)
    simp only [mergeLoop, h1, Bool.false_eq_true, if_false, ih b (List.pairwise_cons.mp h).2]

/-- Two strictly sorted lists with the same elements are equal. -/
theorem perm_sorted_unique {α : Type} (less : α → α → Bool)
    (hasymm : ∀ a b, less a b = true → less b a = false) (l1 l2 : List α)
    (hp : List.Perm l1 l2) (h1 : l1.Pairwise (fun a b => less a b = true))
    (h2 : l2.Pairwise (fun a b => less a b = true)) : l1 = l2 := by
  haveI : IsAntisymm α (fun a b => less a b = true) :=
    ⟨fun a b hab hba => by rw [hasymm a b hab] at hba; cases hba⟩
  exact List.eq_of_perm_of_sorted hp h1 h2

theorem blockLess_of_start_ne (a b : ProfileBlock) (h1 : blockLess b a = false)
    (h2 : (a.StartLine, a.StartCol) ≠ (b.StartLine, b.StartCol)) : blockLess a b = true := by
  simp only [blockLess, Bool.or_eq_false_iff, Bool.and_eq_false_iff,
    decide_eq_false_iff_not] at h1
  simp only [ne_eq, Prod.mk.injEq, not_and] at h2
  simp only [blockLess, Bool.or_eq_true, Bool.and_eq_true, decide_eq_true_eq]
  omega

theorem strict_of_sorted_nodup (l : List ProfileBlock)
    (hs : l.Pairwise (fun a b => blockLess b a = false))
    (hnd : (l.map (fun b => (b.StartLine, b.StartCol))).Nodup) :
    l.Pairwise (fun a b => blockLess a b = true) := by
  rw [List.Nodup, List.pairwise_map] at hnd
  exact (hs.and hnd).imp (fun {a b} h => blockLess_of_start_ne a b h.1 h.2)

/-- Sorting and merging once more leaves blocks with pairwise different start
positions, in the order of the start positions, as they are. -/
theorem mergeSamples_sorted_id (srt : List ProfileBlock → List ProfileBlock)
    (hsrt : SortsByStart srt) (mode : Str) (l : List ProfileBlock)
    (hs : l.Pairwise startLE)
    (hnd : (l.map (fun b => (b.StartLine, b.StartCol))).Nodup) :
    mergeSamples mode (srt l) = .ok l := by
  have hs' : l.Pairwise (fun a b => blockLess b a = false) :=
    hs.imp (fun {a b} h => (startLE_iff_blockLess a b).mpr h)
  have hstrict := strict_of_sorted_nodup l hs' hnd
  have hnd2 : ((srt l).map (fun b => (b.StartLine, b.StartCol))).Nodup :=
    ((hsrt.perm l).map _).nodup_iff.mpr hnd
  have hstrict2 := strict_of_sorted_nodup (srt l) (hsrt.sorted l) hnd2
  have heq : srt l = l :=
    perm_sorted_unique blockLess blockLess_asymm _ _ (hsrt.perm l) hstrict2 hstrict
  rw [heq]
  cases l with
  | nil => rfl
  | cons b bl =>
    simp only [mergeSamples]
    apply mergeLoop_id
    rw [List.Nodup, List.pairwise_map] at hnd
    refine hnd.imp ?_
    intro a b hab
    cases hsp : sameSpan b a with
    | false => rfl
    | true =>
      rw [sameSpan_iff] at hsp
      exact absurd (by rw [hsp.1, hsp.2.1]) hab

theorem sortByFileName_id (ps : List Profile)
    (h : (ps.map (fun p => p.FileName)).Pairwise (fun a b => strLess a b = true)) :
    sortByFileName ps = ps := by
  rw [List.pairwise_map] at h
  have hnd : ps.Pairwise (fun a b => a.FileName ≠ b.FileName) := by
    refine h.imp ?_
    intro a b hab he
    rw [he, strLess_irrefl] at hab
    cases hab
  have hnd2 : (sortByFileName ps).Pairwise (fun a b => a.FileName ≠ b.FileName) := by
    have h1 : (ps.map (fun p => p.FileName)).Nodup := by
      rw [List.Nodup, List.pairwise_map]; exact hnd
    have h2 := ((sortByFileName_perm ps).map (fun p => p.FileName)).nodup_iff.mpr h1
    rw [List.Nodup, List.pairwise_map] at h2
    exact h2
  have hs2 : (sortByFileName ps).Pairwise (fun a b => fileNameLess a b = true) := by
    refine ((sortByFileName_sorted ps).and hnd2).imp ?_
    rintro a b ⟨h1, h2⟩
    cases hl : strLess a.FileName b.FileName with
    | true => exact hl
    | false => exact absurd (strLess_total _ _ hl h1) h2
  exact perm_sorted_unique fileNameLess (fun a b => strLess_asymm _ _) _ _
    (sortByFileName_perm ps) hs2 h

theorem map_flatMap_blocks {β γ : Type} (ps : List Profile) (f : Profile → ProfileBlock → β)
    (g : β → Option γ) (h : Profile → ProfileBlock → γ)
    (hfg : ∀ q ∈ ps, ∀ b ∈ q.Blocks, g (f q b) = some (h q b)) :
    (ps.flatMap (fun q => q.Blocks.map (f q))).map g =
      (ps.flatMap (fun q => q.Blocks.map (h q))).map some := by
  induction ps with
  | nil => rfl
  | cons p ps ih =>
    simp only [List.flatMap_cons, List.map_append, List.map_map]
    rw [ih (fun q hq => hfg q (List.mem_cons_of_mem _ hq))]
    congr 1
    apply List.map_congr_left
    intro b hb
    exact hfg p (List.mem_cons_self _ _) b hb

/-- C1 (amended): for an accepted input with at least one record, writing the parsed
profiles and parsing the written text again gives back the same profile list, when the
mode does not end with a carriage return, no count of the result is negative, no two
blocks of a profile of the result start at the same position, and every written line
is shorter than the token limit of the scanner. -/
theorem ParseProfiles_roundtrip (srt : List ProfileBlock → List ProfileBlock)
    (hsrt : SortsByStart srt) (bs : Str) (ps : List Profile)
    (hok : ParseProfiles srt bs = .ok ps) (hrec : records bs ≠ [])
    (hcr : ∀ p ∈ ps, p.Mode.getLast? ≠ some '\r')
    (hcount : ∀ p ∈ ps, ∀ b ∈ p.Blocks, 0 ≤ b.Count)
    (hstart : ∀ p ∈ ps, (p.Blocks.map (fun b => (b.StartLine, b.StartCol))).Nodup)
    (hlen : ∀ l ∈ rawLines (emitProfiles ps), byteLen l < MaxScanTokenSize) :
    ParseProfiles srt (emitProfiles ps) = .ok ps := by
  -- the input has a first line, and the result has a profile
  cases hr : rawLines bs with
  | nil => simp [records, recordLines, hr] at hrec
  | cons raw rest =>
    obtain ⟨mode0, _, _, _, hnames, hp⟩ := ParseProfiles_ok_profiles srt bs raw rest hr ps hok
    have hne : ps ≠ [] := by
      intro hnil
      cases hrs : records bs with
      | nil => exact hrec hrs
      | cons r rs =>
        have : r.1 ∈ ps.map (fun p => p.FileName) :=
          (hnames r.1).mpr (by rw [hrs]; simp)
        rw [hnil] at this
        simp at this
    obtain ⟨mode, hmode, hmnl, hshape⟩ := ParseProfiles_ok_shape srt hsrt bs ps hok hne
    have hsorted := ParseProfiles_ok_sorted srt bs ps hok
    cases hps : ps with
    | nil => exact absurd hps hne
    | cons p0 ps' =>
      rw [← hps]
      have hp0 : p0 ∈ ps := by rw [hps]; exact List.mem_cons_self _ _
      have hrange : ∀ q ∈ ps, ∀ b ∈ q.Blocks, b.inRange := by
        intro q hq b hb
        obtain ⟨_, _, _, _, hf⟩ := hshape q hq
        obtain ⟨r1, r2, r3, r4, r5, r6⟩ := hf b hb
        exact ⟨r1, r2, r3, r4, r5, hcount q hq b hb, r6⟩
      -- the lines of the written text
      have hlinesnl : ∀ l ∈ ps.flatMap (fun q => q.Blocks.map (recordText q.FileName)),
          '\n' ∉ l := by
        intro l hl
        simp only [List.mem_flatMap, List.mem_map] at hl
        obtain ⟨q, hq, b, hb, rfl⟩ := hl
        exact recordText_no_newline _ _ (hshape q hq).2.2.1 (hrange q hq b hb)
      have hmodenl : '\n' ∉ modePrefix ++ p0.Mode := by
        rw [(hshape p0 hp0).1]
        intro hin
        rcases List.mem_append.mp hin with h | h
        · exact absurd h (by decide)
        · exact hmnl h
      have hraw : rawLines (emitProfiles ps) =
          (modePrefix ++ p0.Mode) ::
            ps.flatMap (fun q => q.Blocks.map (recordText q.FileName)) := by
        rw [hps, emitProfiles_lines, rawLines_append_newline _ _ hmodenl, ← hps,
          rawLines_lines _ hlinesnl]
      rw [hraw] at hlen
      have hm0 : p0.Mode = mode := (hshape p0 hp0).1
      -- the scanner hands the lines over as they are
      have hdrop : dropCR (modePrefix ++ p0.Mode) = modePrefix ++ mode := by
        rw [← hm0]
        apply dropCR_of_getLast
        have hne0 : p0.Mode ≠ [] := by rw [hm0]; exact hmode
        obtain ⟨c, cs, hc⟩ := List.exists_cons_of_ne_nil hne0
        rw [hc, getLast?_append_cons, ← hc]
        exact hcr p0 hp0
      have hrecs : (ps.flatMap (fun q => q.Blocks.map (recordText q.FileName))).map
          (fun l => parseRecord (dropCR l)) =
          (ps.flatMap (fun q => q.Blocks.map (fun b => (q.FileName, b)))).map some := by
        apply map_flatMap_blocks ps (fun q b => recordText q.FileName b)
          (fun l => parseRecord (dropCR l)) (fun q b => (q.FileName, b))
        intro q hq b hb
        show parseRecord (dropCR (recordText q.FileName b)) = some (q.FileName, b)
        rw [dropCR_of_getLast _ (recordText_getLast _ _ (hrange q hq b hb))]
        exact parseRecord_recordText _ _ (hshape q hq).2.1 (hshape q hq).2.2.1
          (hrange q hq b hb)
      -- the map of the files is the list of the profiles
      have hnd : (ps.map (fun p => p.FileName)).Nodup := by
        rw [List.Nodup]
        refine hsorted.imp ?_
        intro a b hab he
        rw [he, strLess_irrefl] at hab
        cases hab
      have hbuild : buildFiles mode
          (ps.flatMap (fun q => q.Blocks.map (fun b => (q.FileName, b)))) [] = ps := by
        have := buildFiles_profiles mode ps [] (by simpa using hnd)
          (fun q hq => ⟨(hshape q hq).1, (hshape q hq).2.2.2.1⟩)
        simpa using this
      -- sorting and merging change nothing
      have hmerge : mergeAll srt mode
          (buildFiles mode (ps.flatMap (fun q => q.Blocks.map (fun b => (q.FileName, b)))) [])
          = .ok ps := by
        rw [hbuild]
        apply mergeAll_of_forall₂
        rw [List.forall₂_same]
        intro q hq
        refine ⟨rfl, rfl, ?_⟩
        have hq0 := (hp q hq)
        have hmq : mode0 = mode := by rw [← hq0.1, (hshape q hq).1]
        exact mergeSamples_sorted_id srt hsrt mode q.Blocks
          (mergeSamples_sorted srt hsrt mode0 _ _ hq0.2) (hstart q hq)
      have hfinal := ParseProfiles_of_records srt (emitProfiles ps) _ _ hraw mode _ ps hmode
        hdrop (hlen _ (List.mem_cons_self _ _))
        (fun l hl => hlen l (List.mem_cons_of_mem _ hl)) hrecs hmerge
      rw [hfinal, sortByFileName_id ps hsorted]

/-- C1 as stated fails. A mode line `mode: set` followed by two carriage returns is
accepted with the mode `set` and one carriage return, and the written text is read
back with the mode `set`. Two records of one block with the counts 2^63 - 1 and 1 are
accepted in mode `count` with the count -2^63, and the written text is refused. -/
theorem ParseProfiles_roundtrip_counterexample :
    (ParseProfiles insertionSortBlocks "mode: set\r\r\nf:1.1,1.2 1 1\n".toList =
        .ok [⟨"f".toList, "set\r".toList, [⟨1, 1, 1, 2, 1, 1⟩]⟩] ∧
      ParseProfiles insertionSortBlocks
          (emitProfiles [⟨"f".toList, "set\r".toList, [⟨1, 1, 1, 2, 1, 1⟩]⟩]) =
        .ok [⟨"f".toList, "set".toList, [⟨1, 1, 1, 2, 1, 1⟩]⟩]) ∧
    (ParseProfiles insertionSortBlocks
          "mode: count\nf:1.1,1.2 1 9223372036854775807\nf:1.1,1.2 1 1\n".toList =
        .ok [⟨"f".toList, "count".toList, [⟨1, 1, 1, 2, 1, -9223372036854775808⟩]⟩] ∧
      ParseProfiles insertionSortBlocks
          (emitProfiles
            [⟨"f".toList, "count".toList, [⟨1, 1, 1, 2, 1, -9223372036854775808⟩]⟩]) =
        .error .badFormat) := by
  decide

/-- Instance of C1: two files, one block given twice, lines out of order. -/
theorem ParseProfiles_roundtrip_witness :
    ParseProfiles insertionSortBlocks
        "mode: count\nb.go:3.1,4.2 1 1\na.go:1.1,3.3 1 1\nb.go:1.1,2.2 1 1\nb.go:1.1,2.2 1 5\n".toList =
      .ok [⟨"a.go".toList, "count".toList, [⟨1, 1, 3, 3, 1, 1⟩]⟩,
        ⟨"b.go".toList, "count".toList, [⟨1, 1, 2, 2, 1, 6⟩, ⟨3, 1, 4, 2, 1, 1⟩]⟩] ∧
    ParseProfiles insertionSortBlocks
        (emitProfiles [⟨"a.go".toList, "count".toList, [⟨1, 1, 3, 3, 1, 1⟩]⟩,
          ⟨"b.go".toList, "count".toList, [⟨1, 1, 2, 2, 1, 6⟩, ⟨3, 1, 4, 2, 1, 1⟩]⟩]) =
      .ok [⟨"a.go".toList, "count".toList, [⟨1, 1, 3, 3, 1, 1⟩]⟩,
        ⟨"b.go".toList, "count".toList, [⟨1, 1, 2, 2, 1, 6⟩, ⟨3, 1, 4, 2, 1, 1⟩]⟩] :=
  ⟨by decide,
   ParseProfiles_roundtrip insertionSortBlocks insertionSortBlocks_sorts
      "mode: count\nb.go:3.1,4.2 1 1\na.go:1.1,3.3 1 1\nb.go:1.1,2.2 1 1\nb.go:1.1,2.2 1 5\n".toList
      _ (by decide) (by decide) (by decide) (by decide) (by decide) (by decide)⟩

/-! ## The two filters together -/

theorem skipProfile_eq_filter (re : Regexp) (skipFile : List Str) (profiles : List Profile)
    (h : ∀ pat ∈ skipFile, re.compiles pat = true) :
    skipProfile re skipFile profiles =
      .ok (profiles.filter (fun p => !skipFile.any (fun pat => re.isMatch pat p.FileName))) := by
  induction profiles with
  | nil => rfl
  | cons p rest ih =>
    cases hm : skipFile.any (fun pat => re.isMatch pat p.FileName) <;>
      simp [skipProfile, matchAny_of_compiles re p.FileName skipFile h, ih, hm]

/-- C11: when every pattern of `R` compiles, `filterProfile` returns the profiles whose
file name some pattern matches and `skipProfile` those whose file name no pattern
matches, both in the order of the input; the two results are sublists of the input,
together they hold every profile as often as the input does, and a profile of the
input is in exactly one of them. -/
theorem filter_skip_partition (re : Regexp) (R : List Str) (ps : List Profile)
    (hvalid : ∀ pat ∈ R, re.compiles pat = true) :
    filterProfile re R ps =
      .ok (ps.filter (fun p => R.any (fun pat => re.isMatch pat p.FileName))) ∧
    skipProfile re R ps =
      .ok (ps.filter (fun p => !R.any (fun pat => re.isMatch pat p.FileName))) ∧
    List.Sublist (ps.filter (fun p => R.any (fun pat => re.isMatch pat p.FileName))) ps ∧
    List.Sublist (ps.filter (fun p => !R.any (fun pat => re.isMatch pat p.FileName))) ps ∧
    List.Perm
      (ps.filter (fun p => R.any (fun pat => re.isMatch pat p.FileName)) ++
        ps.filter (fun p => !R.any (fun pat => re.isMatch pat p.FileName))) ps ∧
    (∀ p ∈ ps,
      (p ∈ ps.filter (fun p => !R.any (fun pat => re.isMatch pat p.FileName)) ↔
        ∀ pat ∈ R, re.isMatch pat p.FileName = false) ∧
      (p ∈ ps.filter (fun p => R.any (fun pat => re.isMatch pat p.FileName)) ↔
        ¬ p ∈ ps.filter (fun p => !R.any (fun pat => re.isMatch pat p.FileName)))) := by
  refine ⟨filterProfile_eq_filter re R ps hvalid, skipProfile_eq_filter re R ps hvalid,
    List.filter_sublist _, List.filter_sublist _, List.filter_append_perm _ _, ?_⟩
  intro p hp
  constructor
  · simp [List.mem_filter, hp]
  · simp [List.mem_filter, hp]

/-- Instance of C11: the pattern `^foo/` splits three profiles into two and one. -/
theorem filter_skip_partition_witness :
    filterProfile prefixRegexp [fooPattern]
        [⟨"foo/a.go".toList, setMode, []⟩, ⟨"bar/foo/b.go".toList, setMode, []⟩,
          ⟨"foo/c.go".toList, setMode, []⟩] =
      .ok [⟨"foo/a.go".toList, setMode, []⟩, ⟨"foo/c.go".toList, setMode, []⟩] ∧
    skipProfile prefixRegexp [fooPattern]
        [⟨"foo/a.go".toList, setMode, []⟩, ⟨"bar/foo/b.go".toList, setMode, []⟩,
          ⟨"foo/c.go".toList, setMode, []⟩] =
      .ok [⟨"bar/foo/b.go".toList, setMode, []⟩] :=
  ⟨(filter_skip_partition prefixRegexp [fooPattern] _ (by decide)).1.trans (by decide),
   (filter_skip_partition prefixRegexp [fooPattern] _ (by decide)).2.1.trans (by decide)⟩

theorem matchAny_error_iff (re : Regexp) (name : Str) (pats : List Str) :
    (∃ bad, matchAny re name pats = .error bad) ↔ MeetsInvalid re name pats := by
  induction pats with
  | nil =>
    constructor
    · rintro ⟨bad, h⟩
      simp [matchAny] at h
    · rintro ⟨before, bad, after, h, _⟩
      simp at h
  | cons pat rest ih =>
    by_cases hc : re.compiles pat = true
    · cases hm : re.isMatch pat name with
      | true =>
        constructor
        · rintro ⟨bad, h⟩
          simp [matchAny, MatchString, hc, hm] at h
        · rintro ⟨before, bad, after, h, hbad, hbefore⟩
          cases before with
          | nil =>
            simp only [List.nil_append, List.cons.injEq] at h
            rw [h.1, hbad] at hc
            cases hc
          | cons q qs =>
            simp only [List.cons_append, List.cons.injEq] at h
            have := (hbefore q (List.mem_cons_self _ _)).2
            rw [← h.1, hm] at this
            cases this
      | false =>
        have hstep : matchAny re name (pat :: rest) = matchAny re name rest := by
          simp [matchAny, MatchString, hc, hm]
        rw [hstep, ih]
        constructor
        · rintro ⟨before, bad, after, h, hbad, hbefore⟩
          refine ⟨pat :: before, bad, after, by simp [h], hbad, ?_⟩
          intro q hq
          rcases List.mem_cons.mp hq with hq | hq
          · subst hq; exact ⟨hc, hm⟩
          · exact hbefore q hq
        · rintro ⟨before, bad, after, h, hbad, hbefore⟩
          cases before with
          | nil =>
            simp only [List.nil_append, List.cons.injEq] at h
            rw [h.1, hbad] at hc
            cases hc
          | cons q qs =>
            simp only [List.cons_append, List.cons.injEq] at h
            exact ⟨qs, bad, after, h.2, hbad,
              fun x hx => hbefore x (List.mem_cons_of_mem _ hx)⟩
    · have hc' : re.compiles pat = false := by simpa using hc
      constructor
      · intro _
        exact ⟨[], pat, rest, rfl, hc', by simp⟩
      · intro _
        exact ⟨pat, by simp [matchAny, MatchString, hc']⟩

theorem filterProfile_error_iff (re : Regexp) (pats : List Str) (ps : List Profile) :
    (∃ e, filterProfile re pats ps = .error e) ↔
      ∃ p ∈ ps, MeetsInvalid re p.FileName pats := by
  induction ps with
  | nil => simp [filterProfile]
  | cons p rest ih =>
    cases hm : matchAny re p.FileName pats with
    | error bad =>
      constructor
      · intro _
        exact ⟨p, List.mem_cons_self _ _, (matchAny_error_iff re _ pats).mp ⟨bad, hm⟩⟩
      · intro _
        exact ⟨(bad, p.FileName), by simp [filterProfile, hm]⟩
    | ok matched =>
      have hno : ¬ MeetsInvalid re p.FileName pats := by
        intro h
        obtain ⟨bad, hbad⟩ := (matchAny_error_iff re _ pats).mpr h
        rw [hm] at hbad
        cases hbad
      constructor
      · rintro ⟨e, he⟩
        simp only [filterProfile, hm] at he
        split at he
        · rename_i e' he'
          obtain ⟨q, hq, hq'⟩ := ih.mp ⟨e', he'⟩
          exact ⟨q, List.mem_cons_of_mem _ hq, hq'⟩
        · cases he
      · rintro ⟨q, hq, hq'⟩
        rcases List.mem_cons.mp hq with hq | hq
        · subst hq; exact absurd hq' hno
        · obtain ⟨e, he⟩ := ih.mpr ⟨q, hq, hq'⟩
          exact ⟨e, by simp [filterProfile, hm, he]⟩

theorem skipProfile_error_iff (re : Regexp) (pats : List Str) (ps : List Profile) :
    (∃ e, skipProfile re pats ps = .error e) ↔
      ∃ p ∈ ps, MeetsInvalid re p.FileName pats := by
  induction ps with
  | nil => simp [skipProfile]
  | cons p rest ih =>
    cases hm : matchAny re p.FileName pats with
    | error bad =>
      constructor
      · intro _
        exact ⟨p, List.mem_cons_self _ _, (matchAny_error_iff re _ pats).mp ⟨bad, hm⟩⟩
      · intro _
        exact ⟨(bad, p.FileName), by simp [skipProfile, hm]⟩
    | ok matched =>
      have hno : ¬ MeetsInvalid re p.FileName pats := by
        intro h
        obtain ⟨bad, hbad⟩ := (matchAny_error_iff re _ pats).mpr h
        rw [hm] at hbad
        cases hbad
      constructor
      · rintro ⟨e, he⟩
        simp only [skipProfile, hm] at he
        split at he
        · rename_i e' he'
          obtain ⟨q, hq, hq'⟩ := ih.mp ⟨e', he'⟩
          exact ⟨q, List.mem_cons_of_mem _ hq, hq'⟩
        · cases he
      · rintro ⟨q, hq, hq'⟩
        rcases List.mem_cons.mp hq with hq | hq
        · subst hq; exact absurd hq' hno
        · obtain ⟨e, he⟩ := ih.mpr ⟨q, hq, hq'⟩
          exact ⟨e, by simp [skipProfile, hm, he]⟩

/-- C12 (amended): `filterProfile` returns an error if and only if, for some profile
of the list, a pattern that does not compile stands in the pattern list before every
pattern that matches the file name of the profile (the patterns before it compile and
do not match); `skipProfile` returns an error under the same condition. -/
theorem filter_skip_error_iff (re : Regexp) (pats : List Str) (ps : List Profile) :
    ((∃ e, filterProfile re pats ps = .error e) ↔
      ∃ p ∈ ps, MeetsInvalid re p.FileName pats) ∧
    ((∃ e, skipProfile re pats ps = .error e) ↔
      ∃ p ∈ ps, MeetsInvalid re p.FileName pats) :=
  ⟨filterProfile_error_iff re pats ps, skipProfile_error_iff re pats ps⟩

/-- C12 as stated fails: with the pattern `(`, which does not compile, and no
profile, both filters return the empty list; with the patterns `^foo/` and `(` and a
profile under `foo/`, the first pattern matches and the second is never compiled. -/
theorem filter_skip_error_counterexample :
    prefixRegexp.compiles ['('] = false ∧
    filterProfile prefixRegexp [['(']] [] = .ok [] ∧
    skipProfile prefixRegexp [['(']] [] = .ok [] ∧
    filterProfile prefixRegexp [fooPattern, ['(']] [⟨"foo/a.go".toList, setMode, []⟩] =
      .ok [⟨"foo/a.go".toList, setMode, []⟩] ∧
    skipProfile prefixRegexp [fooPattern, ['(']] [⟨"foo/a.go".toList, setMode, []⟩] =
      .ok [] := by
  decide

/-- Instance of C12: with the pattern `(` first, a list of one profile makes both
filters fail. -/
theorem filter_skip_error_iff_witness :
    (∃ e, filterProfile prefixRegexp [['('], fooPattern]
      [⟨"foo/a.go".toList, setMode, []⟩] = .error e) ∧
    (∃ e, skipProfile prefixRegexp [['('], fooPattern]
      [⟨"foo/a.go".toList, setMode, []⟩] = .error e) :=
  ⟨(filter_skip_error_iff prefixRegexp [['('], fooPattern]
      [⟨"foo/a.go".toList, setMode, []⟩]).1.mpr
      ⟨_, List.mem_cons_self _ _, [], ['('], [fooPattern], rfl, by decide, by simp⟩,
   (filter_skip_error_iff prefixRegexp [['('], fooPattern]
      [⟨"foo/a.go".toList, setMode, []⟩]).2.mpr
      ⟨_, List.mem_cons_self _ _, [], ['('], [fooPattern], rfl, by decide, by simp⟩⟩

/-! ## `filterAddrs` -/

theorem lookupService_eq_none (reg : Registry) (name : Str) :
    lookupService reg name = none ↔ name ∉ reg.map Prod.fst := by
  induction reg with
  | nil => simp [lookupService]
  | cons e es ih =>
    by_cases he : e.1 = name
    · simp [lookupService, List.find?_cons, he]
    · have he' : ¬ name = e.1 := fun h => he h.symm
      simp only [lookupService, List.find?_cons, he, decide_False, List.map_cons,
        List.mem_cons, he', false_or] at ih ⊢
      exact ih

theorem lookupService_mem (reg : Registry) (name : Str) (addr : List Str)
    (h : lookupService reg name = some addr) : ∃ e ∈ reg, e.2 = addr := by
  simp only [lookupService, Option.map_eq_some'] at h
  obtain ⟨e, he, rfl⟩ := h
  exact ⟨e, List.mem_of_find?_eq_some he, rfl⟩

theorem contains_iff (arr : List Str) (str : Str) : contains arr str = true ↔ str ∈ arr := by
  induction arr with
  | nil => simp [contains]
  | cons x xs ih =>
    by_cases h : str = x
    · simp [contains, h]
    · simp [contains, h, ih]

theorem mem_addressAll (reg : Registry) (a : Str) :
    a ∈ addressAll reg ↔ ∃ e ∈ reg, a ∈ e.2 := by
  simp [addressAll, List.mem_flatMap]

theorem serviceLoop_toOption (force : Bool) (reg : Registry) (l : List Str) :
    ∀ acc : List Str, (serviceLoop force reg acc l).toOption =
      if force = false ∧ (∃ s ∈ l, s ∉ reg.map Prod.fst) then none
      else some (acc ++ (l.filterMap (fun s => lookupService reg s)).flatten) := by
  induction l with
  | nil => intro acc; simp [serviceLoop, Except.toOption]
  | cons name rest ih =>
    intro acc
    cases hl : lookupService reg name with
    | some addr =>
      have hin : name ∈ reg.map Prod.fst := by
        by_contra hnot
        rw [(lookupService_eq_none reg name).mpr hnot] at hl
        cases hl
      simp only [serviceLoop, hl, ih, List.filterMap_cons, List.flatten_cons,
        List.append_assoc, List.exists_mem_cons_iff] 
      simp only [hin, not_true_eq_false, false_or]
    | none =>
      have hnot : name ∉ reg.map Prod.fst := (lookupService_eq_none reg name).mp hl
      cases force with
      | false =>
        rw [if_pos ⟨rfl, name, List.mem_cons_self _ _, hnot⟩]
        simp [serviceLoop, hl, Except.toOption]
      | true =>
        simp [serviceLoop, hl, ih]

theorem addressLoop_toOption (force : Bool) (all : List Str) (l : List Str) :
    ∀ acc : List Str, (addressLoop force all acc l).toOption =
      if force = false ∧ (∃ a ∈ l, a ∉ all) then none
      else some (acc ++ l.filter (fun a => decide (a ∈ all))) := by
  induction l with
  | nil => intro acc; simp [addressLoop, Except.toOption]
  | cons addr rest ih =>
    intro acc
    by_cases hc : addr ∈ all
    · have hc' : contains all addr = true := (contains_iff all addr).mpr hc
      simp only [addressLoop, hc', if_true, ih, List.exists_mem_cons_iff, hc,
        not_true_eq_false, false_or, List.filter_cons, decide_True, List.append_assoc,
        List.singleton_append]
    · have hc' : contains all addr = false := by
        cases h : contains all addr with
        | false => rfl
        | true => exact absurd ((contains_iff all addr).mp h) hc
      cases force with
      | false =>
        rw [if_pos ⟨rfl, addr, List.mem_cons_self _ _, hc⟩]
        simp [addressLoop, hc', Except.toOption]
      | true =>
        simp [addressLoop, hc', ih, hc]

theorem addressLoop_registry (force : Bool) (registry : Registry) (l acc : List Str) :
    (addressLoop force (addressAll registry) acc l).toOption =
      if force = false ∧ (∃ a ∈ l, ∀ e ∈ registry, a ∉ e.2) then none
      else some (acc ++ l.filter (fun a => decide (∃ e ∈ registry, a ∈ e.2))) := by
  have hfilter : l.filter (fun a => decide (a ∈ addressAll registry)) =
      l.filter (fun a => decide (∃ e ∈ registry, a ∈ e.2)) := by
    congr 1
    funext a
    simp only [mem_addressAll]
  have hnotin : (∃ a ∈ l, a ∉ addressAll registry) ↔
      (∃ a ∈ l, ∀ e ∈ registry, a ∉ e.2) := by
    constructor
    · rintro ⟨a, ha, hn⟩
      exact ⟨a, ha, fun e he h => hn ((mem_addressAll registry a).mpr ⟨e, he, h⟩)⟩
    · rintro ⟨a, ha, hn⟩
      refine ⟨a, ha, fun h => ?_⟩
      obtain ⟨e, he, h'⟩ := (mem_addressAll registry a).mp h
      exact hn e he h'
  rw [addressLoop_toOption, hfilter]
  exact if_congr (and_congr Iff.rfl hnotin) rfl rfl

/-- C13: `filterAddrs` agrees with the reference on every input: it fails when both
lists are given; otherwise it fails exactly when `force` is false and a requested
service is no key of the registry or a requested address is registered under no
service; when it succeeds with both lists empty the result is the addresses of all
services in the order of the iteration over the map, and otherwise the address lists
of the requested registered services in the order of the request, followed by the
requested registered addresses; every returned address is a registered one. -/
theorem filterAddrs_eq_reference (services addresses : List Str) (force : Bool)
    (registry : Registry) :
    (filterAddrs services addresses force registry).toOption =
      filterAddrsReference services addresses force registry ∧
    (∀ out, filterAddrs services addresses force registry = .ok out →
      ∀ a ∈ out, ∃ e ∈ registry, a ∈ e.2) := by
  have hfirst : (filterAddrs services addresses force registry).toOption =
      filterAddrsReference services addresses force registry := by
    cases services with
    | nil =>
      cases addresses with
      | nil =>
        cases force <;> simp [filterAddrs, filterAddrsReference, serviceLoop, addressLoop,
          Except.toOption, addressAll]
      | cons a as =>
        have h2 := addressLoop_registry force registry (a :: as) []
        simp only [filterAddrs, filterAddrsReference, serviceLoop, List.length_nil,
          ne_eq, not_true_eq_false, false_and, if_false, List.length_cons,
          Nat.add_one_ne_zero, and_false, List.not_mem_nil, exists_false, and_true,
          false_or, reduceCtorEq, and_self, List.filterMap_nil, List.flatten_nil,
          List.nil_append]
        cases hloop : addressLoop force (addressAll registry) [] (a :: as) with
        | error e =>
          rw [hloop] at h2
          simp only [Except.toOption] at h2 ⊢
          exact h2
        | ok l2 =>
          rw [hloop] at h2
          simp only [Except.toOption] at h2 ⊢
          simpa using h2
    | cons s ss =>
      cases addresses with
      | cons a as =>
        simp [filterAddrs, filterAddrsReference, Except.toOption]
      | nil =>
        have h1 := serviceLoop_toOption force registry (s :: ss) []
        simp only [filterAddrs, filterAddrsReference, addressLoop, List.length_nil,
          ne_eq, not_true_eq_false, and_false, if_false, List.length_cons,
          Nat.add_one_ne_zero, false_and, List.not_mem_nil, exists_false, or_false,
          reduceCtorEq, and_self, List.filter_nil, List.append_nil, not_false_eq_true,
          and_true]
        cases hloop : serviceLoop force registry [] (s :: ss) with
        | error e =>
          rw [hloop] at h1
          simp only [Except.toOption] at h1 ⊢
          exact h1
        | ok l1 =>
          rw [hloop] at h1
          simp only [Except.toOption] at h1 ⊢
          simpa using h1
  refine ⟨hfirst, ?_⟩
  intro out hout a ha
  have hopt : filterAddrsReference services addresses force registry = some out := by
    rw [← hfirst, hout]
    rfl
  simp only [filterAddrsReference] at hopt
  split at hopt
  · cases hopt
  · split at hopt
    · cases hopt
    · split at hopt
      · simp only [Option.some.injEq] at hopt
        subst hopt
        simpa [List.mem_flatMap] using ha
      · simp only [Option.some.injEq] at hopt
        subst hopt
        rcases List.mem_append.mp ha with h | h
        · simp only [List.mem_flatten, List.mem_filterMap] at h
          obtain ⟨l, ⟨s, _, hs⟩, hal⟩ := h
          obtain ⟨e, he, rfl⟩ := lookupService_mem registry s l hs
          exact ⟨e, he, hal⟩
        · simp only [List.mem_filter, decide_eq_true_eq] at h
          exact h.2

/-- Instance of C13: one registered service is requested; the returned address is
registered. -/
theorem filterAddrs_eq_reference_witness :
    filterAddrs ["svc".toList] [] false
        [("svc".toList, ["http://10.0.0.1:8000".toList]), ("other".toList, [])] =
      .ok ["http://10.0.0.1:8000".toList] ∧
    ∃ e ∈ [("svc".toList, ["http://10.0.0.1:8000".toList]), ("other".toList, [])],
      "http://10.0.0.1:8000".toList ∈ e.2 :=
  ⟨by decide,
   (filterAddrs_eq_reference ["svc".toList] [] false
      [("svc".toList, ["http://10.0.0.1:8000".toList]), ("other".toList, [])]).2
      ["http://10.0.0.1:8000".toList] (by decide) _ (List.mem_cons_self _ _)⟩

/-! ## `getProfile` -/

theorem collectProfiles_no_force (c : Collector) (addrs : List Str)
    (h : ∃ a ∈ addrs, ∃ err, c.fetch a = .error err) :
    ∃ e, collectProfiles c false addrs = .error e := by
  induction addrs with
  | nil =>
    obtain ⟨a, ha, _⟩ := h
    simp at ha
  | cons addr rest ih =>
    cases hf : c.fetch addr with
    | error err => exact ⟨.fetchFailed addr err, by simp [collectProfiles, hf]⟩
    | ok pp =>
      cases hc : c.convert pp with
      | error err => exact ⟨.convertFailed err, by simp [collectProfiles, hf, hc]⟩
      | ok profile =>
        obtain ⟨a, ha, err, herr⟩ := h
        rcases List.mem_cons.mp ha with ha | ha
        · subst ha
          rw [hf] at herr
          cases herr
        · obtain ⟨e, he⟩ := ih ⟨a, ha, err, herr⟩
          exact ⟨e, by simp [collectProfiles, hf, hc, he]⟩

theorem collectProfiles_force (c : Collector) (addrs : List Str) :
    ∀ L, collectProfiles c true addrs = .ok L ↔
      (fetched c addrs).map c.convert = L.map Except.ok := by
  induction addrs with
  | nil =>
    intro L
    cases L <;> simp [collectProfiles, fetched]
  | cons addr rest ih =>
    intro L
    cases hf : c.fetch addr with
    | error err =>
      have h1 : fetched c (addr :: rest) = fetched c rest := by
        simp [fetched, hf]
      rw [h1, ← ih L]
      simp [collectProfiles, hf]
    | ok pp =>
      have h1 : fetched c (addr :: rest) = pp :: fetched c rest := by
        simp [fetched, hf]
      rw [h1]
      cases hc : c.convert pp with
      | error err =>
        cases L <;> simp [collectProfiles, hf, hc]
      | ok profile =>
        cases L with
        | nil =>
          simp only [collectProfiles, hf, hc, List.map_cons, List.map_nil]
          constructor
          · intro h
            split at h <;> cases h
          · intro h
            cases h
        | cons l ls =>
          simp only [collectProfiles, hf, hc, List.map_cons, List.cons.injEq,
            Except.ok.injEq]
          rw [← ih ls]
          constructor
          · intro h
            split at h
            · cases h
            · rename_i more hmore
              simp only [Except.ok.injEq, List.cons.injEq] at h
              rw [hmore, h.2]
              exact ⟨h.1, rfl⟩
          · rintro ⟨h1, h2⟩
            rw [h2, h1]

theorem collectProfiles_all_fail (c : Collector) (addrs : List Str)
    (h : ∀ a ∈ addrs, ∃ err, c.fetch a = .error err) :
    collectProfiles c true addrs = .ok [] := by
  induction addrs with
  | nil => rfl
  | cons addr rest ih =>
    obtain ⟨err, herr⟩ := h addr (List.mem_cons_self _ _)
    simp only [collectProfiles, herr, if_true]
    exact ih (fun a ha => h a (List.mem_cons_of_mem _ ha))

theorem fetched_eq_filterMap (c : Collector) (addrs : List Str) :
    fetched c addrs = addrs.filterMap (fun a => (c.fetch a).toOption) := by
  unfold fetched
  congr 1
  funext a
  cases c.fetch a <;> rfl

/-- A fetched body that the parse refuses ends the loop of `getProfile` with the error
of the parse, whatever `force` is, when the addresses before it are passed. -/
theorem collectProfiles_convert_fail (c : Collector) (force : Bool) (a : Str)
    (after : List Str) (pp err : Str) (hf : c.fetch a = .ok pp)
    (hc : c.convert pp = .error err) :
    ∀ before : List Str,
      (∀ b ∈ before, (∃ body ps, c.fetch b = .ok body ∧ c.convert body = .ok ps) ∨
        (force = true ∧ ∃ e, c.fetch b = .error e)) →
      collectProfiles c force (before ++ a :: after) = .error (.convertFailed err) := by
  intro before
  induction before with
  | nil =>
    intro _
    simp only [List.nil_append, collectProfiles, hf, hc]
  | cons b before ih =>
    intro h
    have hrest : collectProfiles c force (before.append (a :: after)) =
        .error (.convertFailed err) := ih (fun x hx => h x (List.mem_cons_of_mem _ hx))
    rcases h b (List.mem_cons_self _ _) with ⟨body, ps, h1, h2⟩ | ⟨h1, e, h2⟩
    · simp only [List.cons_append, collectProfiles, h1, h2]
      rw [hrest]
    · simp only [List.cons_append, collectProfiles, h2, h1, if_true]
      rw [h1] at hrest
      exact hrest

/-- C14 (amended): with `force` false a failing fetch fails the whole request; a
fetched body that `convertProfile` refuses fails the whole request with the error of
the parse, also with `force` true; with `force` true and every fetched body parsed, the
failing fetches are skipped and `cov.MergeMultipleProfiles` is handed the list `L` of
the profile sets parsed from the bodies of the addresses whose fetch succeeded, in the
order of the addresses: `getProfile` returns the error of the merge of `L`, or its
result after `filterProfile` and `skipProfile` for the pattern lists that are not
empty; when nothing was collected, the address list being empty or `force` being true
and every fetch failing, `getProfile` fails with the error "no profiles". -/
theorem getProfile_collects (c : Collector) (re : Regexp) (addrs : List Str)
    (coverfile skipfile : List Str) :
    ((∃ a ∈ addrs, ∃ err, c.fetch a = .error err) →
      ∃ e, getProfile c re addrs false coverfile skipfile = .error e) ∧
    (∀ (force : Bool) (before : List Str) (a : Str) (after : List Str) (pp err : Str),
      addrs = before ++ a :: after → c.fetch a = .ok pp → c.convert pp = .error err →
      (∀ b ∈ before, (∃ body ps, c.fetch b = .ok body ∧ c.convert body = .ok ps) ∨
        (force = true ∧ ∃ e, c.fetch b = .error e)) →
      getProfile c re addrs force coverfile skipfile = .error (.convertFailed err)) ∧
    (∀ L : List (List Profile),
      (addrs.filterMap (fun a => (c.fetch a).toOption)).map c.convert = L.map Except.ok →
      L ≠ [] →
      getProfile c re addrs true coverfile skipfile =
        match c.merge L with
        | .error err => .error (.mergeFailed err)
        | .ok merged =>
          match (if coverfile.length > 0 then
              (match filterProfile re coverfile merged with
                | .error e => Except.error (GetProfileError.filterFailed e)
                | .ok out => .ok out)
            else .ok merged) with
          | .error e => .error e
          | .ok kept =>
            if skipfile.length > 0 then
              match skipProfile re skipfile kept with
              | .error e => .error (.skipFailed e)
              | .ok out => .ok out
            else .ok kept) ∧
    (∀ L : List (List Profile),
      (addrs.filterMap (fun a => (c.fetch a).toOption)).map c.convert = L.map Except.ok →
      L ≠ [] → ∀ merged, c.merge L = .ok merged →
      getProfile c re addrs true [] [] = .ok merged) ∧
    (∀ force, addrs = [] ∨ (force = true ∧ ∀ a ∈ addrs, ∃ err, c.fetch a = .error err) →
      getProfile c re addrs force coverfile skipfile = .error .noProfiles) := by
  have hcollect : ∀ L : List (List Profile),
      (addrs.filterMap (fun a => (c.fetch a).toOption)).map c.convert = L.map Except.ok →
      collectProfiles c true addrs = .ok L := by
    intro L hL
    rw [← fetched_eq_filterMap] at hL
    exact (collectProfiles_force c addrs L).mpr hL
  refine ⟨?_, ?_, ?_, ?_, ?_⟩
  · intro h
    obtain ⟨e, he⟩ := collectProfiles_no_force c addrs h
    exact ⟨e, by simp [getProfile, he]⟩
  · intro force before a after pp err haddrs hf hc hbefore
    rw [haddrs]
    simp only [getProfile, collectProfiles_convert_fail c force a after pp err hf hc before hbefore]
  · intro L hL hne
    have hlen : ¬ L.length = 0 := by
      intro h0
      exact hne (List.length_eq_zero.mp h0)
    simp only [getProfile, hcollect L hL, hlen, if_false, mergeAndFilter]
  · intro L hL hne merged hm
    have hlen : ¬ L.length = 0 := by
      intro h0
      exact hne (List.length_eq_zero.mp h0)
    simp [getProfile, hcollect L hL, hlen, mergeAndFilter, hm]
  · intro force h
    rcases h with h | ⟨hf, h⟩
    · subst h
      simp [getProfile, collectProfiles]
    · subst hf
      simp [getProfile, collectProfiles_all_fail c addrs h]

/-- C14 as stated fails: with `force` true the agents at `up` and `bad` both answer,
but the body of `bad` is no profile and the whole request fails with the error of the
parse; no profile set reaches the merge, which for the address `up` alone returns the
profile of `f`. -/
theorem getProfile_collects_counterexample :
    exampleCollector.fetch ['u', 'p'] = .ok "mode: set\nf:1.1,1.2 1 1\n".toList ∧
    exampleCollector.fetch ['b', 'a', 'd'] = .ok "<html>".toList ∧
    getProfile exampleCollector prefixRegexp [['u', 'p'], ['b', 'a', 'd']] true [] [] =
      .error (.convertFailed "parse".toList) ∧
    getProfile exampleCollector prefixRegexp [['u', 'p']] true [] [] =
      .ok [⟨"f".toList, setMode, [⟨1, 1, 1, 2, 1, 1⟩]⟩] := by
  decide

/-- Instance of C14: with `force` the refusing address `dn` is skipped and the merge is
handed the one profile set of `up`; without `force` the request fails; with `force` and
only the refusing address the error is "no profiles"; the body of `bad` fails the
request. -/
theorem getProfile_collects_witness :
    getProfile exampleCollector prefixRegexp [['d', 'n'], ['u', 'p']] true [] [] =
      .ok [⟨"f".toList, setMode, [⟨1, 1, 1, 2, 1, 1⟩]⟩] ∧
    (∃ e, getProfile exampleCollector prefixRegexp [['u', 'p'], ['d', 'n']] false [] [] =
      .error e) ∧
    getProfile exampleCollector prefixRegexp [['d', 'n']] true [] [] = .error .noProfiles ∧
    getProfile exampleCollector prefixRegexp [['d', 'n'], ['b', 'a', 'd'], ['u', 'p']] true
      [] [] = .error (.convertFailed "parse".toList) :=
  ⟨(getProfile_collects exampleCollector prefixRegexp [['d', 'n'], ['u', 'p']] [] []).2.2.2.1
      [[⟨"f".toList, setMode, [⟨1, 1, 1, 2, 1, 1⟩]⟩]] (by decide) (by decide)
      [⟨"f".toList, setMode, [⟨1, 1, 1, 2, 1, 1⟩]⟩] (by decide),
   (getProfile_collects exampleCollector prefixRegexp [['u', 'p'], ['d', 'n']] [] []).1
      ⟨['d', 'n'], by decide, "refused".toList, by decide⟩,
   (getProfile_collects exampleCollector prefixRegexp [['d', 'n']] [] []).2.2.2.2 true
      (Or.inr ⟨rfl, fun a ha => by
        rw [List.mem_singleton.mp ha]
        exact ⟨"refused".toList, by decide⟩⟩),
   (getProfile_collects exampleCollector prefixRegexp
      [['d', 'n'], ['b', 'a', 'd'], ['u', 'p']] [] []).2.1 true [['d', 'n']] ['b', 'a', 'd']
      [['u', 'p']] "<html>".toList "parse".toList rfl (by decide) (by decide)
      (fun b hb => by
        rw [List.mem_singleton.mp hb]
        exact Or.inr ⟨rfl, "refused".toList, by decide⟩)⟩

/-! ## `loadFileCover` -/

theorem mapGet_mapSet {α : Type} (k : Str) (v : α) (m : StrMap α) :
    mapGet (mapSet k v m) k = some v := by
  induction m with
  | nil => simp [mapSet, mapGet]
  | cons e es ih =>
    by_cases he : e.1 = k
    · simp [mapSet, mapGet, he]
    · simp only [mapGet] at ih
      simp [mapSet, mapGet, he, List.find?_cons, ih]

theorem loadBlocks_some (pos numStmts : List Nat) (n : Nat) (hpos : 3 * n ≤ pos.length)
    (hnum : n ≤ numStmts.length) :
    ∃ blocks, loadBlocks pos numStmts n = some blocks ∧ blocks.length = n ∧
      ∀ i, i < n → ∃ l0 l1 w s, pos[3 * i]? = some l0 ∧ pos[3 * i + 1]? = some l1 ∧
        pos[3 * i + 2]? = some w ∧ numStmts[i]? = some s ∧
        blocks[i]? = some { Line0 := l0, Col0 := w % 2 ^ 16, Line1 := l1,
                            Col1 := w / 2 ^ 16 % 2 ^ 16, Stmts := s } := by
  induction n with
  | zero => exact ⟨[], rfl, rfl, fun i hi => absurd hi (Nat.not_lt_zero i)⟩
  | succ n ih =>
    obtain ⟨blocks, hb, hlen, hall⟩ := ih (by omega) (by omega)
    have h0 : 3 * n + 0 < pos.length := by omega
    have h1 : 3 * n + 1 < pos.length := by omega
    have h2 : 3 * n + 2 < pos.length := by omega
    have h3 : n < numStmts.length := by omega
    have hblock : coverBlockAt pos numStmts n =
        some { Line0 := pos[3 * n + 0], Col0 := pos[3 * n + 2] % 2 ^ 16,
               Line1 := pos[3 * n + 1], Col1 := pos[3 * n + 2] / 2 ^ 16 % 2 ^ 16,
               Stmts := numStmts[n] } := by
      simp only [coverBlockAt, List.getElem?_eq_getElem h0, List.getElem?_eq_getElem h1,
        List.getElem?_eq_getElem h2, List.getElem?_eq_getElem h3, uint16,
        Nat.shiftRight_eq_div_pow]
    refine ⟨blocks ++ [CoverBlock.mk pos[3 * n + 0] (pos[3 * n + 2] % 2 ^ 16)
        pos[3 * n + 1] (pos[3 * n + 2] / 2 ^ 16 % 2 ^ 16) numStmts[n]],
      by simp only [loadBlocks, hb, hblock], by simp [hlen], ?_⟩
    intro i hi
    by_cases hin : i < n
    · obtain ⟨l0, l1, w, s, e0, e1, e2, e3, e4⟩ := hall i hin
      refine ⟨l0, l1, w, s, e0, e1, e2, e3, ?_⟩
      rw [List.getElem?_append_left (by omega)]
      exact e4
    · have hi' : i = n := by omega
      subst hi'
      refine ⟨pos[3 * i + 0], pos[3 * i + 1], pos[3 * i + 2], numStmts[i],
        List.getElem?_eq_getElem h0, List.getElem?_eq_getElem h1,
        List.getElem?_eq_getElem h2, List.getElem?_eq_getElem h3, ?_⟩
      rw [List.getElem?_append_right (by omega)]
      simp [hlen]

/-- C19: for a file name that is not registered and arrays with `len(pos) =
3·len(counter)` and `len(numStmts) = len(counter)`, `loadFileCover` does not panic,
no read is out of range, and it registers the counters and, for every `i` below
`len(counter)`, the block with `Line0 = pos[3i]`, `Line1 = pos[3i+1]`, `Col0` the low
16 bits and `Col1` the high 16 bits of `pos[3i+2]`, and `Stmts = numStmts[i]`; a word
packed as `col0 + col1·2^16` from two 16-bit columns decodes back to them. -/
theorem loadFileCover_registers (coverCounters : StrMap (List Nat))
    (coverBlocks : StrMap (List CoverBlock)) (fileName : Str) (counter pos numStmts : List Nat)
    (hpos : pos.length = 3 * counter.length) (hnum : numStmts.length = counter.length)
    (hnew : mapGet coverCounters fileName = none) :
    (∃ block,
      loadFileCover coverCounters coverBlocks fileName counter pos numStmts =
        .ok (mapSet fileName counter coverCounters, mapSet fileName block coverBlocks) ∧
      mapGet (mapSet fileName counter coverCounters) fileName = some counter ∧
      mapGet (mapSet fileName block coverBlocks) fileName = some block ∧
      block.length = counter.length ∧
      ∀ i, i < counter.length → ∃ l0 l1 w s, pos[3 * i]? = some l0 ∧
        pos[3 * i + 1]? = some l1 ∧ pos[3 * i + 2]? = some w ∧ numStmts[i]? = some s ∧
        block[i]? = some { Line0 := l0, Col0 := w % 2 ^ 16, Line1 := l1,
                           Col1 := w / 2 ^ 16 % 2 ^ 16, Stmts := s }) ∧
    (∀ col0 col1 : Nat, col0 < 2 ^ 16 → col1 < 2 ^ 16 →
      uint16 (col0 + col1 * 2 ^ 16) = col0 ∧
      uint16 ((col0 + col1 * 2 ^ 16) >>> 16) = col1) := by
  constructor
  · obtain ⟨block, hb, hlen, hall⟩ :=
      loadBlocks_some pos numStmts counter.length (by omega) (by omega)
    refine ⟨block, ?_, mapGet_mapSet _ _ _, mapGet_mapSet _ _ _, hlen, hall⟩
    have h1 : ¬ (3 * counter.length ≠ pos.length ∨ counter.length ≠ numStmts.length) := by
      omega
    simp only [loadFileCover, h1, if_false, hnew, Option.isSome_none, Bool.false_eq_true, hb]
  · intro col0 col1 h0 h1
    simp only [uint16, Nat.shiftRight_eq_div_pow]
    omega

/-- Instance of C19: one file with two blocks; the second word packs the columns 5
and 9. -/
theorem loadFileCover_registers_witness :
    (∃ block,
      loadFileCover [] [] "a.go".toList [0, 7] [1, 2, 196610, 3, 4, 589829] [1, 2] =
        .ok (mapSet "a.go".toList [0, 7] [], mapSet "a.go".toList block []) ∧
      mapGet (mapSet "a.go".toList [0, 7] []) "a.go".toList = some [0, 7] ∧
      mapGet (mapSet "a.go".toList block []) "a.go".toList = some block ∧
      block.length = [0, 7].length ∧
      ∀ i, i < [0, 7].length → ∃ l0 l1 w s, [1, 2, 196610, 3, 4, 589829][3 * i]? = some l0 ∧
        [1, 2, 196610, 3, 4, 589829][3 * i + 1]? = some l1 ∧
        [1, 2, 196610, 3, 4, 589829][3 * i + 2]? = some w ∧ [1, 2][i]? = some s ∧
        block[i]? = some { Line0 := l0, Col0 := w % 2 ^ 16, Line1 := l1,
                           Col1 := w / 2 ^ 16 % 2 ^ 16, Stmts := s }) ∧
    loadFileCover [] [] "a.go".toList [0, 7] [1, 2, 196610, 3, 4, 589829] [1, 2] =
      .ok ([("a.go".toList, [0, 7])],
        [("a.go".toList, [⟨1, 2, 2, 3, 1⟩, ⟨3, 5, 4, 9, 2⟩])]) :=
  ⟨(loadFileCover_registers [] [] "a.go".toList [0, 7] [1, 2, 196610, 3, 4, 589829] [1, 2]
      (by decide) (by decide) (by decide)).1,
   by decide⟩

/-! ## `Boundaries` and `htmlGen` at work -/

/-- C15 (amended): for the source `"ab\ncd"` and the block 1.2,2.2 with 1 statement and
count 3, `Boundaries` returns exactly two boundaries: a Start boundary with offset 0 and
count 3, then a non-Start boundary with offset 4. -/
theorem Boundaries_example (log : Int → F64) :
    (Boundaries log ⟨"f.go".toList, "count".toList, [⟨1, 2, 2, 2, 1, 3⟩]⟩
        (bytesOf "ab\ncd".toList)).map (fun b => (b.Offset, b.Start, b.Count)) =
      [(0, true, 3), (4, false, 0)] := by
  rfl

/-- C15 as stated fails: the non-Start boundary has the offset 4, the offset of `d`,
not 3: after the newline the column is set to 0 and then advanced, so `c` has the
column 1 and `d` the column 2. -/
theorem Boundaries_example_counterexample :
    (Boundaries floorLog2 ⟨"f.go".toList, "count".toList, [⟨1, 2, 2, 2, 1, 3⟩]⟩
        (bytesOf "ab\ncd".toList)).map (fun b => (b.Offset, b.Start, b.Count)) =
      [(0, true, 3), (4, false, 0)] ∧
    ((0, true, 3), (4, false, 0)) ≠ (((0, true, 3), (3, false, 0)) :
      (Int × Bool × Int) × (Int × Bool × Int)) := by
  decide

theorem htmlGenLoop_nil (src : List Nat) :
    ∀ i : Int, htmlGenLoop i src [] = src.flatMap escapeByte := by
  induction src with
  | nil => intro i; rfl
  | cons b src ih =>
    intro i
    simp [htmlGenLoop, ih]

theorem escapeByte_no_angle (b : Nat) : 60 ∉ escapeByte b ∧ 62 ∉ escapeByte b := by
  unfold escapeByte
  split
  · decide
  · split
    · decide
    · split
      · decide
      · split
        · decide
        · rename_i h1 h2 _ _
          simp only [List.mem_singleton]
          exact ⟨fun h => h2 h.symm, fun h => h1 h.symm⟩

theorem tagOf_eq_reference (b : Boundary) : tagOf b = tagReference b := by
  unfold tagOf tagReference bytesOf
  split
  · simp only [List.map_append, List.append_assoc]
  · rfl

theorem consumable_bound (n : Int) (bs : List Boundary) :
    ∀ prev : Int, ∀ x ∈ consumable n prev bs, prev ≤ x.Offset ∧ x.Offset < n := by
  induction bs with
  | nil => intro prev x hx; simp [consumable] at hx
  | cons b bs ih =>
    intro prev x hx
    simp only [consumable] at hx
    split at hx
    · rename_i h
      rcases List.mem_cons.mp hx with hx | hx
      · rw [hx]; exact h
      · have := ih b.Offset x hx
        omega
    · simp at hx

/-- The run that a pass can take from the offset `i` on is what it takes at the offset
`i`, then the run from the offset `i + 1` on. -/
theorem consumable_step (n i : Int) (hin : i < n) (bs : List Boundary) :
    consumable n i bs =
      bs.takeWhile (fun x => decide (x.Offset = i)) ++
        consumable n (i + 1) (bs.dropWhile (fun x => decide (x.Offset = i))) := by
  induction bs with
  | nil => simp [consumable]
  | cons b bs ih =>
    by_cases hb : b.Offset = i
    · rw [List.takeWhile_cons_of_pos (by simpa using hb),
        List.dropWhile_cons_of_pos (by simpa using hb)]
      simp only [consumable]
      rw [if_pos ⟨by omega, by omega⟩, hb, ih]
      rfl
    · rw [List.takeWhile_cons_of_neg (by simpa using hb),
        List.dropWhile_cons_of_neg (by simpa using hb)]
      simp only [consumable, List.nil_append]
      by_cases h1 : i ≤ b.Offset ∧ b.Offset < n
      · rw [if_pos h1, if_pos ⟨by omega, h1.2⟩]
      · rw [if_neg h1, if_neg (fun h => h1 ⟨by omega, h.2⟩)]

theorem consumable_filter_here (n i : Int) (hin : i < n) (bs : List Boundary) :
    (consumable n i bs).filter (fun b => decide (b.Offset = i)) =
      bs.takeWhile (fun x => decide (x.Offset = i)) := by
  rw [consumable_step n i hin bs, List.filter_append]
  have h1 : (bs.takeWhile (fun x => decide (x.Offset = i))).filter
      (fun b => decide (b.Offset = i)) = bs.takeWhile (fun x => decide (x.Offset = i)) := by
    rw [List.filter_eq_self]
    intro x hx
    have := List.mem_takeWhile_imp hx
    simpa using this
  have h2 : (consumable n (i + 1) (bs.dropWhile (fun x => decide (x.Offset = i)))).filter
      (fun b => decide (b.Offset = i)) = [] := by
    rw [List.filter_eq_nil_iff]
    intro x hx
    have := (consumable_bound n _ (i + 1) x hx).1
    simp only [decide_eq_true_eq]
    omega
  rw [h1, h2, List.append_nil]

theorem consumable_filter_later (n i j : Int) (hin : i < n) (hj : i < j)
    (bs : List Boundary) :
    (consumable n i bs).filter (fun b => decide (b.Offset = j)) =
      (consumable n (i + 1) (bs.dropWhile (fun x => decide (x.Offset = i)))).filter
        (fun b => decide (b.Offset = j)) := by
  rw [consumable_step n i hin bs, List.filter_append]
  have h1 : (bs.takeWhile (fun x => decide (x.Offset = i))).filter
      (fun b => decide (b.Offset = j)) = [] := by
    rw [List.filter_eq_nil_iff]
    intro x hx
    have := List.mem_takeWhile_imp hx
    simp only [decide_eq_true_eq] at this ⊢
    omega
  rw [h1, List.nil_append]

/-- The loop of `htmlGen` from the offset `i` on writes, for every offset, the tags of
the boundaries with this offset among those that the pass can take, then the escaped
byte. -/
theorem htmlGenLoop_eq_filter (src : List Nat) :
    ∀ (i : Nat) (boundaries : List Boundary),
      htmlGenLoop (Int.ofNat i) src boundaries =
        (((List.range src.length).map (fun k => k + i)).zip src).flatMap
          (fun x =>
            ((consumable (Int.ofNat (i + src.length)) (Int.ofNat i) boundaries).filter
              (fun b => decide (b.Offset = Int.ofNat x.1))).flatMap tagReference ++
                escapeByte x.2) := by
  induction src with
  | nil => intro i boundaries; rfl
  | cons byte src ih =>
    intro i boundaries
    have hin : Int.ofNat i < Int.ofNat (i + (src.length + 1)) := by
      simp only [Int.ofNat_eq_coe, Nat.cast_add, Nat.cast_one]
      omega
    have hi1 : Int.ofNat i + 1 = Int.ofNat (i + 1) := rfl
    have hlen : i + (src.length + 1) = i + 1 + src.length := by
      omega
    simp only [htmlGenLoop]
    rw [hi1, ih (i + 1), List.length_cons, List.range_succ_eq_map]
    simp only [List.map_cons, List.map_map, List.zip_cons_cons, List.flatMap_cons, Nat.zero_add]
    rw [consumable_filter_here _ _ hin]
    have hmap : List.map ((fun k => k + i) ∘ Nat.succ) (List.range src.length) =
        (List.range src.length).map (fun k => k + (i + 1)) := by
      apply List.map_congr_left
      intro k _
      simp only [Function.comp_apply]
      omega
    rw [hmap]
    have htag : (boundaries.takeWhile (fun x => decide (x.Offset = Int.ofNat i))).flatMap tagOf =
        (boundaries.takeWhile (fun x => decide (x.Offset = Int.ofNat i))).flatMap
          tagReference := by
      congr 1
      funext b
      exact tagOf_eq_reference b
    rw [htag, List.append_assoc, List.append_assoc]
    congr 2
    apply List.flatMap_congr
    intro x hx
    have hx1 : x.1 ∈ (List.range src.length).map (fun k => k + (i + 1)) :=
      (List.of_mem_zip (show (x.1, x.2) ∈ _ from hx)).1
    obtain ⟨k, _, hk⟩ := List.mem_map.mp hx1
    have hlt : Int.ofNat i < Int.ofNat x.1 := by
      rw [← hk]
      simp only [Int.ofNat_eq_coe, Nat.cast_add, Nat.cast_one]
      omega
    rw [hlen, consumable_filter_later _ _ _ (by rw [← hlen]; exact hin) hlt, hi1]

theorem classIndex_formula (b : Boundary) (q : ℚ) (hn : b.Norm = .fin q) (h0 : 0 ≤ q)
    (h1 : q ≤ 1) :
    classIndex b = (if b.Count > 0 then Int.floor (q * 9) + 1 else 0) := by
  unfold classIndex
  by_cases hpos : b.Count > 0
  · have hf0 : 0 ≤ Int.floor (q * 9) := Int.floor_nonneg.mpr (by positivity)
    have hf9 : Int.floor (q * 9) ≤ 9 := by
      have : q * 9 ≤ ((9 : Int) : ℚ) := by
        have := mul_le_mul_of_nonneg_right h1 (by norm_num : (0 : ℚ) ≤ 9)
        simpa using this
      exact (Int.floor_le_floor this).trans (le_of_eq (Int.floor_intCast 9))
    have hval : floatToInt (F64.floor (F64.mul b.Norm (.fin 9))) = Int.floor (q * 9) := by
      rw [hn]
      simp only [F64.mul, F64.floor, floatToInt, Int.floor_intCast, maxInt]
      rw [if_pos]
      constructor <;> omega
    rw [if_pos hpos, if_pos hpos, hval,
      wrapInt_of_range _ (by omega) (by unfold maxInt; omega)]
  · rw [if_neg hpos, if_neg hpos]

/-- C18: the output of `htmlGen` is, for every offset of the source in order, the tags
of the boundaries consumed at the offset followed by the escaped byte. The boundaries
consumed are the longest run at the head of the list whose offsets do not decrease and
are offsets of the source; the tag of a Start boundary is `<span class="covK"
title="<count>">` with the class `K`, which is `⌊Norm·9⌋ + 1` for a positive count and a
norm between 0 and 1 and is 0 for a count that is not positive, and the tag of every
other boundary is `</span>`; `>`, `<`, `&` and TAB are written as `&gt;`, `&lt;`,
`&amp;` and eight spaces and every other byte as it is; with no boundaries the output is
the escaped source, and it holds neither the byte `<` nor the byte `>`. -/
theorem htmlGen_eq_reference (src : List Nat) (boundaries : List Boundary) :
    htmlGen src boundaries = htmlReference src boundaries ∧
    (∀ b : Boundary, b.Start = false → tagReference b = bytesOf "</span>".toList) ∧
    (∀ b : Boundary, b.Start = true →
      tagReference b =
        bytesOf "<span class=\"cov".toList ++ bytesOf (formatInt (classIndex b)) ++
          bytesOf "\" title=\"".toList ++ bytesOf (formatInt b.Count) ++
          bytesOf "\">".toList) ∧
    (∀ (b : Boundary) (q : ℚ), b.Norm = .fin q → 0 ≤ q → q ≤ 1 →
      classIndex b = (if b.Count > 0 then Int.floor (q * 9) + 1 else 0)) ∧
    escapeByte 62 = bytesOf "&gt;".toList ∧ escapeByte 60 = bytesOf "&lt;".toList ∧
    escapeByte 38 = bytesOf "&amp;".toList ∧ escapeByte 9 = bytesOf "        ".toList ∧
    (∀ b, b ≠ 62 → b ≠ 60 → b ≠ 38 → b ≠ 9 → escapeByte b = [b]) ∧
    htmlGen src [] = src.flatMap escapeByte ∧
    60 ∉ htmlGen src [] ∧ 62 ∉ htmlGen src [] := by
  refine ⟨?_, ?_, ?_, classIndex_formula, by decide, by decide, by decide,
    by decide, ?_, htmlGenLoop_nil src 0, ?_, ?_⟩
  · have h := htmlGenLoop_eq_filter src 0 boundaries
    simp only [Nat.add_zero, List.map_id', Nat.zero_add] at h
    exact h
  · intro b hb
    simp [tagReference, hb]
  · intro b hb
    simp [tagReference, hb]
  · intro b h1 h2 h3 h4
    simp [escapeByte, h1, h2, h3, h4]
  · rw [htmlGen, htmlGenLoop_nil]
    simp only [List.mem_flatMap, not_exists, not_and]
    intro b _
    exact (escapeByte_no_angle b).1
  · rw [htmlGen, htmlGenLoop_nil]
    simp only [List.mem_flatMap, not_exists, not_and]
    intro b _
    exact (escapeByte_no_angle b).2

/-! ## The walk of `Boundaries` -/

theorem boundary_fields (log : Int → F64) (max index offset : Int) (start : Bool)
    (count : Int) :
    (boundary log max index offset start count).Offset = offset ∧
    (boundary log max index offset start count).Start = start ∧
    (boundary log max index offset start count).Count = count ∧
    (boundary log max index offset start count).Index = index := by
  unfold boundary
  simp only
  split
  · exact ⟨rfl, rfl, rfl, rfl⟩
  · split
    · exact ⟨rfl, rfl, rfl, rfl⟩
    · split <;> exact ⟨rfl, rfl, rfl, rfl⟩

/-- The insertion sort leaves a sorted list as it is. -/
theorem insertionSort_id {α : Type} (less : α → α → Bool) (l : List α)
    (h : l.Pairwise (fun a b => less b a = false)) : insertionSort less l = l := by
  have key : ∀ (l acc : List α), (∀ x ∈ l, ∀ y ∈ acc, less x y = false) →
      l.Pairwise (fun a b => less b a = false) →
      l.foldl (fun acc x => sink less x acc) acc = l.reverse ++ acc := by
    intro l
    induction l with
    | nil => intro acc _ _; rfl
    | cons x xs ih =>
      intro acc hacc hp
      have hsink : sink less x acc = x :: acc := by
        cases acc with
        | nil => rfl
        | cons y ys =>
          simp only [sink, hacc x (List.mem_cons_self _ _) y (List.mem_cons_self _ _),
            Bool.false_eq_true, if_false]
      simp only [List.foldl_cons, hsink]
      rw [ih (x :: acc) ?_ (List.pairwise_cons.mp hp).2]
      · simp
      · intro z hz y hy
        rcases List.mem_cons.mp hy with hy | hy
        · subst hy
          exact (List.pairwise_cons.mp hp).1 z hz
        · exact hacc z (List.mem_cons_of_mem _ hz) y hy
  unfold insertionSort
  rw [key l [] (by simp) h]
  simp

/-- The rounds of one block after the cursor has passed the start position of the
block: no Start boundary, and the block is closed unless the source ends. -/
theorem scanBlock_after_start (log : Int → F64) (max : Int) (b : ProfileBlock)
    (src : List Nat) :
    ∀ (line col si index : Int),
      (b.StartLine < line ∨ (b.StartLine = line ∧ b.StartCol < col)) →
      ((scanBlock log max b line col si index src).1 = [] ∧
        (scanBlock log max b line col si index src).2.src = []) ∨
      (∃ off, (scanBlock log max b line col si index src).1 =
          [boundary log max index off false 0] ∧ si ≤ off ∧
        (scanBlock log max b line col si index src).2.si = off ∧
        (scanBlock log max b line col si index src).2.index = index + 1) := by
  induction src with
  | nil => intro line col si index _; exact Or.inl ⟨rfl, rfl⟩
  | cons c src ih =>
    intro line col si index hpast
    have hns : (decide (b.StartLine = line) && decide (b.StartCol = col)) = false := by
      simp only [Bool.and_eq_false_iff, decide_eq_false_iff_not]
      omega
    simp only [scanBlock, hns, Bool.false_eq_true, if_false, List.nil_append]
    split
    · exact Or.inr ⟨si, rfl, le_refl _, rfl, rfl⟩
    · split
      · rcases ih (line + 1) (0 + 1) (si + 1) index (by omega) with h | ⟨off, h1, h2, h3, h4⟩
        · exact Or.inl h
        · exact Or.inr ⟨off, h1, by omega, h3, h4⟩
      · rcases ih line (col + 1) (si + 1) index (by omega) with h | ⟨off, h1, h2, h3, h4⟩
        · exact Or.inl h
        · exact Or.inr ⟨off, h1, by omega, h3, h4⟩

/-- The four shapes of the boundaries of one block. -/
theorem scanBlock_shape (log : Int → F64) (max : Int) (b : ProfileBlock) (src : List Nat) :
    ∀ (line col si index : Int),
      ((scanBlock log max b line col si index src).1 = [] ∧
        (scanBlock log max b line col si index src).2.src = []) ∨
      (∃ off, (scanBlock log max b line col si index src).1 =
          [boundary log max index off false 0] ∧ si ≤ off ∧
        (scanBlock log max b line col si index src).2.si = off ∧
        (scanBlock log max b line col si index src).2.index = index + 1) ∨
      (∃ off, (scanBlock log max b line col si index src).1 =
          [boundary log max index off true b.Count] ∧ si ≤ off ∧
        (scanBlock log max b line col si index src).2.src = []) ∨
      (∃ off off', (scanBlock log max b line col si index src).1 =
          [boundary log max index off true b.Count,
            boundary log max (index + 1) off' false 0] ∧ si ≤ off ∧ off ≤ off' ∧
        (scanBlock log max b line col si index src).2.si = off' ∧
        (scanBlock log max b line col si index src).2.index = index + 1 + 1) := by
  induction src with
  | nil => intro line col si index; exact Or.inl ⟨rfl, rfl⟩
  | cons c src ih =>
    intro line col si index
    by_cases hs : (decide (b.StartLine = line) && decide (b.StartCol = col)) = true
    · have hs' : b.StartLine = line ∧ b.StartCol = col := by
        simpa using hs
      simp only [scanBlock, hs, if_true, List.singleton_append]
      split
      · exact Or.inr (Or.inr (Or.inr ⟨si, si, rfl, le_refl _, le_refl _, rfl, rfl⟩))
      · split
        · rcases scanBlock_after_start log max b src (line + 1) (0 + 1) (si + 1) (index + 1)
            (by omega) with h | ⟨off, h1, h2, h3, h4⟩
          · exact Or.inr (Or.inr (Or.inl ⟨si, by rw [h.1], le_refl _, h.2⟩))
          · exact Or.inr (Or.inr (Or.inr ⟨si, off, by rw [h1], le_refl _, by omega, h3, h4⟩))
        · rcases scanBlock_after_start log max b src line (col + 1) (si + 1) (index + 1)
            (by omega) with h | ⟨off, h1, h2, h3, h4⟩
          · exact Or.inr (Or.inr (Or.inl ⟨si, by rw [h.1], le_refl _, h.2⟩))
          · exact Or.inr (Or.inr (Or.inr ⟨si, off, by rw [h1], le_refl _, by omega, h3, h4⟩))
    · have hs' : (decide (b.StartLine = line) && decide (b.StartCol = col)) = false := by
        simpa using hs
      simp only [scanBlock, hs', Bool.false_eq_true, if_false, List.nil_append]
      split
      · exact Or.inr (Or.inl ⟨si, rfl, le_refl _, rfl, rfl⟩)
      · split
        · rcases ih (line + 1) (0 + 1) (si + 1) index with h | ⟨off, h1, h2, h3, h4⟩ |
            ⟨off, h1, h2, h3⟩ | ⟨off, off', h1, h2, h3, h4, h5⟩
          · exact Or.inl h
          · exact Or.inr (Or.inl ⟨off, h1, by omega, h3, h4⟩)
          · exact Or.inr (Or.inr (Or.inl ⟨off, h1, by omega, h3⟩))
          · exact Or.inr (Or.inr (Or.inr ⟨off, off', h1, by omega, h3, h4, h5⟩))
        · rcases ih line (col + 1) (si + 1) index with h | ⟨off, h1, h2, h3, h4⟩ |
            ⟨off, h1, h2, h3⟩ | ⟨off, off', h1, h2, h3, h4, h5⟩
          · exact Or.inl h
          · exact Or.inr (Or.inl ⟨off, h1, by omega, h3, h4⟩)
          · exact Or.inr (Or.inr (Or.inl ⟨off, h1, by omega, h3⟩))
          · exact Or.inr (Or.inr (Or.inr ⟨off, off', h1, by omega, h3, h4, h5⟩))

theorem walkBlocks_nil_src (log : Int → F64) (max : Int) (blocks : List ProfileBlock) :
    ∀ s : WalkState, s.src = [] → walkBlocks log max blocks s = [] := by
  induction blocks with
  | nil => intro s _; rfl
  | cons b rest ih =>
    intro s hs
    simp only [walkBlocks, hs, scanBlock, List.nil_append]
    exact ih _ rfl

/-- The boundaries of the walk: offsets in non-decreasing and indexes in increasing
order, no Start boundary right after a Start boundary, and every boundary made by
`boundary` from a block or for an end. -/
theorem walkBlocks_spec (log : Int → F64) (max : Int) (blocks : List ProfileBlock) :
    ∀ s : WalkState,
      (∀ x ∈ walkBlocks log max blocks s, s.si ≤ x.Offset ∧ s.index ≤ x.Index) ∧
      (walkBlocks log max blocks s).Pairwise
        (fun a b => a.Offset ≤ b.Offset ∧ a.Index < b.Index) ∧
      (walkBlocks log max blocks s).Chain' (fun a b => a.Start = true → b.Start = false) ∧
      (∀ x ∈ walkBlocks log max blocks s,
        (∃ blk ∈ blocks, ∃ idx off, x = boundary log max idx off true blk.Count) ∨
        (∃ idx off, x = boundary log max idx off false 0)) := by
  induction blocks with
  | nil =>
    intro s
    simp [walkBlocks]
  | cons b rest ih =>
    intro s
    have hshape := scanBlock_shape log max b s.src s.line s.col s.si s.index
    simp only [walkBlocks]
    generalize scanBlock log max b s.line s.col s.si s.index s.src = r at hshape
    obtain ⟨ih1, ih2, ih3, ih4⟩ := ih r.2
    have hlift : ∀ x ∈ walkBlocks log max rest r.2,
        (∃ blk ∈ b :: rest, ∃ idx off, x = boundary log max idx off true blk.Count) ∨
        (∃ idx off, x = boundary log max idx off false 0) := by
      intro x hx
      rcases ih4 x hx with ⟨blk, hb, h⟩ | h
      · exact Or.inl ⟨blk, List.mem_cons_of_mem _ hb, h⟩
      · exact Or.inr h
    rcases hshape with ⟨h1, h2⟩ | ⟨off, h1, h2, h3, h4⟩ | ⟨off, h1, h2, h3⟩ |
      ⟨off, off', h1, h2, h3, h4, h5⟩
    · rw [h1, walkBlocks_nil_src log max rest r.2 h2]
      simp
    · rw [h1]
      have hE := boundary_fields log max s.index off false 0
      refine ⟨?_, ?_, ?_, ?_⟩
      · intro x hx
        rcases List.mem_cons.mp hx with hx | hx
        · subst hx
          rw [hE.1, hE.2.2.2]
          exact ⟨h2, le_refl _⟩
        · have := ih1 x hx
          rw [h3, h4] at this
          omega
      · refine List.pairwise_cons.mpr ⟨?_, ih2⟩
        intro x hx
        have := ih1 x hx
        rw [h3, h4] at this
        rw [hE.1, hE.2.2.2]
        omega
      · refine List.chain'_cons'.mpr ⟨?_, ih3⟩
        intro y _ hst
        rw [hE.2.1] at hst
        cases hst
      · intro x hx
        rcases List.mem_cons.mp hx with hx | hx
        · exact Or.inr ⟨s.index, off, hx⟩
        · exact hlift x hx
    · rw [h1, walkBlocks_nil_src log max rest r.2 h3]
      have hS := boundary_fields log max s.index off true b.Count
      refine ⟨?_, ?_, ?_, ?_⟩
      · intro x hx
        simp only [List.append_nil, List.mem_singleton] at hx
        subst hx
        rw [hS.1, hS.2.2.2]
        exact ⟨h2, le_refl _⟩
      · simp
      · simp
      · intro x hx
        simp only [List.append_nil, List.mem_singleton] at hx
        exact Or.inl ⟨b, List.mem_cons_self _ _, s.index, off, hx⟩
    · rw [h1]
      have hS := boundary_fields log max s.index off true b.Count
      have hE := boundary_fields log max (s.index + 1) off' false 0
      refine ⟨?_, ?_, ?_, ?_⟩
      · intro x hx
        simp only [List.cons_append, List.nil_append, List.mem_cons] at hx
        rcases hx with hx | hx | hx
        · subst hx
          rw [hS.1, hS.2.2.2]
          exact ⟨h2, le_refl _⟩
        · subst hx
          rw [hE.1, hE.2.2.2]
          omega
        · have := ih1 x hx
          rw [h4, h5] at this
          omega
      · simp only [List.cons_append, List.nil_append]
        refine List.pairwise_cons.mpr ⟨?_, List.pairwise_cons.mpr ⟨?_, ih2⟩⟩
        · intro x hx
          rw [hS.1, hS.2.2.2]
          rcases List.mem_cons.mp hx with hx | hx
          · subst hx
            rw [hE.1, hE.2.2.2]
            omega
          · have := ih1 x hx
            rw [h4, h5] at this
            omega
        · intro x hx
          have := ih1 x hx
          rw [h4, h5] at this
          rw [hE.1, hE.2.2.2]
          omega
      · simp only [List.cons_append, List.nil_append]
        refine List.chain'_cons.mpr ⟨fun _ => hE.2.1, List.chain'_cons'.mpr ⟨?_, ih3⟩⟩
        intro y _ hst
        rw [hE.2.1] at hst
        cases hst
      · intro x hx
        simp only [List.cons_append, List.nil_append, List.mem_cons] at hx
        rcases hx with hx | hx | hx
        · exact Or.inl ⟨b, List.mem_cons_self _ _, s.index, off, hx⟩
        · exact Or.inr ⟨s.index + 1, off', hx⟩
        · exact hlift x hx

/-- The sort at the end of `Boundaries` changes nothing. -/
theorem Boundaries_eq_walk (log : Int → F64) (p : Profile) (src : List Nat) :
    Boundaries log p src =
      walkBlocks log (maxCount p.Blocks) p.Blocks
        { line := 1, col := 2, si := 0, index := 0, src := src } := by
  unfold Boundaries
  apply insertionSort_id
  refine (walkBlocks_spec log (maxCount p.Blocks) p.Blocks _).2.1.imp ?_
  intro a b hab
  simp only [boundaryLess]
  split
  · simp only [decide_eq_false_iff_not]
    omega
  · simp only [decide_eq_false_iff_not]
    omega

/-- C16 (amended): the offsets of the boundaries that `Boundaries` returns never
decrease along the sequence, and no Start boundary comes right after a Start boundary:
a Start boundary is followed by the non-Start boundary of its block unless it is the
last one. -/
theorem Boundaries_order (log : Int → F64) (p : Profile) (src : List Nat) :
    (Boundaries log p src).Pairwise (fun a b => a.Offset ≤ b.Offset) ∧
    (Boundaries log p src).Chain' (fun a b => a.Start = true → b.Start = false) := by
  rw [Boundaries_eq_walk]
  obtain ⟨_, h2, h3, _⟩ := walkBlocks_spec log (maxCount p.Blocks) p.Blocks
    { line := 1, col := 2, si := 0, index := 0, src := src }
  exact ⟨h2.imp (fun h => h.1), h3⟩

/-- C16 as stated fails: for the block 1.1,1.5 the cursor, which starts in column 2,
never meets the start position, and the only boundary is a non-Start boundary; for the
block 1.2,5.1 the source `ab` ends before the end position, and the only boundary is a
Start boundary. -/
theorem Boundaries_order_counterexample :
    (Boundaries floorLog2 ⟨"f.go".toList, "count".toList, [⟨1, 1, 1, 5, 1, 1⟩]⟩
        (bytesOf "abcdefg".toList)).map (fun b => (b.Offset, b.Start)) = [(3, false)] ∧
    (Boundaries floorLog2 ⟨"f.go".toList, "count".toList, [⟨1, 2, 5, 1, 1, 1⟩]⟩
        (bytesOf "ab".toList)).map (fun b => (b.Offset, b.Start)) = [(0, true)] := by
  decide

/-! ## The normalised counts -/

theorem maxCount_fold (blocks : List ProfileBlock) :
    ∀ init : Int,
      init ≤ blocks.foldl (fun max b => if b.Count > max then b.Count else max) init ∧
      ∀ b ∈ blocks,
        b.Count ≤ blocks.foldl (fun max b => if b.Count > max then b.Count else max) init := by
  induction blocks with
  | nil => intro init; simp
  | cons x xs ih =>
    intro init
    simp only [List.foldl_cons]
    obtain ⟨h1, h2⟩ := ih (if x.Count > init then x.Count else init)
    refine ⟨?_, ?_⟩
    · refine le_trans ?_ h1
      split <;> omega
    · intro b hb
      rcases List.mem_cons.mp hb with hb | hb
      · subst hb
        refine le_trans ?_ h1
        split <;> omega
      · exact h2 b hb

theorem maxCount_ge (blocks : List ProfileBlock) :
    0 ≤ maxCount blocks ∧ ∀ b ∈ blocks, b.Count ≤ maxCount blocks :=
  maxCount_fold blocks 0

theorem maxCount_fold_attained (blocks : List ProfileBlock) :
    ∀ init : Int,
      blocks.foldl (fun max b => if b.Count > max then b.Count else max) init = init ∨
      ∃ b ∈ blocks,
        b.Count = blocks.foldl (fun max b => if b.Count > max then b.Count else max) init := by
  induction blocks with
  | nil => intro init; exact Or.inl rfl
  | cons x xs ih =>
    intro init
    simp only [List.foldl_cons]
    rcases ih (if x.Count > init then x.Count else init) with h | ⟨b, hb, h⟩
    · rw [h]
      split
      · exact Or.inr ⟨x, List.mem_cons_self _ _, rfl⟩
      · exact Or.inl rfl
    · exact Or.inr ⟨b, List.mem_cons_of_mem _ hb, h⟩

theorem maxCount_attained (blocks : List ProfileBlock) :
    maxCount blocks = 0 ∨ ∃ b ∈ blocks, b.Count = maxCount blocks :=
  maxCount_fold_attained blocks 0

theorem boundary_norm (log : Int → F64) (hlog : LogContract log) (max index offset : Int)
    (start : Bool) (count : Int) (h0 : 0 ≤ count) (hmax : count ≤ max) :
    ∃ q, (boundary log max index offset start count).Norm = .fin q ∧ 0 ≤ q ∧ q ≤ 1 ∧
      (start = true → count > 0 → max ≤ 1 → q = 4 / 5) ∧
      (start = true → count > 0 → 1 < max →
        ∃ a m : ℚ, log count = .fin a ∧ log max = .fin m ∧ 0 < m ∧ q = a / m) ∧
      (¬ (start = true ∧ count > 0) → q = 0) := by
  unfold boundary
  simp only
  split
  · rename_i h
    refine ⟨0, rfl, le_refl _, by norm_num, ?_, ?_, fun _ => rfl⟩
    · intro hs hc
      simp only [Bool.or_eq_true, Bool.not_eq_true', beq_iff_eq] at h
      rcases h with h | h
      · rw [hs] at h; cases h
      · omega
    · intro hs hc
      simp only [Bool.or_eq_true, Bool.not_eq_true', beq_iff_eq] at h
      rcases h with h | h
      · rw [hs] at h; cases h
      · omega
  · rename_i h
    simp only [Bool.or_eq_true, Bool.not_eq_true', beq_iff_eq, not_or] at h
    have hs : start = true := by
      cases start with
      | true => rfl
      | false => exact absurd rfl h.1
    have hc : 0 < count := by omega
    split
    · rename_i hm
      refine ⟨4 / 5, rfl, by norm_num, by norm_num, fun _ _ _ => rfl, ?_, ?_⟩
      · intro _ _ h1; omega
      · intro hn
        exact absurd ⟨hs, hc⟩ hn
    · rename_i hm
      have hm2 : 2 ≤ max := by omega
      obtain ⟨qc, hqc, hqc0⟩ := hlog.finite count (by omega)
      obtain ⟨qm, hqm, _⟩ := hlog.finite max (by omega)
      have hpos : 0 < qm := hlog.pos max qm hm2 hqm
      have hle : qc ≤ qm := hlog.mono count max qc qm (by omega) hmax hqc hqm
      have hdiv : F64.div (log count) (log max) = .fin (qc / qm) := by
        rw [hqc, hqm]
        simp [F64.div, ne_of_gt hpos]
      refine ⟨qc / qm, ?_, div_nonneg hqc0 (le_of_lt hpos),
        (div_le_one hpos).mpr hle, ?_, fun _ _ _ => ⟨qc, qm, hqc, hqm, hpos, rfl⟩, ?_⟩
      · exact hdiv
      · intro _ _ h1; omega
      · intro hn
        exact absurd ⟨hs, hc⟩ hn

theorem classIndex_range (x : Boundary) (q : ℚ) (hn : x.Norm = .fin q) (h0 : 0 ≤ q)
    (h1 : q ≤ 1) (hc : 0 ≤ x.Count) :
    classIndex x = (if x.Count > 0 then Int.floor (q * 9) + 1 else 0) ∧
    0 ≤ classIndex x ∧ classIndex x ≤ 10 ∧ (classIndex x = 0 ↔ x.Count = 0) := by
  unfold classIndex
  by_cases hpos : x.Count > 0
  · have hf0 : 0 ≤ Int.floor (q * 9) := Int.floor_nonneg.mpr (by positivity)
    have hf9 : Int.floor (q * 9) ≤ 9 := by
      have : q * 9 ≤ ((9 : Int) : ℚ) := by
        have := mul_le_mul_of_nonneg_right h1 (by norm_num : (0 : ℚ) ≤ 9)
        simpa using this
      exact (Int.floor_le_floor this).trans (le_of_eq (Int.floor_intCast 9))
    have hval : floatToInt (F64.floor (F64.mul x.Norm (.fin 9))) = Int.floor (q * 9) := by
      rw [hn]
      simp only [F64.mul, F64.floor, floatToInt, Int.floor_intCast, maxInt]
      rw [if_pos]
      constructor <;> omega
    rw [if_pos hpos, hval, wrapInt_of_range _ (by omega) (by unfold maxInt; omega)]
    refine ⟨(if_pos hpos).symm, by omega, by omega, ?_⟩
    constructor
    · intro h; omega
    · intro h; omega
  · rw [if_neg hpos]
    refine ⟨(if_neg hpos).symm, le_refl _, by norm_num, ?_⟩
    constructor
    · intro _; omega
    · intro _; rfl

/-- C17: with a logarithm that meets `LogContract` and counts that are not negative,
`max` is the greatest count of the profile (no count is above it, and it is the count
of a block or 0), and every boundary that `Boundaries` returns has a norm between 0 and
1: 0.8 for a Start boundary with a positive count when the greatest count is at most 1,
`log(Count) / log(max)` for a Start boundary with a positive count otherwise, and 0 for
every other boundary; the class index that `htmlGen` computes is `⌊Norm·9⌋ + 1` for a
positive count and 0 otherwise, it lies between 0 and 10 and is 0 exactly when the
count is 0. -/
theorem Boundaries_norm (log : Int → F64) (hlog : LogContract log) (p : Profile)
    (src : List Nat) (hcount : ∀ b ∈ p.Blocks, 0 ≤ b.Count) :
    (∀ b ∈ p.Blocks, b.Count ≤ maxCount p.Blocks) ∧
    (maxCount p.Blocks = 0 ∨ ∃ b ∈ p.Blocks, b.Count = maxCount p.Blocks) ∧
    ∀ x ∈ Boundaries log p src, ∃ q, x.Norm = .fin q ∧ 0 ≤ q ∧ q ≤ 1 ∧
      (x.Start = true → x.Count > 0 → maxCount p.Blocks ≤ 1 → q = 4 / 5) ∧
      (x.Start = true → x.Count > 0 → 1 < maxCount p.Blocks →
        ∃ a m : ℚ, log x.Count = .fin a ∧ log (maxCount p.Blocks) = .fin m ∧ 0 < m ∧
          q = a / m) ∧
      (¬ (x.Start = true ∧ x.Count > 0) → q = 0) ∧
      classIndex x = (if x.Count > 0 then Int.floor (q * 9) + 1 else 0) ∧
      0 ≤ classIndex x ∧ classIndex x ≤ 10 ∧ (classIndex x = 0 ↔ x.Count = 0) := by
  obtain ⟨hm0, hmax⟩ := maxCount_ge p.Blocks
  refine ⟨hmax, maxCount_attained p.Blocks, ?_⟩
  intro x hx
  rw [Boundaries_eq_walk] at hx
  obtain ⟨_, _, _, h4⟩ := walkBlocks_spec log (maxCount p.Blocks) p.Blocks
    { line := 1, col := 2, si := 0, index := 0, src := src }
  rcases h4 x hx with ⟨blk, hb, idx, off, rfl⟩ | ⟨idx, off, rfl⟩
  · obtain ⟨q, hq, hq0, hq1, ha, hb', hc⟩ :=
      boundary_norm log hlog (maxCount p.Blocks) idx off true blk.Count
        (hcount blk hb) (hmax blk hb)
    have hf := boundary_fields log (maxCount p.Blocks) idx off true blk.Count
    refine ⟨q, hq, hq0, hq1, ?_, ?_, ?_, classIndex_range _ q hq hq0 hq1 ?_⟩
    · intro _ h2 h3
      rw [hf.2.2.1] at h2
      exact ha rfl h2 h3
    · intro _ h2 h3
      rw [hf.2.2.1] at h2 ⊢
      exact hb' rfl h2 h3
    · intro h
      apply hc
      rw [hf.2.1, hf.2.2.1] at h
      exact h
    · rw [hf.2.2.1]
      exact hcount blk hb
  · obtain ⟨q, hq, hq0, hq1, ha, hb', hc⟩ :=
      boundary_norm log hlog (maxCount p.Blocks) idx off false 0 (le_refl _) hm0
    have hf := boundary_fields log (maxCount p.Blocks) idx off false 0
    refine ⟨q, hq, hq0, hq1, ?_, ?_, ?_, classIndex_range _ q hq hq0 hq1 ?_⟩
    · intro h1
      rw [hf.2.1] at h1
      cases h1
    · intro h1
      rw [hf.2.1] at h1
      cases h1
    · intro _
      exact hc (fun h => by cases h.1)
    · rw [hf.2.2.1]

theorem floorLog2_contract : LogContract floorLog2 where
  finite := fun n _ => ⟨_, rfl, by positivity⟩
  mono := by
    intro m n q r _ hmn hq hr
    simp only [floorLog2, F64.fin.injEq] at hq hr
    rw [← hq, ← hr]
    exact_mod_cast Nat.log_mono_right (Int.toNat_le_toNat hmn)
  pos := by
    intro n q hn hq
    simp only [floorLog2, F64.fin.injEq] at hq
    rw [← hq]
    have : 2 ≤ n.toNat := by omega
    exact_mod_cast Nat.log_pos (by norm_num) this

/-- Instance of C17: the block of the example with count 3 and a second block with
count 0; the greatest count is 3, and there are four boundaries. -/
theorem Boundaries_norm_witness :
    (LogContract floorLog2 ∧
      ∀ b ∈ [(⟨1, 2, 2, 2, 1, 3⟩ : ProfileBlock), ⟨2, 3, 2, 4, 1, 0⟩], 0 ≤ b.Count) ∧
    ((∀ b ∈ [(⟨1, 2, 2, 2, 1, 3⟩ : ProfileBlock), ⟨2, 3, 2, 4, 1, 0⟩],
        b.Count ≤ maxCount [⟨1, 2, 2, 2, 1, 3⟩, ⟨2, 3, 2, 4, 1, 0⟩]) ∧
      (maxCount [⟨1, 2, 2, 2, 1, 3⟩, ⟨2, 3, 2, 4, 1, 0⟩] = 0 ∨
        ∃ b ∈ [(⟨1, 2, 2, 2, 1, 3⟩ : ProfileBlock), ⟨2, 3, 2, 4, 1, 0⟩],
          b.Count = maxCount [⟨1, 2, 2, 2, 1, 3⟩, ⟨2, 3, 2, 4, 1, 0⟩])) ∧
    maxCount [⟨1, 2, 2, 2, 1, 3⟩, ⟨2, 3, 2, 4, 1, 0⟩] = 3 ∧
    (Boundaries floorLog2
        ⟨"f.go".toList, "count".toList, [⟨1, 2, 2, 2, 1, 3⟩, ⟨2, 3, 2, 4, 1, 0⟩]⟩
        (bytesOf "ab\ncdef".toList)).map
      (fun x => (x.Offset, x.Start, x.Count)) =
      [(0, true, 3), (4, false, 0), (5, true, 0), (6, false, 0)] :=
  ⟨⟨floorLog2_contract, by decide⟩,
   ⟨(Boundaries_norm floorLog2 floorLog2_contract
      ⟨"f.go".toList, "count".toList, [⟨1, 2, 2, 2, 1, 3⟩, ⟨2, 3, 2, 4, 1, 0⟩]⟩
      (bytesOf "ab\ncdef".toList) (by decide)).1,
    (Boundaries_norm floorLog2 floorLog2_contract
      ⟨"f.go".toList, "count".toList, [⟨1, 2, 2, 2, 1, 3⟩, ⟨2, 3, 2, 4, 1, 0⟩]⟩
      (bytesOf "ab\ncdef".toList) (by decide)).2.1⟩,
   by decide, by decide⟩

/-! ## The metrics store -/

theorem mem_insertNode {α : Type} (x : Node α) (s : SortedSet α) (n : Node α) :
    n ∈ insertNode x s ↔ n = x ∨ n ∈ s := by
  induction s with
  | nil => simp [insertNode]
  | cons y ys ih =>
    simp only [insertNode]
    split
    · simp
    · simp only [List.mem_cons, ih]
      tauto

theorem mem_Remove {α : Type} (s : SortedSet α) (key : Str) (n : Node α) :
    n ∈ s.Remove key ↔ n ∈ s ∧ n.key ≠ key := by
  simp [SortedSet.Remove, List.mem_filter]

theorem mem_AddOrUpdate {α : Type} (s : SortedSet α) (key : Str) (score : Int) (value : α)
    (n : Node α) :
    n ∈ s.AddOrUpdate key score value ↔
      n = { key := key, score := score, value := value } ∨ (n ∈ s ∧ n.key ≠ key) := by
  simp only [SortedSet.AddOrUpdate, mem_insertNode, mem_Remove]

theorem GetByKey_some {α : Type} (s : SortedSet α) (key : Str) (n : Node α)
    (h : s.GetByKey key = some n) : n ∈ s ∧ n.key = key := by
  simp only [SortedSet.GetByKey] at h
  refine ⟨List.mem_of_find?_eq_some h, ?_⟩
  have := List.find?_some h
  simpa using this

theorem mem_GetByScoreRange {α : Type} (s : SortedSet α) (start stop : Int) (n : Node α) :
    n ∈ s.GetByScoreRange start stop ↔
      n ∈ s ∧ ((start ≤ stop ∧ start ≤ n.score ∧ n.score ≤ stop) ∨
        (stop < start ∧ stop ≤ n.score ∧ n.score ≤ start)) := by
  simp only [SortedSet.GetByScoreRange]
  split
  · rename_i h
    simp only [List.mem_filter, Bool.and_eq_true, decide_eq_true_eq]
    constructor
    · rintro ⟨h1, h2⟩
      exact ⟨h1, Or.inl ⟨h, h2⟩⟩
    · rintro ⟨h1, h2 | h2⟩
      · exact ⟨h1, h2.2⟩
      · omega
  · rename_i h
    simp only [List.mem_reverse, List.mem_filter, Bool.and_eq_true, decide_eq_true_eq]
    constructor
    · rintro ⟨h1, h2⟩
      exact ⟨h1, Or.inr ⟨by omega, h2⟩⟩
    · rintro ⟨h1, h2 | h2⟩
      · omega
      · exact ⟨h1, h2.2⟩

theorem mem_foldl_Remove {α : Type} (nodes : List (Node α)) :
    ∀ (m : SortedSet α) (n : Node α),
      n ∈ nodes.foldl (fun m node => m.Remove node.key) m →
      n ∈ m ∧ ∀ x ∈ nodes, n.key ≠ x.key := by
  induction nodes with
  | nil => intro m n h; exact ⟨h, by simp⟩
  | cons y ys ih =>
    intro m n h
    simp only [List.foldl_cons] at h
    obtain ⟨h1, h2⟩ := ih _ n h
    rw [mem_Remove] at h1
    refine ⟨h1.1, ?_⟩
    intro x hx
    rcases List.mem_cons.mp hx with hx | hx
    · subst hx; exact h1.2
    · exact h2 x hx

/-- The nodes that `ClearOld` leaves, when no score is negative: the nodes with a score
above the clock minus 24 hours. -/
theorem mem_ClearOld (m : MetricsStore) (now : Int) (n : Node (SortedSet MetricsData))
    (h : n ∈ ClearOld m now) (h0 : 0 ≤ n.score) : n ∈ m ∧ now - 24 * 3600 < n.score := by
  obtain ⟨h1, h2⟩ := mem_foldl_Remove _ m n h
  refine ⟨h1, ?_⟩
  by_contra hle
  have hin : n ∈ m.GetByScoreRange 0 (now - 24 * 3600) := by
    rw [mem_GetByScoreRange]
    exact ⟨h1, Or.inl ⟨by omega, h0, by omega⟩⟩
  exact h2 n hin rfl

theorem lastSave_append (saves : List (MetricsData × Int)) (s : MetricsData × Int)
    (name : Str) :
    lastSave (saves ++ [s]) name = if s.1.Name = name then some s.2 else lastSave saves name := by
  simp only [lastSave, List.reverse_append, List.reverse_cons, List.reverse_nil,
    List.nil_append, List.singleton_append, List.find?_cons]
  by_cases h : s.1.Name = name
  · simp [h]
  · simp [h]

/-- Every node of the store after a sequence of saves carries the clock value of the
last save of its service. -/
theorem applySaves_inv (saves : List (MetricsData × Int)) :
    ∀ n ∈ applySaves [] saves, lastSave saves n.key = some n.score := by
  induction saves using List.reverseRecOn with
  | nil => intro n hn; simp [applySaves] at hn
  | append_singleton saves s ih =>
    intro n hn
    simp only [applySaves, List.foldl_append, List.foldl_cons, List.foldl_nil] at hn
    simp only [SaveMetricsData] at hn
    rw [mem_AddOrUpdate] at hn
    have hname : (if s.1.Ts = 0 then { s.1 with Ts := s.2 } else s.1).Name = s.1.Name := by
      split <;> rfl
    rw [hname] at hn
    rw [lastSave_append]
    rcases hn with hn | ⟨hn, hkey⟩
    · rw [hn]
      simp
    · rw [if_neg (fun h => hkey h.symm)]
      exact ih n hn

theorem lastSave_pos (saves : List (MetricsData × Int)) (hnow : ∀ s ∈ saves, 0 < s.2)
    (name : Str) (t : Int) (h : lastSave saves name = some t) : 0 < t := by
  unfold lastSave at h
  cases hf : saves.reverse.find? (fun s => decide (s.1.Name = name)) with
  | none => rw [hf] at h; exact Option.noConfusion h
  | some s =>
    rw [hf] at h
    have hs : s.2 = t := Option.some.inj h
    rw [← hs]
    exact hnow s (List.mem_reverse.mp (List.mem_of_find?_eq_some hf))

theorem GetByKey_Remove {α : Type} (s : SortedSet α) (key name : Str) (h : key ≠ name) :
    (s.Remove key).GetByKey name = s.GetByKey name := by
  induction s with
  | nil => rfl
  | cons n rest ih =>
    simp only [SortedSet.Remove, SortedSet.GetByKey] at ih ⊢
    by_cases hk : n.key = key
    · have hn : ¬ n.key = name := fun hn => h (hk.symm.trans hn)
      rw [List.filter_cons_of_neg (by simp [hk]), List.find?_cons_of_neg _ (by simp [hn])]
      exact ih
    · rw [List.filter_cons_of_pos (by simp [hk])]
      by_cases hn : n.key = name
      · rw [List.find?_cons_of_pos _ (by simp [hn]), List.find?_cons_of_pos _ (by simp [hn])]
      · rw [List.find?_cons_of_neg _ (by simp [hn]), List.find?_cons_of_neg _ (by simp [hn])]
        exact ih

theorem GetByKey_foldl_Remove {α : Type} (name : Str) (nodes : List (Node α)) :
    ∀ (m : SortedSet α), (∀ x ∈ nodes, x.key ≠ name) →
      (nodes.foldl (fun m node => m.Remove node.key) m).GetByKey name = m.GetByKey name := by
  induction nodes with
  | nil => intro m _; rfl
  | cons y ys ih =>
    intro m h
    simp only [List.foldl_cons]
    rw [ih _ (fun x hx => h x (List.mem_cons_of_mem _ hx))]
    exact GetByKey_Remove m y.key name (h y (List.mem_cons_self _ _))

/-- C20 (amended): after a sequence of `SaveMetricsData` calls at positive clock values
and `ClearOld` at the time `T`, `GetMetricsData(name, beg, end)` returns
what it returned before `ClearOld` when the last save of the service `name` happened
less than 24 hours before `T`, and nothing otherwise: `ClearOld` removes whole services
by the time of their last save and never looks at the `Ts` of an entry. -/
theorem ClearOld_retention (saves : List (MetricsData × Int))
    (hnow : ∀ s ∈ saves, 0 < s.2) (T : Int) (name : Str) (beg stop : Int) :
    GetMetricsData (ClearOld (applySaves [] saves) T) name beg stop =
      match lastSave saves name with
      | some t =>
        if T - 24 * 3600 < t then GetMetricsData (applySaves [] saves) name beg stop else []
      | none => [] := by
  have hgone : ∀ t, lastSave saves name = some t → ¬ T - 24 * 3600 < t →
      (ClearOld (applySaves [] saves) T).GetByKey name = none := by
    intro t ht hlt
    cases hg : (ClearOld (applySaves [] saves) T).GetByKey name with
    | none => rfl
    | some snode =>
      exfalso
      obtain ⟨hmem, hkey⟩ := GetByKey_some _ name snode hg
      obtain ⟨hm, _⟩ := mem_foldl_Remove _ _ snode hmem
      have hinv := applySaves_inv saves snode hm
      rw [hkey, ht] at hinv
      have hsc : snode.score = t := (Option.some.inj hinv).symm
      have h0 : 0 ≤ snode.score := by
        rw [hsc]; exact le_of_lt (lastSave_pos saves hnow name t ht)
      have := (mem_ClearOld _ T snode hmem h0).2
      omega
  cases hl : lastSave saves name with
  | none =>
    simp only [GetMetricsData]
    cases hg : (ClearOld (applySaves [] saves) T).GetByKey name with
    | none => rfl
    | some snode =>
      exfalso
      obtain ⟨hmem, hkey⟩ := GetByKey_some _ name snode hg
      obtain ⟨hm, _⟩ := mem_foldl_Remove _ _ snode hmem
      have hinv := applySaves_inv saves snode hm
      rw [hkey, hl] at hinv
      exact Option.noConfusion hinv
  | some t =>
    simp only
    split
    · rename_i hlt
      have hkeep : (ClearOld (applySaves [] saves) T).GetByKey name =
          (applySaves [] saves).GetByKey name := by
        apply GetByKey_foldl_Remove
        intro x hx hxk
        rw [mem_GetByScoreRange] at hx
        have hinv := applySaves_inv saves x hx.1
        rw [hxk, hl] at hinv
        have hsc : x.score = t := (Option.some.inj hinv).symm
        have hpos := lastSave_pos saves hnow name t hl
        rcases hx.2 with h | h <;> omega
      simp only [GetMetricsData, hkeep]
    · rename_i hlt
      simp only [GetMetricsData, hgone t hl hlt]

/-- C20 as stated fails: a service is saved at the times 1000 and 100000, and after
`ClearOld` at the time 100000 its entry with `Ts` 1000, which is 99000 seconds and so
more than 24 hours before, is still returned. -/
theorem ClearOld_retention_counterexample :
    (GetMetricsData
        (ClearOld
          (applySaves []
            [(metricsAt "svc".toList 1000, 1000), (metricsAt "svc".toList 100000, 100000)])
          100000)
        "svc".toList 0 100000).map (fun md => md.Ts) = [1000, 100000] ∧
    (24 * 3600 : Int) < 100000 - 1000 := by
  decide

/-- Instance of C20: the service `old` was last saved at the time 1000 and `svc` at
the time 100000; after `ClearOld` at the time 100000 nothing is returned for `old`. -/
theorem ClearOld_retention_witness :
    (∀ s ∈ [(metricsAt "old".toList 1000, (1000 : Int)),
        (metricsAt "svc".toList 100000, 100000)], 0 < s.2) ∧
    GetMetricsData
        (ClearOld
          (applySaves []
            [(metricsAt "old".toList 1000, 1000), (metricsAt "svc".toList 100000, 100000)])
          100000)
        "old".toList 0 100000 = [] :=
  ⟨by decide,
   (ClearOld_retention
      [(metricsAt "old".toList 1000, 1000), (metricsAt "svc".toList 100000, 100000)]
      (by decide) 100000 "old".toList 0 100000).trans (by decide)⟩

/-! ## The liveness list -/

theorem foldl_Remove_eq_filter {α : Type} (nodes : List (Node α)) :
    ∀ l : SortedSet α,
      nodes.foldl (fun l node => l.Remove node.key) l =
        l.filter (fun n => !nodes.any (fun x => decide (n.key = x.key))) := by
  induction nodes with
  | nil => intro l; simp
  | cons y ys ih =>
    intro l
    rw [List.foldl_cons, ih]
    simp only [SortedSet.Remove, List.filter_filter, List.any_cons]
    apply List.filter_congr
    intro n _
    cases h1 : decide (n.key = y.key) <;> simp

theorem mem_foldl_Remove_iff {α : Type} (nodes : List (Node α)) (l : SortedSet α)
    (n : Node α) :
    n ∈ nodes.foldl (fun l node => l.Remove node.key) l ↔
      n ∈ l ∧ ∀ x ∈ nodes, n.key ≠ x.key := by
  rw [foldl_Remove_eq_filter]
  simp [List.mem_filter]

theorem eq_of_key_eq {α : Type} (l : SortedSet α)
    (hkeys : (l.map (fun n => n.key)).Nodup) (a b : Node α) (ha : a ∈ l) (hb : b ∈ l)
    (h : a.key = b.key) : a = b :=
  List.inj_on_of_nodup_map hkeys ha hb h

theorem GetByScoreRange_keys_nodup {α : Type} (l : SortedSet α)
    (hkeys : (l.map (fun n => n.key)).Nodup) (start stop : Int) :
    ((l.GetByScoreRange start stop).map (fun n => n.key)).Nodup := by
  simp only [SortedSet.GetByScoreRange]
  split
  · exact hkeys.sublist ((List.filter_sublist l).map _)
  · rw [List.map_reverse, List.nodup_reverse]
    exact hkeys.sublist ((List.filter_sublist l).map _)

theorem insertNode_perm {α : Type} (x : Node α) (s : SortedSet α) :
    List.Perm (insertNode x s) (x :: s) := by
  induction s with
  | nil => exact List.Perm.refl _
  | cons n rest ih =>
    simp only [insertNode]
    split
    · exact List.Perm.refl _
    · exact (List.Perm.cons n ih).trans (List.Perm.swap x n rest)

theorem AddOrUpdate_keys_nodup {α : Type} (s : SortedSet α) (key : Str) (score : Int)
    (value : α) (h : (s.map (fun n => n.key)).Nodup) :
    ((s.AddOrUpdate key score value).map (fun n => n.key)).Nodup := by
  simp only [SortedSet.AddOrUpdate]
  rw [((insertNode_perm _ _).map (fun n => n.key)).nodup_iff]
  simp only [List.map_cons, List.nodup_cons]
  refine ⟨?_, h.sublist ((List.filter_sublist s).map _)⟩
  intro hin
  obtain ⟨n, hn, hk⟩ := List.mem_map.mp hin
  exact ((mem_Remove s key n).mp hn).2 hk

/-- The list `s.List` of a server whose clock has shown positive times only holds one
node for an address, and its timestamps are positive. -/
theorem livenessAfter_invariant (events : List LivenessEvent)
    (hclock : ∀ e ∈ events, 0 < e.clock) :
    ((livenessAfter events).map (fun n => n.key)).Nodup ∧
    ∀ n ∈ livenessAfter events, 0 < n.score := by
  induction events using List.reverseRecOn with
  | nil => simp [livenessAfter]
  | append_singleton events e ih =>
    obtain ⟨h1, h2⟩ := ih (fun x hx => hclock x (List.mem_append_left _ hx))
    have he := hclock e (List.mem_append_right _ (List.mem_singleton_self e))
    have hstep : livenessAfter (events ++ [e]) = livenessStep (livenessAfter events) e := by
      simp only [livenessAfter, List.foldl_append, List.foldl_cons, List.foldl_nil]
    rw [hstep]
    generalize livenessAfter events = L at h1 h2
    cases e with
    | alive address now =>
      simp only [livenessStep, markAlive, LivenessEvent.clock] at he ⊢
      refine ⟨AddOrUpdate_keys_nodup _ address now () h1, ?_⟩
      intro n hn
      rcases (mem_AddOrUpdate _ _ _ _ n).mp hn with hn | hn
      · rw [hn]; exact he
      · exact h2 n hn.1
    | tick now =>
      simp only [livenessStep, keepAliveTick, foldl_Remove_eq_filter]
      refine ⟨h1.sublist ((List.filter_sublist _).map _), ?_⟩
      intro n hn
      exact h2 n (List.mem_of_mem_filter hn)

/-- C22: one round of `KeepAliveWorker` at the time `T`, on a liveness list as the
server keeps it (one node for an address, positive timestamps: `livenessAfter_invariant`),
leaves no node for an address last seen more than 5 minutes before `T`, keeps the node
of every address last seen less than 5 minutes before `T` as it is, adds nothing, and
calls `Store.Remove` once for each address that it has taken off the list and for no
other address. -/
theorem keepAliveTick_evicts (list : SortedSet Unit) (T : Int)
    (hkeys : (list.map (fun n => n.key)).Nodup) (hpos : ∀ n ∈ list, 0 < n.score) :
    (∀ n ∈ list, n.score < T - 5 * 60 → ∀ x ∈ (keepAliveTick list T).1, x.key ≠ n.key) ∧
    (∀ n ∈ list, T - 5 * 60 < n.score → n ∈ (keepAliveTick list T).1) ∧
    List.Sublist (keepAliveTick list T).1 list ∧
    (∀ addr, addr ∈ (keepAliveTick list T).2 ↔
      (∃ n ∈ list, n.key = addr) ∧ ∀ x ∈ (keepAliveTick list T).1, x.key ≠ addr) ∧
    (keepAliveTick list T).2.Nodup := by
  refine ⟨?_, ?_, ?_, ?_, ?_⟩
  · intro n hn hold x hx
    simp only [keepAliveTick, mem_foldl_Remove_iff] at hx
    apply hx.2 n
    rw [mem_GetByScoreRange]
    have := hpos n hn
    exact ⟨hn, Or.inl ⟨by omega, by omega, by omega⟩⟩
  · intro n hn hnew
    simp only [keepAliveTick, mem_foldl_Remove_iff]
    refine ⟨hn, ?_⟩
    intro x hx hk
    rw [mem_GetByScoreRange] at hx
    have hxn : n = x := eq_of_key_eq list hkeys n x hn hx.1 hk
    have := hpos n hn
    rw [← hxn] at hx
    rcases hx.2 with h | h <;> omega
  · simp only [keepAliveTick, foldl_Remove_eq_filter]
    exact List.filter_sublist list
  · intro addr
    simp only [keepAliveTick, List.mem_map, mem_foldl_Remove_iff]
    constructor
    · rintro ⟨x, hx, rfl⟩
      refine ⟨⟨x, ((mem_GetByScoreRange list _ _ x).mp hx).1, rfl⟩, ?_⟩
      intro y hy
      exact hy.2 x hx
    · rintro ⟨⟨n, hn, rfl⟩, hgone⟩
      by_contra hno
      apply hgone n ⟨hn, ?_⟩ rfl
      intro x hx hk
      exact hno ⟨x, hx, hk.symm⟩
  · simp only [keepAliveTick]
    exact GetByScoreRange_keys_nodup list hkeys 0 _

/-- Scores that the clock never gives are outside the invariant: the round asks the
list for the scores from 0 on, so a node with the score -5 stays on the list at the
time 1000, and for a time below 300 the bounds of the range are in reverse order and a
node with the score 0 is taken off the list at the time 100. -/
theorem keepAliveTick_outside_invariant :
    (keepAliveTick [⟨"a".toList, -5, ()⟩] 1000).1.map (fun n => (n.key, n.score)) =
      [("a".toList, -5)] ∧
    (keepAliveTick [⟨"a".toList, -5, ()⟩] 1000).2 = [] ∧
    (keepAliveTick [⟨"a".toList, 0, ()⟩] 100).1.map (fun n => (n.key, n.score)) = [] ∧
    (keepAliveTick [⟨"a".toList, 0, ()⟩] 100).2 = ["a".toList] := by
  decide

/-- Instance of C22: the addresses `a`, `b` and `c` are registered at the times 100,
600 and 701; the round at the time 1000 takes `a` and `b` off the list, calls
`Store.Remove` for them, and leaves `c` with its time. -/
theorem keepAliveTick_evicts_witness :
    (((livenessAfter [.alive "a".toList 100, .alive "b".toList 600,
        .alive "c".toList 701]).map (fun n => n.key)).Nodup ∧
      ∀ n ∈ livenessAfter [.alive "a".toList 100, .alive "b".toList 600,
        .alive "c".toList 701], 0 < n.score) ∧
    (keepAliveTick
      (livenessAfter [.alive "a".toList 100, .alive "b".toList 600, .alive "c".toList 701])
      1000).2.Nodup ∧
    (keepAliveTick
      (livenessAfter [.alive "a".toList 100, .alive "b".toList 600, .alive "c".toList 701])
      1000).2 = ["a".toList, "b".toList] ∧
    (keepAliveTick
      (livenessAfter [.alive "a".toList 100, .alive "b".toList 600, .alive "c".toList 701])
      1000).1.map (fun n => (n.key, n.score)) = [("c".toList, 701)] :=
  ⟨⟨by decide, by decide⟩,
   (keepAliveTick_evicts
      (livenessAfter [.alive "a".toList 100, .alive "b".toList 600, .alive "c".toList 701])
      1000 (by decide) (by decide)).2.2.2.2,
   by decide, by decide⟩

/-! ## The store behind the timeline -/

theorem insertNode_sorted {α : Type} (x : Node α) (s : SortedSet α)
    (hs : s.Pairwise (fun a b => a.score < b.score)) (hx : ∀ n ∈ s, n.score ≠ x.score) :
    (insertNode x s).Pairwise (fun a b => a.score < b.score) := by
  induction s with
  | nil => simp [insertNode]
  | cons n rest ih =>
    have hn := hx n (List.mem_cons_self _ _)
    have hrest := List.pairwise_cons.mp hs
    simp only [insertNode]
    split
    · rename_i hb
      have hlt : x.score < n.score := by
        simp only [nodeBefore, Bool.or_eq_true, Bool.and_eq_true, decide_eq_true_eq] at hb
        rcases hb with hb | hb
        · exact hb
        · exact absurd hb.1.symm hn
      refine List.pairwise_cons.mpr ⟨?_, hs⟩
      intro a ha
      rcases List.mem_cons.mp ha with ha | ha
      · rw [ha]; exact hlt
      · exact lt_trans hlt (hrest.1 a ha)
    · rename_i hb
      have hlt : n.score < x.score := by
        simp only [nodeBefore, Bool.or_eq_true, Bool.and_eq_true, decide_eq_true_eq,
          not_or] at hb
        have := hb.1
        omega
      refine List.pairwise_cons.mpr ⟨?_, ih hrest.2 (fun a ha => hx a (List.mem_cons_of_mem _ ha))⟩
      intro a ha
      rcases (mem_insertNode x rest a).mp ha with ha | ha
      · rw [ha]; exact hlt
      · exact hrest.1 a ha

/-- The invariant of an inner set of the store. -/
theorem inner_AddOrUpdate (s : SortedSet MetricsData) (md : MetricsData)
    (h1 : ∀ n ∈ s, n.key = formatInt n.score ∧ n.value.Ts = n.score)
    (h2 : s.Pairwise (fun a b => a.score < b.score)) :
    (∀ n ∈ s.AddOrUpdate (formatInt md.Ts) md.Ts md,
      n.key = formatInt n.score ∧ n.value.Ts = n.score) ∧
    (s.AddOrUpdate (formatInt md.Ts) md.Ts md).Pairwise (fun a b => a.score < b.score) := by
  constructor
  · intro n hn
    rcases (mem_AddOrUpdate s _ _ _ n).mp hn with hn | hn
    · rw [hn]; exact ⟨rfl, rfl⟩
    · exact h1 n hn.1
  · simp only [SortedSet.AddOrUpdate]
    apply insertNode_sorted
    · exact h2.sublist (List.filter_sublist s)
    · intro n hn hsc
      rw [mem_Remove] at hn
      apply hn.2
      rw [(h1 n hn.1).1, hsc]

theorem StoreWF_nil : StoreWF [] := by
  intro snode h
  simp at h

theorem StoreWF_SaveMetricsData (m : MetricsStore) (hwf : StoreWF m) (md : Option MetricsData)
    (now : Int) : StoreWF (SaveMetricsData m md now) := by
  cases md with
  | none => exact hwf
  | some md =>
    intro snode hs
    simp only [SaveMetricsData] at hs
    rcases (mem_AddOrUpdate m _ _ _ snode).mp hs with hs | hs
    · rw [hs]
      simp only
      cases hg : SortedSet.GetByKey m (if md.Ts = 0 then { md with Ts := now } else md).Name with
      | none => exact inner_AddOrUpdate [] _ (by simp) List.Pairwise.nil
      | some old =>
        have ho := hwf old (GetByKey_some m _ old hg).1
        exact inner_AddOrUpdate old.value _ ho.1 ho.2
    · exact hwf snode hs.1

theorem StoreWF_ClearOld (m : MetricsStore) (hwf : StoreWF m) (now : Int) :
    StoreWF (ClearOld m now) := by
  intro snode hs
  exact hwf snode (mem_foldl_Remove _ m snode hs).1

theorem StoreWF_applySaves (saves : List (MetricsData × Int)) :
    ∀ m : MetricsStore, StoreWF m → StoreWF (applySaves m saves) := by
  induction saves with
  | nil => intro m h; exact h
  | cons s rest ih =>
    intro m h
    simp only [applySaves, List.foldl_cons]
    exact ih _ (StoreWF_SaveMetricsData m h (some s.1) s.2)

/-- What `GetMetricsData` returns from a well-formed store for a range that is not
empty: the entries of the service with `Ts` in the range, in the order of `Ts`. -/
theorem GetMetricsData_spec (m : MetricsStore) (hwf : StoreWF m) (name : Str)
    (beg stop : Int) (hle : beg ≤ stop) :
    (GetMetricsData m name beg stop).Pairwise (fun x y => x.Ts < y.Ts) ∧
    ∀ md, md ∈ GetMetricsData m name beg stop ↔
      md ∈ storeEntries m name ∧ beg ≤ md.Ts ∧ md.Ts ≤ stop := by
  simp only [GetMetricsData, storeEntries]
  cases hg : m.GetByKey name with
  | none => simp
  | some snode =>
    obtain ⟨h1, h2⟩ := hwf snode (GetByKey_some m name snode hg).1
    simp only [SortedSet.GetByScoreRange, if_pos hle]
    constructor
    · rw [List.pairwise_map]
      have hsub : (snode.value.filter
          (fun n => decide (beg ≤ n.score) && decide (n.score ≤ stop))).Pairwise
          (fun a b => a.score < b.score) := h2.sublist (List.filter_sublist _)
      refine hsub.imp_of_mem ?_
      intro a b ha hb hab
      rw [(h1 a (List.mem_of_mem_filter ha)).2, (h1 b (List.mem_of_mem_filter hb)).2]
      exact hab
    · intro md
      simp only [List.mem_map, List.mem_filter, Bool.and_eq_true, decide_eq_true_eq]
      constructor
      · rintro ⟨n, ⟨hn, hr⟩, rfl⟩
        rw [(h1 n hn).2]
        exact ⟨⟨n, hn, rfl⟩, hr⟩
      · rintro ⟨⟨n, hn, rfl⟩, hr⟩
        rw [(h1 n hn).2] at hr
        exact ⟨n, ⟨hn, hr⟩, rfl⟩

/-! ## The loops of `getReport` -/

/-- With enough fuel and no overflow the loop over the bucket times returns the times
`i`, `i + 60`, ... up to `stop`. -/
theorem tsListLoop_spec (stop : Int) (hstop : stop ≤ maxInt - 60) :
    ∀ (fuel : Nat) (i : Int), -2 ^ 63 ≤ i → ((stop - i + 60) / 60).toNat < fuel →
      tsListLoop fuel i stop =
        some ((List.range ((stop - i + 60) / 60).toNat).map
          (fun k => i + 60 * Int.ofNat k)) := by
  intro fuel
  induction fuel with
  | zero => intro i _ h; omega
  | succ fuel ih =>
    intro i hi hfuel
    simp only [tsListLoop]
    split
    · rename_i hle
      have hw : wrapInt (i + 60) = i + 60 := by
        apply wrapInt_of_range
        · omega
        · unfold maxInt at hstop ⊢; omega
      have hn : ((stop - i + 60) / 60).toNat = ((stop - (i + 60) + 60) / 60).toNat + 1 := by
        omega
      rw [hw, ih (i + 60) (by omega) (by omega), hn, List.range_succ_eq_map]
      simp only [Option.map_some', List.map_cons, List.map_map, Int.ofNat_eq_coe,
        Nat.cast_zero, mul_zero, add_zero, Option.some.injEq, List.cons.injEq, true_and]
      apply List.map_congr_left
      intro k _
      simp only [Function.comp_apply, Nat.cast_succ]
      ring
    · rename_i hle
      have hn : ((stop - i + 60) / 60).toNat = 0 := by omega
      rw [hn]
      rfl

theorem gt_abs_ofInt (d : Int) :
    F64.gt (F64.abs (F64.ofInt d)) (.fin 30) = decide (30 < |d|) := by
  simp only [F64.ofInt, F64.abs, F64.gt]
  have h : ((30 : ℚ) < |(d : ℚ)|) ↔ 30 < |d| := by
    rw [← Int.cast_abs]
    exact_mod_cast Iff.rfl
  simp only [h]

theorem mapGet_mapSet_ne {α : Type} (k k2 : Str) (v : α) (m : StrMap α) (h : k ≠ k2) :
    mapGet (mapSet k v m) k2 = mapGet m k2 := by
  induction m with
  | nil =>
    simp only [mapSet, mapGet]
    rw [List.find?_cons_of_neg _ (by simpa using h)]
  | cons e es ih =>
    simp only [mapGet] at ih ⊢
    simp only [mapSet]
    by_cases he : e.1 = k
    · have he2 : ¬ e.1 = k2 := fun h2 => h (he.symm.trans h2)
      rw [if_pos he, List.find?_cons_of_neg _ (by simpa using h),
        List.find?_cons_of_neg _ (by simpa using he2)]
    · rw [if_neg he]
      by_cases he2 : e.1 = k2
      · rw [List.find?_cons_of_pos _ (by simpa using he2),
          List.find?_cons_of_pos _ (by simpa using he2)]
      · rw [List.find?_cons_of_neg _ (by simpa using he2),
          List.find?_cons_of_neg _ (by simpa using he2)]
        exact ih

theorem mapGet_foldl_mapSet {α : Type} (f : Str → α) (k : Str) (keys : List Str) :
    ∀ init : StrMap α, (k ∈ keys ∨ mapGet init k = some (f k)) →
      mapGet (keys.foldl (fun data key => mapSet key (f key) data) init) k = some (f k) := by
  induction keys with
  | nil =>
    intro init h
    rcases h with h | h
    · simp at h
    · exact h
  | cons key rest ih =>
    intro init h
    simp only [List.foldl_cons]
    apply ih
    by_cases hk : key = k
    · right
      rw [hk]
      exact mapGet_mapSet k (f k) init
    · rcases h with h | h
      · rcases List.mem_cons.mp h with h | h
        · exact absurd h.symm hk
        · exact Or.inl h
      · right
        rw [mapGet_mapSet_ne key k _ init hk]
        exact h

theorem chain_step_ge (ts : List Int) :
    ∀ t : Int, (t :: ts).Chain' (fun a b => b = a + 60) → ∀ x ∈ ts, t + 60 ≤ x := by
  induction ts with
  | nil => intro t _ x hx; simp at hx
  | cons u us ih =>
    intro t h x hx
    rw [List.chain'_cons] at h
    rcases List.mem_cons.mp hx with hx | hx
    · rw [hx, h.1]
    · have := ih u h.2 x hx
      omega

/-- The loop over the buckets, for entries that are at least 60 seconds apart, none
of them more than 30 seconds before the first or 30 seconds or more after the last
bucket: a value is 0 or the rate of an entry at most 30 seconds from the bucket, an
entry less than 30 seconds from a bucket gives the value there, and every entry gives
the value of a bucket. -/
theorem coverageLoop_spec :
    ∀ (ts : List Int) (ms : List MetricsData),
      ts.Chain' (fun a b => b = a + 60) →
      ms.Pairwise (fun a b => a.Ts + 60 ≤ b.Ts) →
      (∀ t ∈ ts, 0 ≤ t ∧ t ≤ maxInt) →
      (∀ e ∈ ms, 0 ≤ e.Ts ∧ e.Ts ≤ maxInt) →
      (∀ t ∈ ts.head?, ∀ e ∈ ms, t - 30 ≤ e.Ts) →
      (∀ e ∈ ms, ∃ t ∈ ts, e.Ts < t + 30) →
      (coverageLoop ts ms).length = ts.length ∧
      (∀ tv ∈ ts.zip (coverageLoop ts ms),
        (tv.2 = .fin 0 ∨ ∃ e ∈ ms, |e.Ts - tv.1| ≤ 30 ∧ tv.2 = e.CoverRate) ∧
        (∀ e ∈ ms, |e.Ts - tv.1| < 30 → tv.2 = e.CoverRate)) ∧
      (∀ e ∈ ms, ∃ tv ∈ ts.zip (coverageLoop ts ms),
        |e.Ts - tv.1| ≤ 30 ∧ tv.2 = e.CoverRate) := by
  intro ts
  induction ts with
  | nil =>
    intro ms _ _ _ _ _ hex
    refine ⟨by simp [coverageLoop], by simp [coverageLoop], ?_⟩
    intro e he
    obtain ⟨t, ht, _⟩ := hex e he
    simp at ht
  | cons t ts ih =>
    intro ms hchain hsp hts hms hhead hex
    have hnext : ∀ x ∈ ts, t + 60 ≤ x := chain_step_ge ts t hchain
    have hchain2 : ts.Chain' (fun a b => b = a + 60) := hchain.tail
    have hts2 : ∀ x ∈ ts, 0 ≤ x ∧ x ≤ maxInt := fun x hx => hts x (List.mem_cons_of_mem _ hx)
    have hhd2 : ∀ u ∈ ts.head?, u ≤ t + 60 := by
      intro u hu
      cases ts with
      | nil => simp at hu
      | cons v vs =>
        simp only [List.head?_cons, Option.mem_def, Option.some.injEq] at hu
        rw [List.chain'_cons] at hchain
        rw [← hu, hchain.1]
    cases ms with
    | nil =>
      obtain ⟨h1, h2, _⟩ := ih [] hchain2 List.Pairwise.nil hts2 (by simp) (by simp) (by simp)
      refine ⟨by simp [coverageLoop, h1], ?_, by simp⟩
      intro tv htv
      simp only [coverageLoop, List.zip_cons_cons, List.mem_cons] at htv
      rcases htv with htv | htv
      · rw [htv]
        exact ⟨Or.inl rfl, by simp⟩
      · exact h2 tv htv
    | cons md ms =>
      have hmd := hms md (List.mem_cons_self _ _)
      have htr := hts t (List.mem_cons_self _ _)
      have hlow : t - 30 ≤ md.Ts := hhead t (by simp) md (List.mem_cons_self _ _)
      have hsp2 := List.pairwise_cons.mp hsp
      have hw : wrapInt (md.Ts - t) = md.Ts - t := by
        apply wrapInt_of_range
        · unfold maxInt at hmd htr; omega
        · unfold maxInt at hmd htr ⊢; omega
      simp only [coverageLoop, hw, gt_abs_ofInt]
      by_cases hfar : 30 < |md.Ts - t|
      · have hgt : t + 30 < md.Ts := by
          rcases lt_abs.mp hfar with h | h <;> omega
        have hall : ∀ e ∈ md :: ms, t + 30 < e.Ts := by
          intro e he
          rcases List.mem_cons.mp he with he | he
          · rw [he]; exact hgt
          · have := hsp2.1 e he
            omega
        obtain ⟨h1, h2, h3⟩ := ih (md :: ms) hchain2 hsp hts2 hms
          (by
            intro u hu e he
            have := hhd2 u hu
            have := hall e he
            omega)
          (by
            intro e he
            obtain ⟨u, hu, hlt⟩ := hex e he
            rcases List.mem_cons.mp hu with hu | hu
            · have := hall e he
              omega
            · exact ⟨u, hu, hlt⟩)
        simp only [hfar, decide_True, if_true]
        refine ⟨by simp [h1], ?_, ?_⟩
        · intro tv htv
          simp only [List.zip_cons_cons, List.mem_cons] at htv
          rcases htv with htv | htv
          · rw [htv]
            refine ⟨Or.inl rfl, ?_⟩
            intro e he hnear
            have := hall e he
            have := (abs_lt.mp hnear).2
            omega
          · exact h2 tv htv
        · intro e he
          obtain ⟨tv, htv, hr⟩ := h3 e he
          exact ⟨tv, by simp only [List.zip_cons_cons]; exact List.mem_cons_of_mem _ htv, hr⟩
      · have hnear : |md.Ts - t| ≤ 30 := not_lt.mp hfar
        have hup : md.Ts ≤ t + 30 := by
          have := (abs_le.mp hnear).2
          omega
        have hrest : ∀ e ∈ ms, t + 30 ≤ e.Ts := by
          intro e he
          have := hsp2.1 e he
          omega
        obtain ⟨h1, h2, h3⟩ := ih ms hchain2 hsp2.2 hts2
          (fun e he => hms e (List.mem_cons_of_mem _ he))
          (by
            intro u hu e he
            have := hhd2 u hu
            have := hrest e he
            omega)
          (by
            intro e he
            obtain ⟨u, hu, hlt⟩ := hex e (List.mem_cons_of_mem _ he)
            rcases List.mem_cons.mp hu with hu | hu
            · have := hrest e he
              omega
            · exact ⟨u, hu, hlt⟩)
        simp only [hfar, decide_False, Bool.false_eq_true, if_false]
        refine ⟨by simp [h1], ?_, ?_⟩
        · intro tv htv
          simp only [List.zip_cons_cons, List.mem_cons] at htv
          rcases htv with htv | htv
          · rw [htv]
            refine ⟨Or.inr ⟨md, List.mem_cons_self _ _, hnear, rfl⟩, ?_⟩
            intro e he hn
            rcases List.mem_cons.mp he with he | he
            · rw [he]
            · have := hrest e he
              have := (abs_lt.mp hn).2
              omega
          · obtain ⟨ha, hb⟩ := h2 tv htv
            refine ⟨?_, ?_⟩
            · rcases ha with ha | ⟨e, he, hr⟩
              · exact Or.inl ha
              · exact Or.inr ⟨e, List.mem_cons_of_mem _ he, hr⟩
            · intro e he hn
              rcases List.mem_cons.mp he with he | he
              · exfalso
                have hmem : tv.1 ∈ ts := (List.of_mem_zip (by
                  have : (tv.1, tv.2) ∈ ts.zip (coverageLoop ts ms) := htv
                  exact this)).1
                have := hnext tv.1 hmem
                rw [he] at hn
                have := (abs_lt.mp hn).1
                omega
              · exact hb e he hn
        · intro e he
          rcases List.mem_cons.mp he with he | he
          · rw [he]
            exact ⟨(t, md.CoverRate), by simp, hnear, rfl⟩
          · obtain ⟨tv, htv, hr⟩ := h3 e he
            exact ⟨tv, by simp only [List.zip_cons_cons]; exact List.mem_cons_of_mem _ htv, hr⟩

theorem bucket_chain (n : Nat) :
    ∀ b : Int, ((List.range n).map (fun k => b + 60 * Int.ofNat k)).Chain'
      (fun x y => y = x + 60) := by
  induction n with
  | zero => intro b; simp
  | succ n ih =>
    intro b
    rw [List.range_succ_eq_map]
    simp only [List.map_cons, List.map_map]
    rw [List.chain'_cons']
    have hmap : List.map ((fun k => b + 60 * Int.ofNat k) ∘ Nat.succ) (List.range n) =
        (List.range n).map (fun k => (b + 60) + 60 * Int.ofNat k) := by
      apply List.map_congr_left
      intro k _
      simp only [Function.comp_apply, Int.ofNat_eq_coe, Nat.cast_succ]
      ring
    rw [hmap]
    refine ⟨?_, ih (b + 60)⟩
    intro y hy
    cases n with
    | zero => simp at hy
    | succ n =>
      rw [List.range_succ_eq_map] at hy
      simp only [List.map_cons, List.head?_cons, Option.mem_def, Option.some.injEq] at hy
      rw [← hy]
      simp

theorem mem_bucketTimes (beg stop : Int) (hle : beg ≤ stop) :
    (∀ t ∈ bucketTimes beg stop, 60 * (beg / 60) ≤ t ∧ t ≤ 60 * (stop / 60)) ∧
    60 * (stop / 60) ∈ bucketTimes beg stop ∧
    (∀ t ∈ (bucketTimes beg stop).head?, t = 60 * (beg / 60)) := by
  refine ⟨?_, ?_, ?_⟩
  · intro t ht
    simp only [bucketTimes, List.mem_map, List.mem_range] at ht
    obtain ⟨k, hk, rfl⟩ := ht
    simp only [Int.ofNat_eq_coe]
    omega
  · simp only [bucketTimes, List.mem_map, List.mem_range]
    refine ⟨(stop / 60 - beg / 60).toNat, by omega, ?_⟩
    simp only [Int.ofNat_eq_coe]
    omega
  · intro t ht
    unfold bucketTimes at ht
    have hn : (stop / 60 - beg / 60 + 1).toNat = (stop / 60 - beg / 60).toNat + 1 := by omega
    rw [hn, List.range_succ_eq_map] at ht
    simp only [List.map_cons, List.head?_cons, Option.mem_def, Option.some.injEq] at ht
    rw [← ht]
    simp

/-- C21 (amended): for a range with `0 ≤ beg ≤ end` and `end ≠ 0`, enough fuel for the
loop over the bucket times, and a store in which the entries of the module with `Ts`
from `beg` rounded down to `end` rounded down plus 20 are at least 60 seconds apart,
`getReport` answers with the bucket times from `beg` to `end`, both rounded down to a
multiple of 60, and with one value for each of them; a value is 0 or the `CoverRate` of
such an entry at most 30 seconds from the bucket time, so it is 0 when there is no such
entry; an entry less than 30 seconds from a bucket time gives the value there; and
every such entry gives the value of a bucket at most 30 seconds from it. -/
theorem getReport_series (m : MetricsStore) (hwf : StoreWF m) (fuel : Nat)
    (modules : List Str) (module : Str) (hmod : module ∈ modules) (beg stop now : Int)
    (hbeg : 0 ≤ beg) (hle : beg ≤ stop) (hpos : stop ≠ 0) (hstop : stop ≤ maxInt - 60)
    (hfuel : (stop / 60 - beg / 60 + 1).toNat < fuel)
    (hspace : ∀ a ∈ storeEntries m module, ∀ b ∈ storeEntries m module,
      60 * (beg / 60) ≤ a.Ts → b.Ts ≤ 60 * (stop / 60) + 20 → a.Ts < b.Ts →
      a.Ts + 60 ≤ b.Ts) :
    ∃ data series,
      getReport m fuel modules beg stop now = .ok (bucketTimes beg stop, data) ∧
      mapGet data module = some series ∧
      series.length = (bucketTimes beg stop).length ∧
      (∀ tv ∈ (bucketTimes beg stop).zip series,
        (tv.2 = .fin 0 ∨
          ∃ e ∈ storeEntries m module,
            (60 * (beg / 60) ≤ e.Ts ∧ e.Ts ≤ 60 * (stop / 60) + 20) ∧
            |e.Ts - tv.1| ≤ 30 ∧ tv.2 = e.CoverRate) ∧
        (∀ e ∈ storeEntries m module,
          60 * (beg / 60) ≤ e.Ts → e.Ts ≤ 60 * (stop / 60) + 20 →
          |e.Ts - tv.1| < 30 → tv.2 = e.CoverRate)) ∧
      (∀ e ∈ storeEntries m module,
        60 * (beg / 60) ≤ e.Ts → e.Ts ≤ 60 * (stop / 60) + 20 →
        ∃ tv ∈ (bucketTimes beg stop).zip series,
          |e.Ts - tv.1| ≤ 30 ∧ tv.2 = e.CoverRate) := by
  have hstop0 : 0 ≤ stop := le_trans hbeg hle
  have hb : beg - Int.tmod beg 60 = 60 * (beg / 60) := by
    rw [Int.tmod_eq_emod hbeg (by norm_num)]
    omega
  have hs : stop - Int.tmod stop 60 = 60 * (stop / 60) := by
    rw [Int.tmod_eq_emod hstop0 (by norm_num)]
    omega
  have hw : wrapInt (60 * (stop / 60) + 20) = 60 * (stop / 60) + 20 := by
    apply wrapInt_of_range
    · omega
    · unfold maxInt at hstop ⊢; omega
  have hloop : tsListLoop fuel (60 * (beg / 60)) (60 * (stop / 60)) =
      some (bucketTimes beg stop) := by
    have hn : ((60 * (stop / 60) - 60 * (beg / 60) + 60) / 60).toNat =
        (stop / 60 - beg / 60 + 1).toNat := by omega
    rw [tsListLoop_spec (60 * (stop / 60)) (by omega) fuel (60 * (beg / 60)) (by omega)
      (by rw [hn]; exact hfuel), hn]
    rfl
  obtain ⟨hsorted, hmem⟩ := GetMetricsData_spec m hwf module (60 * (beg / 60))
    (60 * (stop / 60) + 20) (by omega)
  obtain ⟨hin, hlast, hhead⟩ := mem_bucketTimes beg stop hle
  obtain ⟨h1, h2, h3⟩ := coverageLoop_spec (bucketTimes beg stop)
    (GetMetricsData m module (60 * (beg / 60)) (60 * (stop / 60) + 20))
    (bucket_chain _ _)
    (hsorted.imp_of_mem (by
      intro a b ha hb hab
      have ha2 := (hmem a).mp ha
      have hb2 := (hmem b).mp hb
      exact hspace a ha2.1 b hb2.1 ha2.2.1 hb2.2.2 hab))
    (by
      intro t ht
      have := hin t ht
      unfold maxInt at hstop ⊢
      omega)
    (by
      intro e he
      have := (hmem e).mp he
      unfold maxInt at hstop ⊢
      omega)
    (by
      intro t ht e he
      have := (hmem e).mp he
      rw [hhead t ht]
      omega)
    (by
      intro e he
      have := (hmem e).mp he
      exact ⟨_, hlast, by omega⟩)
  refine ⟨modules.foldl
      (fun data module =>
        mapSet module
          (coverageLoop (bucketTimes beg stop)
            (GetMetricsData m module (60 * (beg / 60)) (60 * (stop / 60) + 20))) data)
      [],
    coverageLoop (bucketTimes beg stop)
      (GetMetricsData m module (60 * (beg / 60)) (60 * (stop / 60) + 20)), ?_, ?_, h1, ?_, ?_⟩
  · have hlen : ¬ modules.length = 0 := by
      intro h0
      rw [List.length_eq_zero.mp h0] at hmod
      simp at hmod
    have hnow : (decide (beg = 0) && decide (stop = 0)) = false := by simp [hpos]
    simp only [getReport, hlen, if_false, not_lt.mpr hle, hnow, Bool.false_eq_true, hb, hs,
      hloop, hw]
  · exact mapGet_foldl_mapSet
      (fun module => coverageLoop (bucketTimes beg stop)
        (GetMetricsData m module (60 * (beg / 60)) (60 * (stop / 60) + 20)))
      module modules [] (Or.inl hmod)
  · intro tv htv
    obtain ⟨ha, hb2⟩ := h2 tv htv
    refine ⟨?_, ?_⟩
    · rcases ha with ha | ⟨e, he, hr⟩
      · exact Or.inl ha
      · have := (hmem e).mp he
        exact Or.inr ⟨e, this.1, this.2, hr⟩
    · intro e he hlo hhi hn
      exact hb2 e ((hmem e).mpr ⟨he, hlo, hhi⟩) hn
  · intro e he hlo hhi
    exact h3 e ((hmem e).mpr ⟨he, hlo, hhi⟩)

/-- C21 as stated fails. With entries at the times 60, 70 and 120 the entry at 70 fits
no bucket after 60, the index `j` stays on it, and the value at 120 is 0, not the rate
70 of the entry at 120. With one entry at the time 30 the value at 60 is 0, the entry
being used for the bucket 0. With one entry at the time 70 and the range from 0 to 60
the value at 60 is the rate of the entry, which is read up to 20 seconds after the last
bucket. For the range from 0 to 0 the buckets are those of the last hour, and for a
range from -30 the first bucket is 0, not -60. -/
theorem getReport_series_counterexample :
    getReport
        (applySaves []
          [(metricsRate "svc".toList 60 50, 1000), (metricsRate "svc".toList 70 60, 1001),
            (metricsRate "svc".toList 120 70, 1002)])
        10 ["svc".toList] 0 120 5000 =
      .ok ([0, 60, 120], [("svc".toList, [.fin 0, .fin 50, .fin 0])]) ∧
    (storeEntries
        (applySaves []
          [(metricsRate "svc".toList 60 50, 1000), (metricsRate "svc".toList 70 60, 1001),
            (metricsRate "svc".toList 120 70, 1002)])
        "svc".toList).map (fun e => (e.Ts, e.CoverRate)) =
      [(60, .fin 50), (70, .fin 60), (120, .fin 70)] ∧
    getReport (applySaves [] [(metricsRate "svc".toList 30 50, 1000)]) 10 ["svc".toList]
        0 60 5000 =
      .ok ([0, 60], [("svc".toList, [.fin 50, .fin 0])]) ∧
    getReport (applySaves [] [(metricsRate "svc".toList 70 50, 1000)]) 10 ["svc".toList]
        0 60 5000 =
      .ok ([0, 60], [("svc".toList, [.fin 0, .fin 50])]) ∧
    (getReport [] 100 ["svc".toList] 0 0 7200).toOption.map
        (fun r => (r.1.head?, r.1.length)) = some (some 3600, 61) ∧
    (getReport [] 10 ["svc".toList] (-30) 60 5000).toOption.map (fun r => r.1) =
      some [0, 60] := by
  refine ⟨by decide, by decide, by decide, by decide, ?_, by decide⟩
  set_option maxRecDepth 20000 in decide

/-- Instance of C21: entries at the times 60 and 130 and the range from 0 to 120 give
the buckets 0, 60 and 120 with the values 0, 50 and 70. -/
theorem getReport_series_witness :
    (StoreWF
        (applySaves []
          [(metricsRate "svc".toList 60 50, 1000), (metricsRate "svc".toList 130 70, 1001)]) ∧
      (120 : Int) ≤ maxInt - 60) ∧
    (∃ data series,
      getReport
          (applySaves []
            [(metricsRate "svc".toList 60 50, 1000), (metricsRate "svc".toList 130 70, 1001)])
          10 ["svc".toList] 0 120 5000 = .ok (bucketTimes 0 120, data) ∧
      mapGet data "svc".toList = some series ∧
      series.length = (bucketTimes 0 120).length) ∧
    getReport
        (applySaves []
          [(metricsRate "svc".toList 60 50, 1000), (metricsRate "svc".toList 130 70, 1001)])
        10 ["svc".toList] 0 120 5000 =
      .ok ([0, 60, 120], [("svc".toList, [.fin 0, .fin 50, .fin 70])]) :=
  ⟨⟨StoreWF_applySaves _ [] StoreWF_nil, by decide⟩,
   (getReport_series
      (applySaves []
        [(metricsRate "svc".toList 60 50, 1000), (metricsRate "svc".toList 130 70, 1001)])
      (StoreWF_applySaves _ [] StoreWF_nil) 10 ["svc".toList] "svc".toList
      (List.mem_cons_self _ _) 0 120 5000 (by decide) (by decide) (by decide) (by decide)
      (by decide) (by decide)).elim
      (fun data h => h.elim (fun series hs => ⟨data, series, hs.1, hs.2.1, hs.2.2.1⟩)),
   by decide⟩

/-! ## Every boundary gets its tag -/

/-- A block is scanned inside the source: the offsets of its boundaries are offsets of
bytes still to read, and the offset of the state moves with the bytes read. -/
theorem scanBlock_bound (log : Int → F64) (max : Int) (b : ProfileBlock) (src : List Nat) :
    ∀ (line col si index : Int),
      (∀ x ∈ (scanBlock log max b line col si index src).1,
        si ≤ x.Offset ∧ x.Offset < si + src.length) ∧
      (scanBlock log max b line col si index src).2.si +
          (scanBlock log max b line col si index src).2.src.length = si + src.length := by
  induction src with
  | nil =>
    intro line col si index
    simp [scanBlock]
  | cons c src ih =>
    intro line col si index
    have hS := (boundary_fields log max index si true b.Count).1
    by_cases hs : (decide (b.StartLine = line) && decide (b.StartCol = col)) = true
    · simp only [scanBlock, hs, if_true, List.singleton_append]
      split
      · refine ⟨?_, rfl⟩
        intro x hx
        simp only [List.mem_cons, List.mem_singleton, List.not_mem_nil, or_false] at hx
        rcases hx with hx | hx
        · rw [hx, hS]
          simp only [List.length_cons, Nat.cast_add, Nat.cast_one]
          omega
        · rw [hx, (boundary_fields log max (index + 1) si false 0).1]
          simp only [List.length_cons, Nat.cast_add, Nat.cast_one]
          omega
      · split
        · obtain ⟨h1, h2⟩ := ih (line + 1) (0 + 1) (si + 1) (index + 1)
          refine ⟨?_, ?_⟩
          · intro x hx
            simp only [List.length_cons, Nat.cast_add, Nat.cast_one]
            rcases List.mem_cons.mp hx with hx | hx
            · rw [hx, hS]; omega
            · have := h1 x hx
              omega
          · simp only [List.length_cons, Nat.cast_add, Nat.cast_one]
            omega
        · obtain ⟨h1, h2⟩ := ih line (col + 1) (si + 1) (index + 1)
          refine ⟨?_, ?_⟩
          · intro x hx
            simp only [List.length_cons, Nat.cast_add, Nat.cast_one]
            rcases List.mem_cons.mp hx with hx | hx
            · rw [hx, hS]; omega
            · have := h1 x hx
              omega
          · simp only [List.length_cons, Nat.cast_add, Nat.cast_one]
            omega
    · have hs2 : (decide (b.StartLine = line) && decide (b.StartCol = col)) = false := by
        simpa using hs
      simp only [scanBlock, hs2, Bool.false_eq_true, if_false, List.nil_append]
      split
      · refine ⟨?_, rfl⟩
        intro x hx
        simp only [List.mem_singleton] at hx
        rw [hx, (boundary_fields log max index si false 0).1]
        simp only [List.length_cons, Nat.cast_add, Nat.cast_one]
        omega
      · split
        · obtain ⟨h1, h2⟩ := ih (line + 1) (0 + 1) (si + 1) index
          refine ⟨?_, ?_⟩
          · intro x hx
            simp only [List.length_cons, Nat.cast_add, Nat.cast_one]
            have := h1 x hx
            omega
          · simp only [List.length_cons, Nat.cast_add, Nat.cast_one]
            omega
        · obtain ⟨h1, h2⟩ := ih line (col + 1) (si + 1) index
          refine ⟨?_, ?_⟩
          · intro x hx
            simp only [List.length_cons, Nat.cast_add, Nat.cast_one]
            have := h1 x hx
            omega
          · simp only [List.length_cons, Nat.cast_add, Nat.cast_one]
            omega

theorem walkBlocks_bound (log : Int → F64) (max : Int) (blocks : List ProfileBlock) :
    ∀ s : WalkState, ∀ x ∈ walkBlocks log max blocks s,
      s.si ≤ x.Offset ∧ x.Offset < s.si + s.src.length := by
  induction blocks with
  | nil => intro s x hx; simp [walkBlocks] at hx
  | cons b rest ih =>
    intro s x hx
    obtain ⟨h1, h2⟩ := scanBlock_bound log max b s.src s.line s.col s.si s.index
    have hge := scanBlock_shape log max b s.src s.line s.col s.si s.index
    simp only [walkBlocks] at hx
    rcases List.mem_append.mp hx with hx | hx
    · exact h1 x hx
    · have h3 := ih _ x hx
      have hlen : (0 : Int) ≤ (scanBlock log max b s.line s.col s.si s.index s.src).2.src.length :=
        Int.ofNat_nonneg _
      have hsi : s.si ≤ (scanBlock log max b s.line s.col s.si s.index s.src).2.si := by
        rcases hge with ⟨_, h⟩ | ⟨off, _, h, h', _⟩ | ⟨off, _, _, h⟩ | ⟨off, off', _, h, h', h'', _⟩
        · rw [h] at h2 h3
          simp only [List.length_nil, Nat.cast_zero, add_zero] at h2 h3
          omega
        · omega
        · rw [h] at h2 h3
          simp only [List.length_nil, Nat.cast_zero, add_zero] at h2 h3
          omega
        · omega
      omega

theorem dropWhile_offset_gt (i : Int) (bs : List Boundary)
    (hs : bs.Pairwise (fun a b => a.Offset ≤ b.Offset)) (hlo : ∀ x ∈ bs, i ≤ x.Offset) :
    ∀ x ∈ bs.dropWhile (fun x => decide (x.Offset = i)), i + 1 ≤ x.Offset := by
  induction bs with
  | nil => intro x hx; simp at hx
  | cons a rest ih =>
    intro x hx
    have hp := List.pairwise_cons.mp hs
    by_cases ha : a.Offset = i
    · rw [List.dropWhile_cons_of_pos (by simpa using ha)] at hx
      exact ih hp.2 (fun y hy => hlo y (List.mem_cons_of_mem _ hy)) x hx
    · rw [List.dropWhile_cons_of_neg (by simpa using ha)] at hx
      have h1 := hlo a (List.mem_cons_self _ _)
      rcases List.mem_cons.mp hx with hx | hx
      · rw [hx]; omega
      · have := hp.1 x hx
        omega

/-- The loop of `htmlGen` takes every boundary of a list in the order of the offsets
whose offsets are offsets of the source. -/
theorem consumedFrom_flatten (n : Nat) :
    ∀ (i : Int) (bs : List Boundary), bs.Pairwise (fun a b => a.Offset ≤ b.Offset) →
      (∀ x ∈ bs, i ≤ x.Offset ∧ x.Offset < i + n) →
      (consumedFrom i n bs).flatten = bs := by
  induction n with
  | zero =>
    intro i bs _ hb
    cases bs with
    | nil => rfl
    | cons a rest =>
      have := hb a (List.mem_cons_self _ _)
      simp only [Nat.cast_zero, add_zero] at this
      omega
  | succ n ih =>
    intro i bs hs hb
    simp only [consumedFrom, List.flatten_cons]
    rw [ih (i + 1) _ (hs.sublist (List.dropWhile_sublist _))]
    · exact List.takeWhile_append_dropWhile _ bs
    · intro x hx
      have h1 := dropWhile_offset_gt i bs hs (fun y hy => (hb y hy).1) x hx
      have h2 := (hb x ((List.dropWhile_sublist _).subset hx)).2
      simp only [Nat.cast_add, Nat.cast_one] at h2
      omega

theorem consumable_sorted (n : Int) (bs : List Boundary) :
    ∀ prev : Int, bs.Pairwise (fun a b => a.Offset ≤ b.Offset) →
      (∀ x ∈ bs, prev ≤ x.Offset ∧ x.Offset < n) → consumable n prev bs = bs := by
  induction bs with
  | nil => intro prev _ _; rfl
  | cons b bs ih =>
    intro prev hs hb
    have hp := List.pairwise_cons.mp hs
    simp only [consumable]
    rw [if_pos (hb b (List.mem_cons_self _ _)),
      ih b.Offset hp.2 (fun x hx => ⟨hp.1 x hx, (hb x (List.mem_cons_of_mem _ hx)).2⟩)]

/-- The lists that the loop of `htmlGen` takes at the offsets are the boundaries with
these offsets among those that the pass can take. -/
theorem consumedFrom_eq_filter (n : Nat) :
    ∀ (i : Nat) (bs : List Boundary),
      consumedFrom (Int.ofNat i) n bs =
        ((List.range n).map (fun k => k + i)).map
          (fun k => (consumable (Int.ofNat (i + n)) (Int.ofNat i) bs).filter
            (fun b => decide (b.Offset = Int.ofNat k))) := by
  induction n with
  | zero => intro i bs; rfl
  | succ n ih =>
    intro i bs
    have hin : Int.ofNat i < Int.ofNat (i + (n + 1)) := by
      simp only [Int.ofNat_eq_coe, Nat.cast_add, Nat.cast_one]
      omega
    have hi1 : Int.ofNat i + 1 = Int.ofNat (i + 1) := rfl
    have hlen : i + (n + 1) = i + 1 + n := by omega
    simp only [consumedFrom]
    rw [hi1, ih (i + 1), List.range_succ_eq_map]
    simp only [List.map_cons, List.map_map, Nat.zero_add]
    rw [consumable_filter_here _ _ hin]
    congr 1
    apply List.map_congr_left
    intro k _
    have hlt : Int.ofNat i < Int.ofNat (k + 1 + i) := by
      simp only [Int.ofNat_eq_coe, Nat.cast_add, Nat.cast_one]
      omega
    have hk : k + (i + 1) = k + 1 + i := by omega
    simp only [Function.comp_apply, Nat.succ_eq_add_one]
    rw [hk, hlen, consumable_filter_later _ _ _ (by rw [← hlen]; exact hin) hlt, hi1]

theorem digitChar_no_angle : ∀ d : Nat, d < 10 →
    (digitChar d).toNat ≠ 60 ∧ (digitChar d).toNat ≠ 62 := by
  decide

theorem natDigits_no_angle : ∀ (fuel n : Nat), ∀ c ∈ natDigits fuel n,
    c.toNat ≠ 60 ∧ c.toNat ≠ 62 := by
  intro fuel
  induction fuel with
  | zero => intro n c hc; simp [natDigits] at hc
  | succ fuel ih =>
    intro n c hc
    simp only [natDigits] at hc
    split at hc
    · rename_i hn
      simp only [List.mem_singleton] at hc
      rw [hc]
      exact digitChar_no_angle n hn
    · rcases List.mem_append.mp hc with hc | hc
      · exact ih _ c hc
      · simp only [List.mem_singleton] at hc
        rw [hc]
        exact digitChar_no_angle _ (Nat.mod_lt _ (by norm_num))

theorem formatInt_no_angle (x : Int) :
    List.count 60 (bytesOf (formatInt x)) = 0 ∧ List.count 62 (bytesOf (formatInt x)) = 0 := by
  have key : ∀ c ∈ formatInt x, c.toNat ≠ 60 ∧ c.toNat ≠ 62 := by
    intro c hc
    unfold formatInt formatNat at hc
    split at hc
    · rcases List.mem_cons.mp hc with hc | hc
      · rw [hc]; decide
      · exact natDigits_no_angle _ _ c hc
    · exact natDigits_no_angle _ _ c hc
  constructor
  · rw [List.count_eq_zero]
    intro h
    obtain ⟨c, hc, hcn⟩ := List.mem_map.mp h
    exact (key c hc).1 hcn
  · rw [List.count_eq_zero]
    intro h
    obtain ⟨c, hc, hcn⟩ := List.mem_map.mp h
    exact (key c hc).2 hcn

/-- A tag holds the byte `<` once and the byte `>` once. -/
theorem tagReference_angles (b : Boundary) :
    List.count 60 (tagReference b) = 1 ∧ List.count 62 (tagReference b) = 1 := by
  unfold tagReference
  split
  · have h1 := formatInt_no_angle (classIndex b)
    have h2 := formatInt_no_angle b.Count
    have a1 : List.count 60 (bytesOf "<span class=\"cov".toList) = 1 := by decide
    have a2 : List.count 60 (bytesOf "\" title=\"".toList) = 0 := by decide
    have a3 : List.count 60 (bytesOf "\">".toList) = 0 := by decide
    have c1 : List.count 62 (bytesOf "<span class=\"cov".toList) = 0 := by decide
    have c2 : List.count 62 (bytesOf "\" title=\"".toList) = 0 := by decide
    have c3 : List.count 62 (bytesOf "\">".toList) = 1 := by decide
    constructor
    · rw [List.count_append, List.count_append, List.count_append, List.count_append,
        h1.1, h2.1, a1, a2, a3]
    · rw [List.count_append, List.count_append, List.count_append, List.count_append,
        h1.2, h2.2, c1, c2, c3]
  · exact ⟨by decide, by decide⟩

theorem count_flatMap_tag (l : List Boundary) :
    List.count 60 (l.flatMap tagOf) = l.length ∧ List.count 62 (l.flatMap tagOf) = l.length := by
  induction l with
  | nil => exact ⟨rfl, rfl⟩
  | cons b l ih =>
    have hb := tagReference_angles b
    rw [← tagOf_eq_reference] at hb
    simp only [List.flatMap_cons, List.count_append, List.length_cons, hb.1, hb.2, ih.1, ih.2]
    constructor <;> omega

/-- The output of the loop of `htmlGen` holds the bytes `<` and `>` once for every
boundary that the loop takes. -/
theorem htmlGenLoop_count (src : List Nat) :
    ∀ (i : Int) (bs : List Boundary),
      List.count 60 (htmlGenLoop i src bs) = (consumedFrom i src.length bs).flatten.length ∧
      List.count 62 (htmlGenLoop i src bs) = (consumedFrom i src.length bs).flatten.length := by
  induction src with
  | nil => intro i bs; exact ⟨rfl, rfl⟩
  | cons byte src ih =>
    intro i bs
    have ht := count_flatMap_tag (bs.takeWhile (fun x => decide (x.Offset = i)))
    have he := escapeByte_no_angle byte
    have he1 : List.count 60 (escapeByte byte) = 0 := List.count_eq_zero.mpr he.1
    have he2 : List.count 62 (escapeByte byte) = 0 := List.count_eq_zero.mpr he.2
    have hr := ih (i + 1) (bs.dropWhile (fun x => decide (x.Offset = i)))
    simp only [htmlGenLoop, List.length_cons, consumedFrom, List.flatten_cons,
      List.count_append, List.length_append, ht.1, ht.2, he1, he2, hr.1, hr.2]
    constructor <;> omega

/-- C23: every boundary that `Boundaries` returns has an offset from 0 to below the
length of the source, and `htmlGen` on the source and these boundaries drops none of
them: the pass takes the whole list; the boundaries with the offsets 0, 1, ... make up
the list, each boundary once and in the order of the list; the output is, for every
offset, the tags of the boundaries with this offset, in the order of the list, and the
escaped byte, where the tag of a boundary is `<span class="covK" title="<count>">` or
`</span>`; and the output holds the byte `<` as often as there are boundaries, and so
the byte `>`. -/
theorem Boundaries_all_tagged (log : Int → F64) (p : Profile) (src : List Nat) :
    (∀ x ∈ Boundaries log p src, 0 ≤ x.Offset ∧ x.Offset < src.length) ∧
    consumable src.length 0 (Boundaries log p src) = Boundaries log p src ∧
    (List.range src.length).flatMap
        (fun i => (Boundaries log p src).filter (fun b => decide (b.Offset = Int.ofNat i))) =
      Boundaries log p src ∧
    htmlGen src (Boundaries log p src) =
      ((List.range src.length).zip src).flatMap
        (fun x =>
          ((Boundaries log p src).filter
            (fun b => decide (b.Offset = Int.ofNat x.1))).flatMap tagReference ++
              escapeByte x.2) ∧
    (∀ b : Boundary, b.Start = false → tagReference b = bytesOf "</span>".toList) ∧
    (∀ b : Boundary, b.Start = true →
      tagReference b =
        bytesOf "<span class=\"cov".toList ++ bytesOf (formatInt (classIndex b)) ++
          bytesOf "\" title=\"".toList ++ bytesOf (formatInt b.Count) ++
          bytesOf "\">".toList) ∧
    List.count 60 (htmlGen src (Boundaries log p src)) = (Boundaries log p src).length ∧
    List.count 62 (htmlGen src (Boundaries log p src)) = (Boundaries log p src).length := by
  have hb : ∀ x ∈ Boundaries log p src, 0 ≤ x.Offset ∧ x.Offset < 0 + src.length := by
    intro x hx
    rw [Boundaries_eq_walk] at hx
    exact walkBlocks_bound log (maxCount p.Blocks) p.Blocks
      { line := 1, col := 2, si := 0, index := 0, src := src } x hx
  have hb2 : ∀ x ∈ Boundaries log p src, (0 : Int) ≤ x.Offset ∧ x.Offset < src.length := by
    intro x hx
    simpa using hb x hx
  have hs : (Boundaries log p src).Pairwise (fun a b => a.Offset ≤ b.Offset) := by
    rw [Boundaries_eq_walk]
    exact (walkBlocks_spec log (maxCount p.Blocks) p.Blocks _).2.1.imp (fun h => h.1)
  have hall : consumable src.length 0 (Boundaries log p src) = Boundaries log p src :=
    consumable_sorted _ _ 0 hs hb2
  have hflat := consumedFrom_flatten src.length 0 _ hs hb
  have hcf := consumedFrom_eq_filter src.length 0 (Boundaries log p src)
  simp only [Nat.add_zero, List.map_id', Nat.zero_add] at hcf
  have h0 : Int.ofNat 0 = 0 := rfl
  have hn : Int.ofNat src.length = (src.length : Int) := rfl
  rw [h0, hn, hall] at hcf
  have hgen := htmlGenLoop_eq_filter src 0 (Boundaries log p src)
  simp only [Nat.add_zero, List.map_id', Nat.zero_add] at hgen
  rw [h0, hn, hall] at hgen
  have hcount := htmlGenLoop_count src 0 (Boundaries log p src)
  rw [hflat] at hcount
  refine ⟨hb2, hall, ?_, hgen, ?_, ?_, hcount.1, hcount.2⟩
  · rw [List.flatMap_def, ← hcf]
    exact hflat
  · intro b hb
    simp [tagReference, hb]
  · intro b hb
    simp [tagReference, hb]

/-! ## The counts that the merge keeps -/

theorem countSum_cons (b : ProfileBlock) (rest : List ProfileBlock) :
    countSum (b :: rest) = b.Count + countSum rest := by
  simp [countSum]

theorem countSum_nonneg (blocks : List ProfileBlock) (h : ∀ b ∈ blocks, 0 ≤ b.Count) :
    0 ≤ countSum blocks := by
  induction blocks with
  | nil => simp [countSum]
  | cons b rest ih =>
    rw [countSum_cons]
    have := h b (List.mem_cons_self _ _)
    have := ih (fun x hx => h x (List.mem_cons_of_mem _ hx))
    omega

theorem countSum_perm (l1 l2 : List ProfileBlock) (h : List.Perm l1 l2) :
    countSum l1 = countSum l2 := by
  unfold countSum
  exact (h.map (fun b => b.Count)).sum_eq

/-- In a mode other than `set` the merge loop keeps the sum of the counts up to the
wrap of `int`. -/
theorem mergeLoop_count_sum (mode : Str) (hm : mode ≠ setMode) (rest : List ProfileBlock) :
    ∀ (last : ProfileBlock) (out : List ProfileBlock), mergeLoop mode last rest = .ok out →
      wrapInt (countSum out) = wrapInt (last.Count + countSum rest) := by
  induction rest with
  | nil =>
    intro last out h
    simp only [mergeLoop, Except.ok.injEq] at h
    subst h
    simp [countSum]
  | cons b rest ih =>
    intro last out h
    simp only [mergeLoop] at h
    rw [countSum_cons]
    split at h
    · split at h
      · cases h
      · have := ih _ out h
        simp only [combineCount, if_neg hm] at this
        rw [this, wrapInt_add_left, add_assoc]
    · split at h
      · cases h
      · rename_i out2 hout
        simp only [Except.ok.injEq] at h
        subst h
        rw [countSum_cons, ← wrapInt_add_right, ih b out2 hout, wrapInt_add_right]

/-- In a mode other than `set` the merge loop keeps the sum of the counts when the sum
fits an `int`. -/
theorem mergeLoop_count_exact (mode : Str) (hm : mode ≠ setMode) (rest : List ProfileBlock) :
    ∀ (last : ProfileBlock) (out : List ProfileBlock), mergeLoop mode last rest = .ok out →
      0 ≤ last.Count → (∀ b ∈ rest, 0 ≤ b.Count) → last.Count + countSum rest ≤ maxInt →
      countSum out = last.Count + countSum rest := by
  induction rest with
  | nil =>
    intro last out h _ _ _
    simp only [mergeLoop, Except.ok.injEq] at h
    subst h
    simp [countSum]
  | cons b rest ih =>
    intro last out h hl hr hsum
    have hb := hr b (List.mem_cons_self _ _)
    have hr2 : ∀ x ∈ rest, 0 ≤ x.Count := fun x hx => hr x (List.mem_cons_of_mem _ hx)
    have hrest := countSum_nonneg rest hr2
    rw [countSum_cons] at hsum ⊢
    simp only [mergeLoop] at h
    split at h
    · split at h
      · cases h
      · have hw : combineCount mode last.Count b.Count = last.Count + b.Count := by
          simp only [combineCount, if_neg hm]
          apply wrapInt_of_range
          · omega
          · omega
        rw [hw] at h
        have := ih _ out h (by show 0 ≤ last.Count + b.Count; omega) hr2
          (by show last.Count + b.Count + countSum rest ≤ maxInt; omega)
        rw [this]
        show last.Count + b.Count + countSum rest = last.Count + (b.Count + countSum rest)
        omega
    · split at h
      · cases h
      · rename_i out2 hout
        simp only [Except.ok.injEq] at h
        subst h
        rw [countSum_cons, ih b out2 hout hb hr2 (by omega)]

/-- C24 (amended): for an input that `ParseProfiles` accepts and a returned profile
whose mode is not `set`, the sum of `Count` over the blocks of the profile and the sum
of the counts of the records of that file agree up to the wrap of the 64-bit `int`,
and they are equal when the sum of the counts of the records is at most the largest
`int`. -/
theorem ParseProfiles_count_sum (srt : List ProfileBlock → List ProfileBlock)
    (hsrt : SortsByStart srt) (bs : Str) (ps : List Profile)
    (hok : ParseProfiles srt bs = .ok ps) :
    ∀ p ∈ ps, p.Mode ≠ setMode →
      wrapInt (countSum p.Blocks) =
        wrapInt (countSum (blocksOfFile p.FileName (records bs))) ∧
      (countSum (blocksOfFile p.FileName (records bs)) ≤ maxInt →
        countSum p.Blocks = countSum (blocksOfFile p.FileName (records bs))) := by
  intro p hp hmode
  cases hr : rawLines bs with
  | nil =>
    rw [ParseProfiles_nil srt bs hr] at hok
    simp only [Except.ok.injEq] at hok
    rw [← hok] at hp
    simp at hp
  | cons raw rest =>
    obtain ⟨mode, _, _, _, _, hall⟩ := ParseProfiles_ok_profiles srt bs raw rest hr ps hok
    obtain ⟨hpm, hmerge⟩ := hall p hp
    rw [hpm] at hmode
    have hperm := hsrt.perm (blocksOfFile p.FileName (records bs))
    have hsum := countSum_perm _ _ hperm
    have hnn : ∀ b ∈ srt (blocksOfFile p.FileName (records bs)), 0 ≤ b.Count := by
      intro b hb
      have hb2 := hperm.subset hb
      simp only [blocksOfFile, List.mem_map, List.mem_filter] at hb2
      obtain ⟨r, ⟨hr1, _⟩, rfl⟩ := hb2
      exact (records_inRange bs r hr1).2.2.2.2.2.1
    rw [← hsum]
    generalize srt (blocksOfFile p.FileName (records bs)) = sl at hmerge hnn
    cases sl with
    | nil =>
      simp only [mergeSamples, Except.ok.injEq] at hmerge
      rw [← hmerge]
      exact ⟨rfl, fun _ => rfl⟩
    | cons b sl =>
      simp only [mergeSamples] at hmerge
      rw [countSum_cons]
      refine ⟨mergeLoop_count_sum mode hmode sl b p.Blocks hmerge, ?_⟩
      intro hle
      exact mergeLoop_count_exact mode hmode sl b p.Blocks hmerge
        (hnn b (List.mem_cons_self _ _)) (fun x hx => hnn x (List.mem_cons_of_mem _ hx)) hle

/-- C24 as stated fails: the counts 9223372036854775807 and 1 of two records of one
block in mode `count` are added to the count -9223372036854775808; the sum of the
counts of the records is 9223372036854775808. -/
theorem ParseProfiles_count_sum_counterexample :
    ParseProfiles insertionSortBlocks
        "mode: count\nf:1.1,1.2 1 9223372036854775807\nf:1.1,1.2 1 1\n".toList =
      .ok [⟨"f".toList, "count".toList, [⟨1, 1, 1, 2, 1, -9223372036854775808⟩]⟩] ∧
    countSum [⟨1, 1, 1, 2, 1, -9223372036854775808⟩] = -9223372036854775808 ∧
    countSum (blocksOfFile "f".toList
        (records "mode: count\nf:1.1,1.2 1 9223372036854775807\nf:1.1,1.2 1 1\n".toList)) =
      9223372036854775808 := by
  decide

/-- Instance of C24: three records of one file in mode `count`, two of them of one
block, with the counts 1, 3 and 5; the two blocks of the profile have the counts 4 and
5. -/
theorem ParseProfiles_count_sum_witness :
    ParseProfiles insertionSortBlocks
        "mode: count\nf:1.1,1.2 1 1\nf:1.1,1.2 1 3\nf:2.1,2.2 1 5\n".toList =
      .ok [⟨"f".toList, "count".toList, [⟨1, 1, 1, 2, 1, 4⟩, ⟨2, 1, 2, 2, 1, 5⟩]⟩] ∧
    countSum [⟨1, 1, 1, 2, 1, 4⟩, ⟨2, 1, 2, 2, 1, 5⟩] =
      countSum (blocksOfFile "f".toList
        (records "mode: count\nf:1.1,1.2 1 1\nf:1.1,1.2 1 3\nf:2.1,2.2 1 5\n".toList)) :=
  ⟨by decide,
   (ParseProfiles_count_sum insertionSortBlocks insertionSortBlocks_sorts
      "mode: count\nf:1.1,1.2 1 1\nf:1.1,1.2 1 3\nf:2.1,2.2 1 5\n".toList
      [⟨"f".toList, "count".toList, [⟨1, 1, 1, 2, 1, 4⟩, ⟨2, 1, 2, 2, 1, 5⟩]⟩] (by decide)
      ⟨"f".toList, "count".toList, [⟨1, 1, 1, 2, 1, 4⟩, ⟨2, 1, 2, 2, 1, 5⟩]⟩
      (List.mem_cons_self _ _) (by decide)).2 (by decide)⟩

/-! ## `ParseProfiles` at particular inputs -/

/-- C2 at the failing input: two records of the block 1.1,2.2 with a record of the
block 1.1,3.3 between them are kept as three blocks; the block 1.1,2.2 is in the
result twice. -/
theorem ParseProfiles_keeps_duplicate :
    ParseProfiles insertionSortBlocks
        "mode: set\nf:1.1,2.2 1 1\nf:1.1,3.3 1 1\nf:1.1,2.2 1 1\n".toList =
      .ok [⟨"f".toList, "set".toList,
        [⟨1, 1, 2, 2, 1, 1⟩, ⟨1, 1, 3, 3, 1, 1⟩, ⟨1, 1, 2, 2, 1, 1⟩]⟩] := by
  decide

/-- C5 at the failing input: two records of the block 1.1,2.2 with 1 and with 2
statements, a record of the block 1.1,3.3 between them, are accepted. -/
theorem ParseProfiles_accepts_inconsistent :
    ParseProfiles insertionSortBlocks
        "mode: set\nf:1.1,2.2 1 1\nf:1.1,3.3 1 1\nf:1.1,2.2 2 1\n".toList =
      .ok [⟨"f".toList, "set".toList,
        [⟨1, 1, 2, 2, 1, 1⟩, ⟨1, 1, 3, 3, 1, 1⟩, ⟨1, 1, 2, 2, 2, 1⟩]⟩] := by
  decide

/-- C6 at the failing input: a record with `x` and `y` in the place of the two dots
is accepted. -/
theorem ParseProfiles_accepts_other_separator :
    ParseProfiles insertionSortBlocks "mode: set\nf:1x2,3y4 1 1\n".toList =
      .ok [⟨"f".toList, "set".toList, [⟨1, 2, 3, 4, 1, 1⟩]⟩] := by
  decide

end Goc
